import Mathlib

set_option maxHeartbeats 4000000

/-!
Shallow embedding of hatchet's call-graph algebra engine
(`src/hatchet/graphframe.py`).

A `GraphFrame` pairs a call graph with a metric table (a pandas
DataFrame in the source).  Nodes are modelled by natural-number
identities; a `Graph` carries its root list, its parent/child edge
list and the `Frame` attached to each node id.  The `Graph`, `Node`
and `Frame` classes themselves are not part of the given source tree,
so their operations (`traverse`, `is_tree`, `normalize`, `union`,
`Frame` equality) are modelled from the spec, as marked below.

Metric cells are modelled as integers; `Val.nan` stands for pandas'
NaN (missing/undefined) values and `Val.str` for string-valued cells
such as the `_missing_node` provenance marker.  Python's in-place
mutation is translated to explicit state passing; methods that raise
return an `Except` value.  Traversals over possibly shared subgraphs
use an explicit fuel argument; the fuel chosen by the wrappers is
large enough for every well-formed graph (see the fuel lemmas).
-/

/-- Modelled from the spec: a `Frame` is an immutable mapping of
attribute names to values, with structural equality. -/
structure Frame where
  attrs : List (String × String)
deriving DecidableEq

/-- A graph: ordered roots, parent-to-child edges, and the frame of
each node id.  Node objects of the Python source are modelled by
their identity (a `Nat`). -/
structure Graph where
  roots : List Nat
  edges : List (Nat × Nat)
  frames : List (Nat × Frame)
deriving DecidableEq

/-- Association-list lookup keyed by decidable equality. -/
def alookup {α β : Type} [DecidableEq α] : List (α × β) → α → Option β
  | [], _ => none
  | p :: rest, k => if p.1 = k then some p.2 else alookup rest k

/-- Association-list update-or-append. -/
def aupdate {α β : Type} [DecidableEq α] : List (α × β) → α → β → List (α × β)
  | [], k, v => [(k, v)]
  | p :: rest, k, v => if p.1 = k then (k, v) :: rest else p :: aupdate rest k v

/-- Keep the first occurrence of every element (models a Python set
built by insertion order). -/
def dedupG {α : Type} [DecidableEq α] : List α → List α
  | [] => []
  | x :: rest => x :: (dedupG rest).filter (fun y => decide (y ≠ x))

/-- Ordered union of two lists viewed as sets. -/
def listUnion (a b : List Nat) : List Nat :=
  a ++ b.filter (fun x => decide (x ∉ a))

/-- The children of node `n`: targets of edges out of `n`, in edge-list
order (models `node.children`). -/
def Graph.childrenOf (g : Graph) (n : Nat) : List Nat :=
  (g.edges.filter (fun e => decide (e.1 = n))).map (fun e => e.2)

/-- The parents of node `n` (models `node.parents`). -/
def Graph.parentsOf (g : Graph) (n : Nat) : List Nat :=
  (g.edges.filter (fun e => decide (e.2 = n))).map (fun e => e.1)

/-- All node ids mentioned by the graph structure. -/
def Graph.univ (g : Graph) : List Nat :=
  dedupG (g.roots ++ g.edges.map (fun e => e.1) ++ g.edges.map (fun e => e.2)
            ++ g.frames.map (fun p => p.1))

/-- The frame of a node id (default: the empty frame). -/
def Graph.frameOf (g : Graph) (n : Nat) : Frame :=
  (alookup g.frames n).getD ⟨[]⟩

/-- Reachability along parent-to-child edges. -/
inductive Reach (g : Graph) : Nat → Nat → Prop
  | refl (n : Nat) : Reach g n n
  | step {a b c : Nat} : Reach g a b → (b, c) ∈ g.edges → Reach g a c

/-- Events of the explicit-stack depth-first traversal. -/
inductive Ev where
  | enter (n : Nat)
  | exitev (n : Nat)
deriving DecidableEq

/-- State of a depth-first traversal: visited set, preorder and
postorder sequences. -/
structure DfsState where
  vis : List Nat
  pre : List Nat
  post : List Nat
deriving DecidableEq

/-- Modelled from the spec: depth-first traversal producing the nodes
reachable from the initial work list, in preorder and postorder, each
node once (`Graph.traverse` / `Node.traverse`).  Runs an explicit
event stack with a visited set; `fuel` bounds the number of steps. -/
def dfsRun (g : Graph) : Nat → List Ev → DfsState → DfsState
  | 0, _, s => s
  | _ + 1, [], s => s
  | fuel + 1, Ev.enter n :: rest, s =>
    if n ∈ s.vis then dfsRun g fuel rest s
    else dfsRun g fuel ((g.childrenOf n).map Ev.enter ++ Ev.exitev n :: rest)
      { vis := n :: s.vis, pre := s.pre ++ [n], post := s.post }
  | fuel + 1, Ev.exitev n :: rest, s =>
    dfsRun g fuel rest { s with post := s.post ++ [n] }

/-- Remaining-work measure of a traversal: pending events plus one
enter and one exit for every unvisited node of the graph's universe,
plus the pushes those visits can cause. -/
def Graph.weight (g : Graph) (vis : List Nat) : Nat :=
  ((g.univ.filter (fun x => decide (x ∉ vis))).map
    (fun n => 2 + (g.childrenOf n).length)).sum

/-- Fuel sufficient to drive `dfsRun` to completion from the given
stack and visited set. -/
def dfsFuel (g : Graph) (stack : List Ev) (vis : List Nat) : Nat :=
  stack.length + g.weight vis + 1

/-- Depth-first traversal from a list of start nodes with fresh state. -/
def Graph.traverseFrom (g : Graph) (starts : List Nat) : DfsState :=
  dfsRun g (dfsFuel g (starts.map Ev.enter) []) (starts.map Ev.enter) ⟨[], [], []⟩

/-- Preorder traversal from the roots (`graph.traverse()`). -/
def Graph.traversePre (g : Graph) : List Nat := (g.traverseFrom g.roots).pre

/-- Postorder traversal from the roots (`graph.traverse(order="post")`). -/
def Graph.traversePost (g : Graph) : List Nat := (g.traverseFrom g.roots).post

/-- Preorder traversal of the subgraph below one node (`node.traverse()`). -/
def Node.traverse (g : Graph) (n : Nat) : List Nat := (g.traverseFrom [n]).pre

/-- The nodes reachable from the roots, as computed by traversal. -/
def Graph.reachList (g : Graph) : List Nat := (g.traverseFrom g.roots).vis

/-- Modelled from the spec: `Graph.is_tree()` is true iff every
non-root reachable node has exactly one parent. -/
def Graph.is_tree (g : Graph) : Bool :=
  g.reachList.all (fun n => decide (n ∈ g.roots) || decide ((g.parentsOf n).length = 1))

/-- A metric-table cell: a numeric value, a string value, or NaN. -/
inductive Val where
  | num (v : Int)
  | str (s : String)
  | nan
deriving DecidableEq

/-- One row of the metric table: a node key and its cells by column. -/
structure Row where
  node : Nat
  cells : List (String × Val)
deriving DecidableEq

/-- The metric table (models the pandas DataFrame indexed by `node`). -/
structure DataFrame where
  cols : List String
  rows : List Row
deriving DecidableEq

/-- Set or insert one cell of a row. -/
def setCell : List (String × Val) → String → Val → List (String × Val)
  | [], c, v => [(c, v)]
  | p :: rest, c, v => if p.1 = c then (c, v) :: rest else p :: setCell rest c v

/-- The node keys of the table, one per row. -/
def DataFrame.keys (df : DataFrame) : List Nat := df.rows.map (fun r => r.node)

/-- The cell of a row, NaN when the column is absent. -/
def cellOrNan (r : Row) (c : String) : Val := (alookup r.cells c).getD Val.nan

/-- The cell at a node key and column, if the row exists. -/
def DataFrame.cellGet (df : DataFrame) (n : Nat) (c : String) : Option Val :=
  match df.rows.find? (fun r => decide (r.node = n)) with
  | some r => alookup r.cells c
  | none => none

/-- The cell at a node key and column, NaN when missing. -/
def DataFrame.cellN (df : DataFrame) (n : Nat) (c : String) : Val :=
  (df.cellGet n c).getD Val.nan

/-- Append a column name if not already present. -/
def addCol (cols : List String) (c : String) : List String :=
  if c ∈ cols then cols else cols ++ [c]

/-- Numeric addition with NaN poisoning (models `np.sum` steps). -/
def valAdd : Val → Val → Val
  | Val.num a, Val.num b => Val.num (a + b)
  | _, _ => Val.nan

/-- Sum of a list of cells, starting from numeric zero (models
`np.sum` over a column selection). -/
def sumVals (l : List Val) : Val := l.foldl valAdd (Val.num 0)

/-- Column sum over the rows keyed by the listed nodes. -/
def sumColOver (df : DataFrame) (ns : List Nat) (c : String) : Val :=
  sumVals (ns.map (fun n => df.cellN n c))

/-- Write the given cells at the row keyed by `n` (models a
`df.loc[node, cols] = vals` assignment; the row is present whenever
the operations below reach it). -/
def DataFrame.setAt (df : DataFrame) (n : Nat) (updates : List (String × Val)) : DataFrame :=
  { df with rows := df.rows.map (fun r =>
      if r.node = n then
        { r with cells := updates.foldl (fun cs p => setCell cs p.1 p.2) r.cells }
      else r) }

/-- Copy column `src` into column `dst` for every row
(`self.dataframe[out] = self.dataframe[col]`). -/
def DataFrame.copyCol (df : DataFrame) (src dst : String) : DataFrame :=
  { cols := addCol df.cols dst,
    rows := df.rows.map (fun r => { r with cells := setCell r.cells dst (cellOrNan r src) }) }

/-- Errors raised by the graphframe operations: `InvalidFilter`,
`EmptyFilter` (the only exception classes defined by the source), and
Python's `ValueError`. -/
inductive Err where
  | invalidFilter
  | emptyFilter
  | valueError (msg : String)
deriving DecidableEq

/-- An input dataset: a graph and a dataframe, plus the declared
exclusive and inclusive metric columns. -/
structure GraphFrame where
  graph : Graph
  dataframe : DataFrame
  exc_metrics : List String
  inc_metrics : List String
deriving DecidableEq

/-- Helper for `subtree_sum` and `subgraph_sum`
(`GraphFrame._init_sum_columns`).  When `out_columns` is given, the
input columns are first copied into the output columns, and only then
are the lengths compared; a mismatch raises `ValueError` after the
copies have been made, mirroring the statement order of the source. -/
def init_sum_columns (df : DataFrame) (columns : List String)
    (out_columns : Option (List String)) : DataFrame × Except Err (List String) :=
  match out_columns with
  | none =>
    if columns.length ≠ columns.length then
      (df, Except.error (Err.valueError "columns out_columns must be the same length!"))
    else (df, Except.ok columns)
  | some outs =>
    let df1 := (columns.zip outs).foldl (fun d p => d.copyCol p.1 p.2) df
    if columns.length ≠ outs.length then
      (df1, Except.error (Err.valueError "columns out_columns must be the same length!"))
    else (df1, Except.ok outs)

/-- Compute sums of elements in subtrees (`GraphFrame.subtree_sum`
with the default `function=np.sum`): one postorder pass; at every node
with children, the output columns receive the column sums over the
node together with its children. -/
def GraphFrame.subtree_sum (gf : GraphFrame) (columns : List String)
    (out_columns : Option (List String)) : GraphFrame × Except Err Unit :=
  match init_sum_columns gf.dataframe columns out_columns with
  | (df0, Except.error e) => ({ gf with dataframe := df0 }, Except.error e)
  | (df0, Except.ok outs) =>
    let df1 := gf.graph.traversePost.foldl
      (fun d node =>
        if gf.graph.childrenOf node ≠ [] then
          d.setAt node (outs.map (fun oc =>
            (oc, sumColOver d (node :: gf.graph.childrenOf node) oc)))
        else d) df0
    ({ gf with dataframe := df1 }, Except.ok ())

/-- The general (worst-case quadratic) branch of
`GraphFrame.subgraph_sum`: for every node, the output columns receive
the sums of the input columns over the node's whole reachable
subgraph.  The table here has the single `node` index level, so the
non-MultiIndex branch of the source applies. -/
def GraphFrame.subgraphFallback (gf : GraphFrame) (columns : List String)
    (out_columns : Option (List String)) : GraphFrame × Except Err Unit :=
  match init_sum_columns gf.dataframe columns out_columns with
  | (df0, Except.error e) => ({ gf with dataframe := df0 }, Except.error e)
  | (df0, Except.ok outs) =>
    let df1 := gf.graph.traversePre.foldl
      (fun d node =>
        d.setAt node ((outs.zip columns).map (fun p =>
          (p.1, sumColOver d (Node.traverse gf.graph node) p.2)))) df0
    ({ gf with dataframe := df1 }, Except.ok ())

/-- Compute sums of elements in subgraphs (`GraphFrame.subgraph_sum`):
dispatches to `subtree_sum` when the graph is a tree, otherwise runs
the general quadratic algorithm. -/
def GraphFrame.subgraph_sum (gf : GraphFrame) (columns : List String)
    (out_columns : Option (List String)) : GraphFrame × Except Err Unit :=
  if gf.graph.is_tree then gf.subtree_sum columns out_columns
  else gf.subgraphFallback columns out_columns

/-- Update inclusive columns
(`GraphFrame.update_inclusive_columns`): the inclusive metrics are the
exclusive ones suffixed with " (inc)", recomputed by subgraph sum. -/
def GraphFrame.update_inclusive_columns (gf : GraphFrame) : GraphFrame :=
  let inc := gf.exc_metrics.map (fun s => s ++ " (inc)")
  (GraphFrame.subgraph_sum { gf with inc_metrics := inc } gf.exc_metrics (some inc)).1

/-- State of the `rewire` recursion inside `GraphFrame.squash`: the
`connections` frontier sets per old node, the visited set, and the new
graph's roots and edges accumulated so far.  New nodes are the fresh
copies of the retained old nodes; since each copy keeps its old
node's frame and hatchet id, a copy is modelled by the same id in the
new graph's namespace. -/
structure RWState where
  connections : List (Nat × List Nat)
  visited : List Nat
  new_roots : List Nat
  new_edges : List (Nat × Nat)
deriving DecidableEq

/-- The frontier set recorded for an old node (empty by default,
matching the `defaultdict` of the source). -/
def RWState.conn (s : RWState) (n : Nat) : List Nat :=
  (alookup s.connections n).getD []

/-- Connect one new node under the new parent, or record it as a new
root (the body of the `for n in connections[node]` loop). -/
def RWState.connectOne (s : RWState) (np : Option Nat) (n : Nat) : RWState :=
  match np with
  | some p =>
    if (p, n) ∈ s.new_edges then s
    else { s with new_edges := s.new_edges ++ [(p, n)] }
  | none =>
    if n ∈ s.new_roots then s
    else { s with new_roots := s.new_roots ++ [n] }

/-- Connect every node of a frontier set. -/
def RWState.connectAll (s : RWState) (np : Option Nat) (ns : List Nat) : RWState :=
  ns.foldl (fun s1 n => s1.connectOne np n) s

/-- Overwrite the recorded frontier set of an old node. -/
def RWState.setConn (s : RWState) (n : Nat) (v : List Nat) : RWState :=
  { s with connections := aupdate s.connections n v }

/-- The recursive `rewire` of `GraphFrame.squash`: connects the
current node's frontier under the nearest retained ancestor (or as a
root), recurses into unvisited children — the `for child in
node.children` loop is the fold, unioning the children's transitive
frontiers — and returns the node's own frontier.  `fuel` bounds the
recursion depth; the callers pass enough for every graph whose
reachable nodes lie in its universe. -/
def rewire (g : Graph) (retained : List Nat) : Nat → Nat → Option Nat → RWState →
    List Nat × RWState
  | 0, _, _, s => ([], s)
  | fuel + 1, node, new_parent, s =>
    let s1 := s.connectAll new_parent (s.conn node)
    let new_node : Option Nat := if node ∈ retained then some node else none
    let tr :=
      if node ∈ s1.visited then ([], s1)
      else (g.childrenOf node).foldl
        (fun acc c =>
          let r := rewire g retained fuel c
            (match new_node with | some nn => some nn | none => new_parent) acc.2
          (listUnion acc.1 r.1, r.2))
        ([], { s1 with visited := node :: s1.visited })
    match new_node with
    | some nn => ([nn], tr.2)
    | none =>
      let s3 := tr.2.setConn node (listUnion (tr.2.conn node) tr.1)
      (s3.conn node, s3)

/-- The loop of `squash` running `rewire` for each root with no new
parent, threading the shared state. -/
def rewireRoots (g : Graph) (retained : List Nat) (fuel : Nat) (roots : List Nat)
    (s : RWState) : RWState :=
  roots.foldl (fun st root => (rewire g retained fuel root none st).2) s

/-- Substitution merging node `c` into node `b`. -/
def substNode (b c x : Nat) : Nat := if x = c then b else x

/-- Whether `b` and `c` are distinct same-frame siblings (or roots),
i.e. a pair that `Graph.normalize` merges. -/
def Graph.sibDup (g : Graph) (b c : Nat) : Bool :=
  decide (b ≠ c) && decide (g.frameOf b = g.frameOf c) &&
    ((decide (b ∈ g.roots) && decide (c ∈ g.roots)) ||
      g.edges.any (fun e => decide (e.2 = b) && decide ((e.1, c) ∈ g.edges)))

/-- The first mergeable pair, scanning node ids in order. -/
def Graph.findMergePair (g : Graph) : Option (Nat × Nat) :=
  ((g.frames.map (fun p => p.1)).map (fun b =>
      ((g.frames.map (fun p => p.1)).filter (fun c => g.sibDup b c)).map
        (fun c => (b, c)))).flatten.head?

/-- Merge node `c` into node `b`: redirect every edge and root entry
of `c` to `b`, dropping duplicates and self-edges, and remove `c`. -/
def Graph.mergeStep (g : Graph) (b c : Nat) : Graph :=
  { roots := dedupG (g.roots.map (substNode b c)),
    edges := dedupG ((g.edges.map (fun e => (substNode b c e.1, substNode b c e.2))).filter
      (fun e => decide (e.1 ≠ e.2))),
    frames := g.frames.filter (fun p => decide (p.1 ≠ c)) }

/-- Modelled from the spec: `Graph.normalize` merges sibling nodes
with identical frames until none remain, returning the merged graph
and the fully resolved old-to-surviving-node mapping applied to the
metric table. -/
def Graph.normalizeGo : Nat → Graph → List (Nat × Nat) → Graph × List (Nat × Nat)
  | 0, g, ms => (g, ms)
  | fuel + 1, g, ms =>
    match g.findMergePair with
    | none => (g, ms)
    | some (b, c) =>
      Graph.normalizeGo fuel (g.mergeStep b c)
        (ms.map (fun p => (p.1, substNode b c p.2)) ++ [(c, b)])

/-- Modelled from the spec: see `Graph.normalizeGo`. -/
def Graph.normalize (g : Graph) : Graph × List (Nat × Nat) :=
  Graph.normalizeGo (g.frames.length + 1) g []

/-- Insertion into a sorted list of naturals. -/
def insNat (x : Nat) : List Nat → List Nat
  | [] => [x]
  | y :: rest => if x ≤ y then x :: y :: rest else y :: insNat x rest

/-- Insertion sort on naturals (models `sort_index`). -/
def insSortNat : List Nat → List Nat
  | [] => []
  | x :: rest => insNat x (insSortNat rest)

/-- Code-point lexicographic strict order on character lists. -/
def strLtData : List Char → List Char → Bool
  | [], [] => false
  | [], _ :: _ => true
  | _ :: _, [] => false
  | a :: as, b :: bs =>
    if a.toNat < b.toNat then true
    else if b.toNat < a.toNat then false
    else strLtData as bs

/-- Code-point lexicographic order on strings (the order pandas uses
for sorted column labels). -/
def strLeB (a b : String) : Bool := !(strLtData b.data a.data)

/-- Insertion into a sorted list of strings. -/
def insStr (x : String) : List String → List String
  | [] => [x]
  | y :: rest => if strLeB x y then x :: y :: rest else y :: insStr x rest

/-- Insertion sort on strings (models the column sort of
`append(..., sort=True)`). -/
def insSortStr : List String → List String
  | [] => []
  | x :: rest => insStr x (insSortStr rest)

/-- The rows of the table keyed by node `n`. -/
def DataFrame.rowsFor (df : DataFrame) (n : Nat) : List Row :=
  df.rows.filter (fun r => decide (r.node = n))

/-- Group the table by node and aggregate: metric columns are summed,
other columns keep the first row's value; the result is sorted by
node key (the `groupby(index_names).agg(agg_dict)` plus `sort_index`
of `squash`). -/
def dfGroupNodeSum (df : DataFrame) (metrics : List String) : DataFrame :=
  { cols := df.cols,
    rows := (insSortNat (dedupG df.keys)).map (fun k =>
      { node := k,
        cells := df.cols.map (fun c =>
          (c, if c ∈ metrics then sumVals ((df.rowsFor k).map (fun r => cellOrNan r c))
              else (((df.rowsFor k).head?).map (fun r => cellOrNan r c)).getD Val.nan)) }) }

/-- The retained node set of a squash: the distinct node keys of the
dataframe (`set(self.dataframe["node"])`, the keys of `old_to_new`;
the fresh copies keep their old node's frame and hatchet id, so a copy
is modelled by the same id in the new graph's namespace). -/
def GraphFrame.squashRetained (gf : GraphFrame) : List Nat :=
  dedupG gf.dataframe.keys

/-- The state after running `rewire` over all roots in `squash`,
starting from the connections map `{old: {new}}` for retained nodes. -/
def GraphFrame.squashState (gf : GraphFrame) : RWState :=
  rewireRoots gf.graph gf.squashRetained (gf.graph.univ.length + 1) gf.graph.roots
    { connections := gf.squashRetained.map (fun r => (r, [r])),
      visited := [], new_roots := [], new_edges := [] }

/-- The rewired graph of `squash` before normalization
(`graph = Graph(new_roots)`). -/
def GraphFrame.squashGraph0 (gf : GraphFrame) : Graph :=
  { roots := gf.squashState.new_roots, edges := gf.squashState.new_edges,
    frames := gf.squashRetained.map (fun r => (r, gf.graph.frameOf r)) }

/-- Rewrite the graph to include only nodes present in the table's
rows (`GraphFrame.squash`): copy each retained node, rewire transitive
relationships around removed nodes, normalize sibling duplicates,
re-key and re-aggregate the table, and recompute inclusive metrics. -/
def GraphFrame.squash (gf : GraphFrame) : GraphFrame :=
  let nm := gf.squashGraph0.normalize
  let df1 : DataFrame :=
    { cols := gf.dataframe.cols,
      rows := gf.dataframe.rows.map (fun r =>
        { r with node := (alookup nm.2 r.node).getD r.node }) }
  let agg := dfGroupNodeSum df1 (gf.exc_metrics ++ gf.inc_metrics)
  GraphFrame.update_inclusive_columns
    { graph := nm.1, dataframe := agg,
      exc_metrics := gf.exc_metrics, inc_metrics := gf.inc_metrics }

/-- A filter argument of a supported kind (`GraphFrame.filter`):
either a callable row predicate, or a query whose matches (the node
sets returned by `QueryMatcher.apply`, modelled from the spec's
query/filter contract) select the node keys to retain. -/
inductive FilterArg where
  | callable (f : Row → Bool)
  | query (matchSets : List (List Nat))

/-- The rows retained by a filter argument: the rows satisfying the
callable, or the rows whose node is in the union of the query's
match sets. -/
def GraphFrame.filterRows (gf : GraphFrame) (filter_obj : FilterArg) : List Row :=
  match filter_obj with
  | FilterArg.callable f => gf.dataframe.rows.filter f
  | FilterArg.query qs =>
    let match_set := qs.foldl (fun acc l => listUnion acc l) []
    gf.dataframe.rows.filter (fun r => decide (r.node ∈ match_set))

/-- Filter the dataframe (`GraphFrame.filter`): restrict the rows by
the filter argument; an empty result raises `EmptyFilter`; otherwise
a new GraphFrame over the same graph (optionally squashed) is
returned.  The first component is the receiver after the call, which
the source never mutates. -/
def GraphFrame.filter (gf : GraphFrame) (filter_obj : FilterArg) (squashFlag : Bool) :
    GraphFrame × Except Err GraphFrame :=
  let filtered_rows := gf.filterRows filter_obj
  if filtered_rows.length = 0 then (gf, Except.error Err.emptyFilter)
  else
    let filtered_gf : GraphFrame :=
      { graph := gf.graph,
        dataframe := { cols := gf.dataframe.cols, rows := filtered_rows },
        exc_metrics := gf.exc_metrics, inc_metrics := gf.inc_metrics }
    if squashFlag then (gf, Except.ok filtered_gf.squash)
    else (gf, Except.ok filtered_gf)

/-- State of the graph union: the node map keyed by (side, old id)
with `false` for the left input, the fresh-id counter, and the result
graph under construction. -/
structure UnionState where
  node_map : List ((Bool × Nat) × Nat)
  ctr : Nat
  roots : List Nat
  edges : List (Nat × Nat)
  frames : List (Nat × Frame)
deriving DecidableEq

/-- Allocate a fresh node with the given frame, linked under the
parent or appended to the roots. -/
def UnionState.fresh (st : UnionState) (f : Frame) (parent : Option Nat) :
    Nat × UnionState :=
  let n := st.ctr
  let st1 := { st with ctr := st.ctr + 1, frames := st.frames ++ [(n, f)] }
  match parent with
  | none => (n, { st1 with roots := st1.roots ++ [n] })
  | some p => (n, { st1 with edges := st1.edges ++ [(p, n)] })

/-- Modelled from the spec: `Graph.union` merges two graphs by a
synchronized traversal matching nodes by frame equality along call
paths from the roots; matched nodes are unified into one fresh node,
one-sided nodes are copied, and the node map records old-to-new
identities for both inputs. -/
def unionLevel (ga gb : Graph) : Nat → List Nat → List Nat → Option Nat → UnionState →
    UnionState
  | 0, _, _, _, st => st
  | fuel + 1, aNodes, bNodes, parent, st =>
    let afterA := aNodes.foldl
      (fun (acc : List Nat × UnionState) a =>
        let fa := ga.frameOf a
        match acc.1.find? (fun b => decide (gb.frameOf b = fa)) with
        | some b =>
          let fr := acc.2.fresh fa parent
          let st2 := { fr.2 with
            node_map := fr.2.node_map ++ [((false, a), fr.1), ((true, b), fr.1)] }
          (acc.1.erase b,
            unionLevel ga gb fuel (ga.childrenOf a) (gb.childrenOf b) (some fr.1) st2)
        | none =>
          let fr := acc.2.fresh fa parent
          let st2 := { fr.2 with node_map := fr.2.node_map ++ [((false, a), fr.1)] }
          (acc.1, unionLevel ga gb fuel (ga.childrenOf a) [] (some fr.1) st2))
      (bNodes, st)
    afterA.1.foldl
      (fun st1 b =>
        let fb := gb.frameOf b
        let fr := st1.fresh fb parent
        let st2 := { fr.2 with node_map := fr.2.node_map ++ [((true, b), fr.1)] }
        unionLevel ga gb fuel [] (gb.childrenOf b) (some fr.1) st2)
      afterA.2

/-- Modelled from the spec: see `unionLevel`. -/
def Graph.union (ga gb : Graph) : Graph × List ((Bool × Nat) × Nat) :=
  let fuel := ga.univ.length + gb.univ.length + 1
  let st := unionLevel ga gb fuel ga.roots gb.roots none ⟨[], 0, [], [], []⟩
  ({ roots := st.roots, edges := st.edges, frames := st.frames }, st.node_map)

/-- Re-key every row of a table through a node mapping. -/
def remapDf (df : DataFrame) (f : Nat → Nat) : DataFrame :=
  { df with rows := df.rows.map (fun r => { r with node := f r.node }) }

/-- Helper adding the rows that exist in `other` but not in `gf`
(`GraphFrame._insert_missing_rows`): a `_missing_node` marker column
is joined onto the left table when either side has exclusive rows;
left-only rows are marked "L"; rows only in `other` are appended to
the left table with all metric columns zeroed and marker "R".  The
stages below spell out the steps; this one is the unioned metric
column list (`all_metrics`). -/
def GraphFrame.imrMetrics (gf other : GraphFrame) : List String :=
  dedupG (gf.exc_metrics ++ gf.inc_metrics ++ other.exc_metrics ++ other.inc_metrics)

/-- Rows of `other` whose node is missing from `gf`'s table
(`other_not_in_self`). -/
def GraphFrame.imrRightOnly (gf other : GraphFrame) : List Row :=
  other.dataframe.rows.filter (fun r => decide (r.node ∉ gf.dataframe.keys))

/-- Rows of `gf` whose node is missing from `other`'s table
(`self_not_in_other`). -/
def GraphFrame.imrLeftOnly (gf other : GraphFrame) : List Row :=
  gf.dataframe.rows.filter (fun r => decide (r.node ∉ other.dataframe.keys))

/-- The left table after joining the `_missing_node` marker column,
added (empty) when either side has exclusive rows. -/
def GraphFrame.imrSelfDf (gf other : GraphFrame) : DataFrame :=
  if decide (gf.imrLeftOnly other ≠ []) || decide (gf.imrRightOnly other ≠ []) then
    { cols := addCol gf.dataframe.cols "_missing_node",
      rows := gf.dataframe.rows.map (fun r =>
        { r with cells := setCell r.cells "_missing_node" (Val.str "") }) }
  else gf.dataframe

/-- The left rows with the "L" marker set on left-only rows. -/
def GraphFrame.imrMarked (gf other : GraphFrame) : List Row :=
  (gf.imrSelfDf other).rows.map (fun r =>
    if r.node ∈ (gf.imrLeftOnly other).map (fun q => q.node) then
      { r with cells := setCell r.cells "_missing_node" (Val.str "L") }
    else r)

/-- The zero-filled "R"-marked rows inserted for right-only nodes. -/
def GraphFrame.imrInserted (gf other : GraphFrame) : List Row :=
  (gf.imrRightOnly other).map (fun r =>
    { node := r.node,
      cells := setCell
        ((gf.imrMetrics other).foldl (fun cs m => setCell cs m (Val.num 0)) r.cells)
        "_missing_node" (Val.str "R") })

/-- See the stage definitions above; the final column list is sorted
as by `append(..., sort=True)`. -/
def GraphFrame.insert_missing_rows (gf other : GraphFrame) : GraphFrame :=
  { gf with dataframe :=
      ({ cols := insSortStr (dedupG ((gf.imrSelfDf other).cols ++ other.dataframe.cols
            ++ (if gf.imrRightOnly other ≠ [] then ["_missing_node"] else []))),
         rows := gf.imrMarked other ++ gf.imrInserted other } : DataFrame) }

/-- Unify two graphframes (`GraphFrame.unify`): a no-op when they
already share the same graph; otherwise union the graphs, re-key both
tables through the node map, and add the missing rows to the left
table.  Returns the two updated graphframes. -/
def GraphFrame.unify (gf other : GraphFrame) : GraphFrame × GraphFrame :=
  if gf.graph = other.graph then (gf, other)
  else
    let u := Graph.union gf.graph other.graph
    let mapL : Nat → Nat := fun n => (alookup u.2 (false, n)).getD n
    let mapR : Nat → Nat := fun n => (alookup u.2 (true, n)).getD n
    let gf1 := { gf with dataframe := remapDf gf.dataframe mapL }
    let other1 := { other with dataframe := remapDf other.dataframe mapR }
    let gf2 := GraphFrame.insert_missing_rows gf1 other1
    ({ gf2 with graph := u.1 }, { other1 with graph := u.1 })

/-- Select a column subset of a table (`df[all_metrics]`). -/
def DataFrame.select (df : DataFrame) (colsSel : List String) : DataFrame :=
  { cols := colsSel,
    rows := df.rows.map (fun r => { r with cells := colsSel.map (fun c => (c, cellOrNan r c)) }) }

/-- Index- and column-aligned addition of two tables (`df.add`):
cells missing on either side yield NaN. -/
def valAddAligned : Option Val → Option Val → Val
  | some (Val.num a), some (Val.num b) => Val.num (a + b)
  | _, _ => Val.nan

/-- Aligned addition of two tables (`self.dataframe.add(other)`). -/
def DataFrame.addAligned (a b : DataFrame) : DataFrame :=
  let ks := dedupG (a.keys ++ b.keys)
  let cs := insSortStr (dedupG (a.cols ++ b.cols))
  { cols := cs,
    rows := ks.map (fun n =>
      { node := n, cells := cs.map (fun c => (c, valAddAligned (a.cellGet n c) (b.cellGet n c))) }) }

/-- In-place update from another table (`df.update`): every existing
cell is overwritten by the aligned non-NaN value when present. -/
def DataFrame.updateWith (a b : DataFrame) : DataFrame :=
  { a with rows := a.rows.map (fun r =>
      { r with cells := r.cells.map (fun p =>
          match b.cellGet r.node p.1 with
          | some v => if v = Val.nan then p else (p.1, v)
          | none => p) }) }

/-- Apply a table operator over the unioned metric columns and store
the result in the receiver (`GraphFrame._operator`). -/
def GraphFrame.operatorWith (gf other : GraphFrame) (op : DataFrame → DataFrame) : GraphFrame :=
  let all_metrics := dedupG (gf.exc_metrics ++ gf.inc_metrics
    ++ other.exc_metrics ++ other.inc_metrics)
  { gf with dataframe := gf.dataframe.updateWith (op (other.dataframe.select all_metrics)) }

/-- Shallow copy (`GraphFrame.copy`): the dataframe is copied by
value, the graph is shared. -/
def GraphFrame.copy (gf : GraphFrame) : GraphFrame :=
  { graph := gf.graph, dataframe := gf.dataframe,
    exc_metrics := gf.exc_metrics, inc_metrics := gf.inc_metrics }

/-- Column-wise sum of two graphframes as a new graphframe
(`GraphFrame.add`): copy both, unify the copies, then apply the
aligned addition through `_operator`. -/
def GraphFrame.add (gf other : GraphFrame) : GraphFrame :=
  let self_copy := gf.copy
  let other_copy := other.copy
  let u := GraphFrame.unify self_copy other_copy
  GraphFrame.operatorWith u.1 u.2 (fun d => u.1.dataframe.addAligned d)

/-! Concrete instances used to test the claims. -/

/-- A frame with the given name attribute. -/
def fr (s : String) : Frame := ⟨[("name", s)]⟩

/-- The four-node linear chain root(0) → child(1) → grandchild(2) → leaf(3). -/
def chainG : Graph :=
  { roots := [0], edges := [(0, 1), (1, 2), (2, 3)],
    frames := [(0, fr "a"), (1, fr "b"), (2, fr "c"), (3, fr "d")] }

/-- Exclusive metric values 2, 3, 4, 5 along the chain, in path order. -/
def chainDF : DataFrame :=
  { cols := ["time"],
    rows := [⟨0, [("time", Val.num 2)]⟩, ⟨1, [("time", Val.num 3)]⟩,
             ⟨2, [("time", Val.num 4)]⟩, ⟨3, [("time", Val.num 5)]⟩] }

/-- The chain graphframe of the end-to-end subtree-sum example. -/
def chainGF : GraphFrame := ⟨chainG, chainDF, ["time"], []⟩

/-- A one-row table with two metric columns, for the column-length
mismatch example. -/
def c8gf : GraphFrame :=
  ⟨{ roots := [0], edges := [], frames := [(0, fr "a")] },
   { cols := ["a", "b"], rows := [⟨0, [("a", Val.num 1), ("b", Val.num 2)]⟩] },
   ["a", "b"], []⟩

/-- A graphframe whose dataframe retains zero node rows. -/
def emptyRowsGF : GraphFrame :=
  ⟨{ roots := [0], edges := [], frames := [(0, fr "a")] },
   { cols := ["time"], rows := [] }, ["time"], []⟩

/-- The graphframe returned by a successful filter of `chainGF` that
keeps only the root row. -/
def c10res : GraphFrame :=
  ⟨chainG, { cols := ["time"], rows := [⟨0, [("time", Val.num 2)]⟩] }, ["time"], []⟩

/-- Left operand of the missing-node arithmetic example: node set
{x, y} as two roots, with metric values `ax` and `ay`. -/
def gfA6 (ax ay : Int) : GraphFrame :=
  ⟨{ roots := [0, 1], edges := [], frames := [(0, fr "x"), (1, fr "y")] },
   { cols := ["time"], rows := [⟨0, [("time", Val.num ax)]⟩, ⟨1, [("time", Val.num ay)]⟩] },
   ["time"], []⟩

/-- Right operand of the missing-node arithmetic example: node set
{y, z} as two roots, with metric values `bv` and `bz`. -/
def gfB6 (bv bz : Int) : GraphFrame :=
  ⟨{ roots := [0, 1], edges := [], frames := [(0, fr "y"), (1, fr "z")] },
   { cols := ["time"], rows := [⟨0, [("time", Val.num bv)]⟩, ⟨1, [("time", Val.num bz)]⟩] },
   ["time"], []⟩

/-- The graph of the left operand of the missing-node example. -/
def gA6g : Graph := { roots := [0, 1], edges := [], frames := [(0, fr "x"), (1, fr "y")] }

/-- The graph of the right operand of the missing-node example. -/
def gB6g : Graph := { roots := [0, 1], edges := [], frames := [(0, fr "y"), (1, fr "z")] }

/-- The node map produced by the union of the two example graphs. -/
def c6nm : List ((Bool × Nat) × Nat) :=
  [((false, 0), 0), ((false, 1), 1), ((true, 0), 1), ((true, 1), 2)]

/-- The unified graph of the missing-node example: x, y, z get ids
0, 1, 2. -/
def c6g : Graph :=
  { roots := [0, 1, 2], edges := [], frames := [(0, fr "x"), (1, fr "y"), (2, fr "z")] }

/-- The left table after unify: the x row marked "L", the y row
shared, and a zero-filled "R" row inserted for z. -/
def c6rowsL (ax ay : Int) : List Row :=
  [⟨0, [("time", Val.num ax), ("_missing_node", Val.str "L")]⟩,
   ⟨1, [("time", Val.num ay), ("_missing_node", Val.str "")]⟩,
   ⟨2, [("time", Val.num 0), ("_missing_node", Val.str "R")]⟩]

/-- The left graphframe after unify in the missing-node example. -/
def c6uL (ax ay : Int) : GraphFrame :=
  ⟨c6g, ⟨["_missing_node", "time"], c6rowsL ax ay⟩, ["time"], []⟩

/-- The right graphframe after unify in the missing-node example: no
row was inserted for x. -/
def c6uR (bv bz : Int) : GraphFrame :=
  ⟨c6g, ⟨["time"], [⟨1, [("time", Val.num bv)]⟩, ⟨2, [("time", Val.num bz)]⟩]⟩, ["time"], []⟩

/-- A rewire state with no frontier connections and no new roots or
edges (the invariant of squashing an empty retained set). -/
def RWEmpty (s : RWState) : Prop :=
  (∀ n, s.conn n = []) ∧ s.new_roots = [] ∧ s.new_edges = []

/-- Reachability from some root of the graph (the node set the spec's
invariant compares with the table's keys). -/
def Graph.RootReach (g : Graph) (x : Nat) : Prop :=
  ∃ r, r ∈ g.roots ∧ Reach g r x

/-- Reachability in the new graph accumulated by a rewire state. -/
def RWState.NReach (s : RWState) (x : Nat) : Prop :=
  ∃ r, r ∈ s.new_roots ∧ Reach ⟨s.new_roots, s.new_edges, []⟩ r x

/-- State-extension order of the rewire recursion: the visited set, the
new roots, the new edges and every frontier set only grow. -/
def RWState.Ext (s t : RWState) : Prop :=
  (∀ x, x ∈ s.visited → x ∈ t.visited) ∧
  (∀ x, x ∈ s.new_roots → x ∈ t.new_roots) ∧
  (∀ e, e ∈ s.new_edges → e ∈ t.new_edges) ∧
  (∀ n x, x ∈ s.conn n → x ∈ t.conn n)

/-- Invariant of the rewire recursion over the retained set `R`: the
frontier sets, new roots and new edges stay inside `R`; every retained
node stays in its own frontier set; every visited retained node is
reachable in the new graph. -/
def RWInv (R : List Nat) (s : RWState) : Prop :=
  (∀ n x, x ∈ s.conn n → x ∈ R) ∧
  (∀ x, x ∈ s.new_roots → x ∈ R) ∧
  (∀ e, e ∈ s.new_edges → e.1 ∈ R ∧ e.2 ∈ R) ∧
  (∀ y, y ∈ R → y ∈ s.conn y) ∧
  (∀ y, y ∈ R → y ∈ s.visited → s.NReach y)

/-- The node keys of the frame table. -/
def Graph.frameKeys (g : Graph) : List Nat := g.frames.map (fun p => p.1)

/-- The resolved old-to-surviving-node mapping of a merge list
(`merges.get(n, n)`). -/
def mapOf (ms : List (Nat × Nat)) (x : Nat) : Nat := (alookup ms x).getD x

/-- One step of the children fold inside `rewire`. -/
def rwStep (g : Graph) (R : List Nat) (fuel : Nat) (np : Option Nat)
    (acc : List Nat × RWState) (c : Nat) : List Nat × RWState :=
  (listUnion acc.1 (rewire g R fuel c np acc.2).1, (rewire g R fuel c np acc.2).2)

/-- Big-step relation of the event-stack traversal: the graph of the
`dfsRun` recursion, independent of fuel. -/
inductive DfsBig (g : Graph) : List Ev → DfsState → DfsState → Prop
  | nil (s : DfsState) : DfsBig g [] s s
  | enter_vis {n : Nat} {rest : List Ev} {s u : DfsState} :
      n ∈ s.vis → DfsBig g rest s u → DfsBig g (Ev.enter n :: rest) s u
  | enter_new {n : Nat} {rest : List Ev} {s u : DfsState} :
      n ∉ s.vis →
      DfsBig g ((g.childrenOf n).map Ev.enter ++ Ev.exitev n :: rest)
        { vis := n :: s.vis, pre := s.pre ++ [n], post := s.post } u →
      DfsBig g (Ev.enter n :: rest) s u
  | exit_ev {n : Nat} {rest : List Ev} {s u : DfsState} :
      DfsBig g rest { s with post := s.post ++ [n] } u →
      DfsBig g (Ev.exitev n :: rest) s u

/-- Children-before-parent property of a node sequence: wherever a
node appears, all its children appear earlier. -/
def ChildrenClosed (g : Graph) (l : List Nat) : Prop :=
  ∀ P x Q, l = P ++ x :: Q → ∀ c, c ∈ g.childrenOf x → c ∈ P

/-- The number of universe nodes not yet visited (the termination
measure of the traversals). -/
def unvisCount (g : Graph) (vis : List Nat) : Nat :=
  (g.univ.filter (fun x => decide (x ∉ vis))).length

/-- The subtree input sum of a node: the sum of one input column over
the node's reachable subgraph, as the fallback algorithm computes it. -/
def subSum (g : Graph) (df0 : DataFrame) (ci : String) (n : Nat) : Val :=
  sumVals ((Node.traverse g n).map (fun y => df0.cellN y ci))

/-! Verification of the claims, easiest first.  Shared helper lemmas
are interleaved before the claim theorems that use them. -/

/-- C5: For the four-node linear chain root→child→grandchild→leaf with
exclusive metric values [2, 3, 4, 5] in path order, subtree_sum with
the default addition operator writes inclusive sums [14, 12, 9, 5] for
root, child, grandchild, and leaf respectively. -/
theorem C5_subtree_sum_chain :
    (chainGF.subtree_sum ["time"] none).2 = Except.ok () ∧
    (chainGF.subtree_sum ["time"] none).1.dataframe.cellGet 0 "time" = some (Val.num 14) ∧
    (chainGF.subtree_sum ["time"] none).1.dataframe.cellGet 1 "time" = some (Val.num 12) ∧
    (chainGF.subtree_sum ["time"] none).1.dataframe.cellGet 2 "time" = some (Val.num 9) ∧
    (chainGF.subtree_sum ["time"] none).1.dataframe.cellGet 3 "time" = some (Val.num 5) := by
  exact ⟨rfl, by decide, by decide, by decide, by decide⟩

/-- C8 counterexample: with columns ["a", "b"] and out_columns ["c"],
`subtree_sum` does raise the length-mismatch `ValueError`, but the
dataframe is not left unchanged: the first zipped output column has
already been written when the error is raised (the source copies
`df[out] = df[col]` before comparing the lengths). -/
theorem C8_counterexample :
    (c8gf.subtree_sum ["a", "b"] (some ["c"])).2 =
      Except.error (Err.valueError "columns out_columns must be the same length!") ∧
    (c8gf.subtree_sum ["a", "b"] (some ["c"])).1.dataframe ≠ c8gf.dataframe := by
  exact ⟨rfl, by decide⟩

/-- C8 amended: when `columns` and `out_columns` have different
lengths, both `subtree_sum` and `subgraph_sum` fail with the
column-length-mismatch `ValueError`, but the dataframe is left with
the zipped prefix of output columns already copied from the input
columns (the mutation precedes the check), not unchanged. -/
theorem C8_mismatch_error_partial_write (gf : GraphFrame) (columns outs : List String)
    (h : columns.length ≠ outs.length) :
    ((gf.subtree_sum columns (some outs)).2 =
        Except.error (Err.valueError "columns out_columns must be the same length!") ∧
      (gf.subtree_sum columns (some outs)).1.dataframe =
        (columns.zip outs).foldl (fun d p => d.copyCol p.1 p.2) gf.dataframe) ∧
    ((gf.subgraph_sum columns (some outs)).2 =
        Except.error (Err.valueError "columns out_columns must be the same length!") ∧
      (gf.subgraph_sum columns (some outs)).1.dataframe =
        (columns.zip outs).foldl (fun d p => d.copyCol p.1 p.2) gf.dataframe) := by
  have hinit : init_sum_columns gf.dataframe columns (some outs) =
      ((columns.zip outs).foldl (fun d p => d.copyCol p.1 p.2) gf.dataframe,
        Except.error (Err.valueError "columns out_columns must be the same length!")) := by
    simp [init_sum_columns, h]
  refine ⟨⟨?_, ?_⟩, ?_⟩
  · simp [GraphFrame.subtree_sum, hinit]
  · simp [GraphFrame.subtree_sum, hinit]
  · by_cases ht : gf.graph.is_tree
    · simp [GraphFrame.subgraph_sum, ht, GraphFrame.subtree_sum, hinit]
    · simp [GraphFrame.subgraph_sum, ht, GraphFrame.subgraphFallback, hinit]

/-- C8 witness: the amended statement at the concrete mismatch input. -/
theorem C8_witness :
    (["a", "b"] : List String).length ≠ (["c"] : List String).length ∧
    (c8gf.subtree_sum ["a", "b"] (some ["c"])).2 =
      Except.error (Err.valueError "columns out_columns must be the same length!") := by
  refine ⟨by decide, ?_⟩
  exact (C8_mismatch_error_partial_write c8gf ["a", "b"] ["c"] (by decide)).1.1

/-- C10 counterexample: a filter that matches no rows makes `filter`
raise `EmptyFilter` instead of returning a new GraphFrame, so the
claim does not hold for every valid filter argument. -/
theorem C10_counterexample :
    (chainGF.filter (FilterArg.callable (fun _ => false)) false).2 =
      Except.error Err.emptyFilter := by
  rfl

/-- C10 amended: whenever filter with squash=False succeeds (i.e. the
filtered row set is nonempty), the result is a new GraphFrame whose
graph is the input's graph, whose exclusive and inclusive metric lists
equal the input's, and the receiver is left unmodified; when the
filtered row set is empty an `EmptyFilter` error is raised instead. -/
theorem C10_filter_success (gf : GraphFrame) (fo : FilterArg) (res : GraphFrame)
    (h : (gf.filter fo false).2 = Except.ok res) :
    (gf.filter fo false).1 = gf ∧ res.graph = gf.graph ∧
    res.exc_metrics = gf.exc_metrics ∧ res.inc_metrics = gf.inc_metrics := by
  by_cases hz : (gf.filterRows fo).length = 0
  · simp [GraphFrame.filter, hz] at h
  · simp only [GraphFrame.filter, hz, if_false, Bool.false_eq_true, Except.ok.injEq] at h
    subst h
    refine ⟨?_, rfl, rfl, rfl⟩
    simp [GraphFrame.filter, hz]

/-- C10 witness: the amended statement at a concrete successful filter. -/
theorem C10_witness :
    (chainGF.filter (FilterArg.callable (fun r => decide (r.node = 0))) false).2 =
      Except.ok c10res ∧
    (chainGF.filter (FilterArg.callable (fun r => decide (r.node = 0))) false).1 = chainGF ∧
    c10res.graph = chainGF.graph ∧ c10res.exc_metrics = chainGF.exc_metrics ∧
    c10res.inc_metrics = chainGF.inc_metrics := by
  refine ⟨rfl, ?_⟩
  exact C10_filter_success chainGF (FilterArg.callable (fun r => decide (r.node = 0))) c10res rfl

/-- A shallow copy equals the original graphframe by value. -/
theorem copy_eq (gf : GraphFrame) : gf.copy = gf := rfl

/-- Unifying the two concrete example frames A (nodes {x, y}) and B
(nodes {y, z}) produces the unified graph with x, y, z at ids 0, 1, 2,
the left table with the zero-filled "R" row inserted for z and the x
row marked "L", and the right table unchanged except for re-keying. -/
theorem unify_AB (ax ay bv bz : Int) :
    GraphFrame.unify (gfA6 ax ay) (gfB6 bv bz) = (c6uL ax ay, c6uR bv bz) := by
  have hne : ¬ (gfA6 ax ay).graph = (gfB6 bv bz).graph := by
    show ¬ gA6g = gB6g
    decide
  have hU : Graph.union (gfA6 ax ay).graph (gfB6 bv bz).graph = (c6g, c6nm) := by
    show Graph.union gA6g gB6g = (c6g, c6nm)
    decide
  unfold GraphFrame.unify
  rw [if_neg hne]
  simp only [hU]
  rfl

/-- C7 counterexample: after unifying the concrete frames A (nodes
{x, y}) and B (nodes {y, z}), the row for x — present only in the left
table — is marked "L" in the left table but is not inserted into the
right table at all, so unify does not insert every one-sided row into
the other (missing) side.  In the unified graph x, y, z have ids
0, 1, 2. -/
theorem C7_counterexample :
    (0 : Nat) ∉ ((gfA6 10 20).unify (gfB6 100 200)).2.dataframe.keys ∧
    ((gfA6 10 20).unify (gfB6 100 200)).1.dataframe.keys = [0, 1, 2] ∧
    ((gfA6 10 20).unify (gfB6 100 200)).1.dataframe.cellGet 0 "_missing_node" =
      some (Val.str "L") := by
  rw [unify_AB]
  decide

/-- C6: For GraphFrames A with node set {x, y} and B with node set
{y, z} (nodes matched by frame along call paths; in the unified graph
x, y, z receive ids 0, 1, 2), A.add(B) returns a GraphFrame over node
set {x, y, z} where the metric value at x equals A's value at x, the
value at y equals the sum of A's and B's values at y, and the value
at z equals B's value at z. -/
theorem C6_add_missing_nodes (ax ay bv bz : Int) :
    ((gfA6 ax ay).add (gfB6 bv bz)).dataframe.keys = [0, 1, 2] ∧
    ((gfA6 ax ay).add (gfB6 bv bz)).graph.roots = [0, 1, 2] ∧
    ((gfA6 ax ay).add (gfB6 bv bz)).graph.frames =
      [(0, fr "x"), (1, fr "y"), (2, fr "z")] ∧
    ((gfA6 ax ay).add (gfB6 bv bz)).dataframe.cellGet 0 "time" = some (Val.num ax) ∧
    ((gfA6 ax ay).add (gfB6 bv bz)).dataframe.cellGet 1 "time" = some (Val.num (ay + bv)) ∧
    ((gfA6 ax ay).add (gfB6 bv bz)).dataframe.cellGet 2 "time" = some (Val.num bz) := by
  have hadd : (gfA6 ax ay).add (gfB6 bv bz) =
      GraphFrame.operatorWith (c6uL ax ay) (c6uR bv bz)
        (fun d => (c6uL ax ay).dataframe.addAligned d) := by
    unfold GraphFrame.add
    simp only [copy_eq, unify_AB]
  rw [hadd]
  refine ⟨rfl, rfl, rfl, rfl, rfl, ?_⟩
  have h : (GraphFrame.operatorWith (c6uL ax ay) (c6uR bv bz)
      (fun d => (c6uL ax ay).dataframe.addAligned d)).dataframe.cellGet 2 "time" =
      some (Val.num (0 + bz)) := rfl
  rw [h, zero_add]

/-- C1 counterexample: squashing a GraphFrame whose dataframe retains
zero node rows does not fail — the source defines no `EmptySquash`
error (its only exception classes are `InvalidFilter` and
`EmptyFilter`) — and returns exactly the degenerate empty graph the
claim says is avoided. -/
theorem C1_counterexample :
    emptyRowsGF.squash.graph = ⟨[], [], []⟩ ∧
    emptyRowsGF.squash.dataframe.rows = [] := by
  exact ⟨by decide, by decide⟩

/-- A lookup after an association-list update sees the new value at
the updated key and the old values elsewhere. -/
theorem alookup_aupdate {β : Type} (l : List (Nat × β)) (k : Nat) (v : β) (x : Nat) :
    alookup (aupdate l k v) x = if x = k then some v else alookup l x := by
  induction l with
  | nil =>
    show (if k = x then some v else (none : Option β)) = if x = k then some v else none
    by_cases hx : x = k
    · subst hx; simp
    · rw [if_neg (fun h => hx h.symm), if_neg hx]
  | cons p rest ih =>
    simp only [aupdate]
    by_cases hp : p.1 = k
    · rw [if_pos hp]
      by_cases hx : x = k
      · subst hx
        show (if x = x then some v else _) = _
        simp
      · show (if k = x then some v else alookup rest x) = _
        rw [if_neg (fun h => hx h.symm), if_neg hx, alookup,
          if_neg (by rw [hp]; exact fun h => hx h.symm)]
    · rw [if_neg hp]
      show (if p.1 = x then some p.2 else alookup (aupdate rest k v) x) = _
      by_cases hx : p.1 = x
      · have hxk : ¬x = k := fun h => hp (hx.trans h)
        rw [if_pos hx, if_neg hxk, alookup, if_pos hx]
      · rw [if_neg hx, ih, alookup, if_neg hx]

/-- Rewiring with an empty retained set produces no frontier, no new
roots and no new edges. -/
theorem rewireEmpty (g : Graph) : ∀ fuel node np s, RWEmpty s →
    (rewire g [] fuel node np s).1 = [] ∧ RWEmpty (rewire g [] fuel node np s).2 := by
  intro fuel
  induction fuel with
  | zero => intro node np s hs; exact ⟨rfl, hs⟩
  | succ f ih =>
    intro node np s hs
    have hconn : s.conn node = [] := hs.1 node
    have hca : s.connectAll np (s.conn node) = s := by rw [hconn]; rfl
    have hvs : RWEmpty { s with visited := node :: s.visited } := ⟨hs.1, hs.2⟩
    have hfold : ∀ (cs : List Nat) (acc : List Nat × RWState), acc.1 = [] → RWEmpty acc.2 →
        (cs.foldl (fun acc c =>
          let r := rewire g [] f c np acc.2
          (listUnion acc.1 r.1, r.2)) acc).1 = [] ∧
        RWEmpty (cs.foldl (fun acc c =>
          let r := rewire g [] f c np acc.2
          (listUnion acc.1 r.1, r.2)) acc).2 := by
      intro cs
      induction cs with
      | nil => intro acc h1 h2; exact ⟨h1, h2⟩
      | cons c cs2 ihc =>
        intro acc h1 h2
        have hr := ih c np acc.2 h2
        refine ihc _ ?_ hr.2
        simp only [h1, hr.1]
        rfl
    have hnone : (if node ∈ ([] : List Nat) then some node else none) = none := by simp
    simp only [rewire, hca, hnone]
    by_cases hv : node ∈ s.visited
    · simp only [hv, if_true]
      have hu : listUnion (s.conn node) ([] : List Nat) = [] := by rw [hconn]; rfl
      have hset : ∀ n, (s.setConn node []).conn n = [] := by
        intro n
        simp only [RWState.setConn, RWState.conn, alookup_aupdate]
        by_cases hn : n = node
        · simp [hn]
        · simp only [hn, if_false]
          exact hs.1 n
      rw [hu]
      refine ⟨hset node, hset, hs.2.1, hs.2.2⟩
    · simp only [hv, if_false]
      have htr := hfold (g.childrenOf node) ([], { s with visited := node :: s.visited }) rfl hvs
      set tr := (g.childrenOf node).foldl (fun acc c =>
          let r := rewire g [] f c np acc.2
          (listUnion acc.1 r.1, r.2)) ([], { s with visited := node :: s.visited }) with htrdef
      have hc2 : tr.2.conn node = [] := htr.2.1 node
      have hu : listUnion (tr.2.conn node) tr.1 = [] := by rw [hc2, htr.1]; rfl
      have hset : ∀ n, (tr.2.setConn node []).conn n = [] := by
        intro n
        simp only [RWState.setConn, RWState.conn, alookup_aupdate]
        by_cases hn : n = node
        · simp [hn]
        · simp only [hn, if_false]
          exact htr.2.1 n
      rw [hu]
      refine ⟨hset node, hset, htr.2.2.1, htr.2.2.2⟩

/-- Running the rewire loop over the roots with an empty retained set
leaves the state with no new roots and no new edges. -/
theorem rewireRootsEmpty (g : Graph) (fuel : Nat) (roots : List Nat) :
    ∀ s, RWEmpty s → RWEmpty (rewireRoots g [] fuel roots s) := by
  induction roots with
  | nil => intro s hs; exact hs
  | cons r rest ih =>
    intro s hs
    have h1 := rewireEmpty g fuel r none s hs
    exact ih _ h1.2

/-- A lookup after `setCell` sees the new value at the written column
and the old cells elsewhere. -/
theorem alookup_setCell (cs : List (String × Val)) (c : String) (v : Val) (x : String) :
    alookup (setCell cs c v) x = if x = c then some v else alookup cs x := by
  induction cs with
  | nil =>
    show (if c = x then some v else (none : Option Val)) = if x = c then some v else none
    by_cases hx : x = c
    · subst hx; simp
    · rw [if_neg (fun h => hx h.symm), if_neg hx]
  | cons p rest ih =>
    simp only [setCell]
    by_cases hp : p.1 = c
    · rw [if_pos hp]
      by_cases hx : x = c
      · subst hx
        show (if x = x then some v else _) = _
        simp
      · show (if c = x then some v else alookup rest x) = _
        rw [if_neg (fun h => hx h.symm), if_neg hx, alookup,
          if_neg (by rw [hp]; exact fun h => hx h.symm)]
    · rw [if_neg hp]
      show (if p.1 = x then some p.2 else alookup (setCell rest c v) x) = _
      by_cases hx : p.1 = x
      · have hxc : ¬x = c := fun h => hp (hx.trans h)
        rw [if_pos hx, if_neg hxc, alookup, if_pos hx]
      · rw [if_neg hx, ih, alookup, if_neg hx]

/-- A lookup after zero-filling a list of metric columns. -/
theorem alookup_foldl_zero (ms : List String) (cs : List (String × Val)) (x : String) :
    alookup (ms.foldl (fun cs2 m => setCell cs2 m (Val.num 0)) cs) x =
      if x ∈ ms then some (Val.num 0) else alookup cs x := by
  induction ms generalizing cs with
  | nil => simp
  | cons m rest ih =>
    simp only [List.foldl_cons, ih, alookup_setCell, List.mem_cons]
    by_cases hr : x ∈ rest
    · simp [hr]
    · by_cases hm : x = m
      · simp [hm, hr]
      · simp [hm, hr]

/-- A lookup over cells tabulated from a column list. -/
theorem alookup_tab (cs : List String) (G : String → Val) (x : String) :
    alookup (cs.map (fun c => (c, G c))) x = if x ∈ cs then some (G x) else none := by
  induction cs with
  | nil => simp [alookup]
  | cons c rest ih =>
    simp only [List.map_cons, alookup, List.mem_cons]
    by_cases hc : c = x
    · simp [hc]
    · rw [if_neg hc, ih]
      by_cases hr : x ∈ rest
      · simp [hr]
      · rw [if_neg hr, if_neg (not_or.mpr ⟨fun h => hc h.symm, hr⟩)]

/-- Finding a row keyed by `n` among rows tabulated from a key list. -/
theorem find?_tab (ks : List Nat) (F : Nat → Row) (hF : ∀ k, (F k).node = k) (n : Nat) :
    (ks.map F).find? (fun r => decide (r.node = n)) =
      if n ∈ ks then some (F n) else none := by
  induction ks with
  | nil => simp
  | cons k rest ih =>
    by_cases hk : k = n
    · subst hk
      rw [List.map_cons, List.find?_cons_of_pos _ (by simp [hF k]),
        if_pos (List.mem_cons_self k rest)]
    · rw [List.map_cons, List.find?_cons_of_neg _ (by simp [hF k, hk]), ih]
      by_cases hr : n ∈ rest
      · rw [if_pos hr, if_pos (List.mem_cons_of_mem k hr)]
      · rw [if_neg hr,
          if_neg (fun h => (List.mem_cons.mp h).elim (fun h1 => hk h1.symm) hr)]

/-- `find?` over a node-preserving row map commutes with the map. -/
theorem find?_map_node (l : List Row) (f : Row → Row) (hf : ∀ r, (f r).node = r.node)
    (n : Nat) :
    (l.map f).find? (fun r => decide (r.node = n)) =
      (l.find? (fun r => decide (r.node = n))).map f := by
  induction l with
  | nil => simp
  | cons r rest ih =>
    by_cases hr : r.node = n
    · rw [List.map_cons, List.find?_cons_of_pos _ (by simp [hf r, hr]),
        List.find?_cons_of_pos _ (by simp [hr])]
      rfl
    · rw [List.map_cons, List.find?_cons_of_neg _ (by simp [hf r, hr]),
        List.find?_cons_of_neg _ (by simp [hr]), ih]

/-- A lookup over a key-preserving cell map rewrites the stored value. -/
theorem alookup_map_keyed (l : List (String × Val)) (h : String → Val → Val) (x : String) :
    alookup (l.map (fun p => (p.1, h p.1 p.2))) x = (alookup l x).map (h x) := by
  induction l with
  | nil => simp [alookup]
  | cons p rest ih =>
    simp only [List.map_cons, alookup]
    by_cases hp : p.1 = x
    · subst hp; simp
    · simp [hp, ih]

/-- Membership in `dedupG` agrees with membership in the list. -/
theorem mem_dedupG {α : Type} [DecidableEq α] (l : List α) (x : α) :
    x ∈ dedupG l ↔ x ∈ l := by
  induction l with
  | nil => simp [dedupG]
  | cons a rest ih =>
    simp only [dedupG, List.mem_cons, List.mem_filter, ih]
    by_cases hx : x = a
    · simp [hx]
    · simp [hx]

/-- Membership in an insertion is membership in the inserted element
or the list. -/
theorem mem_insStr (x y : String) (l : List String) :
    x ∈ insStr y l ↔ x = y ∨ x ∈ l := by
  induction l with
  | nil => simp [insStr]
  | cons a rest ih =>
    simp only [insStr]
    by_cases hle : strLeB y a
    · simp [hle, List.mem_cons]
    · simp only [hle, if_false, Bool.false_eq_true, List.mem_cons, ih]
      tauto

/-- Membership in the sorted column list agrees with the input. -/
theorem mem_insSortStr (x : String) (l : List String) :
    x ∈ insSortStr l ↔ x ∈ l := by
  induction l with
  | nil => simp [insSortStr]
  | cons a rest ih =>
    simp only [insSortStr, mem_insStr, List.mem_cons, ih]

/-- A successful cell lookup implies the node key is present. -/
theorem mem_keys_of_cellGet {df : DataFrame} {n : Nat} {c : String} {v : Val}
    (h : df.cellGet n c = some v) : n ∈ df.keys := by
  unfold DataFrame.cellGet at h
  rcases hf : df.rows.find? (fun r => decide (r.node = n)) with _ | r
  · rw [hf] at h; exact absurd h (by simp)
  · have hm := List.mem_of_find?_eq_some hf
    have hp := List.find?_some hf
    have : r.node = n := by simpa using hp
    subst this
    exact List.mem_map_of_mem (fun r => r.node) hm

/-- A lookup in the cell list produced by an update step rewrites the
stored value through the aligned table. -/
theorem alookup_update_cells (b : DataFrame) (n : Nat) (l : List (String × Val)) (x : String) :
    alookup (l.map (fun p => match b.cellGet n p.1 with
      | some w => if w = Val.nan then p else (p.1, w)
      | none => p)) x =
    (alookup l x).map (fun v0 => match b.cellGet n x with
      | some w => if w = Val.nan then v0 else w
      | none => v0) := by
  induction l with
  | nil => simp [alookup]
  | cons p rest ih =>
    have hfst : (match b.cellGet n p.1 with
        | some w => if w = Val.nan then p else (p.1, w)
        | none => p).1 = p.1 := by
      rcases hb : b.cellGet n p.1 with _ | w
      · rfl
      · by_cases hw : w = Val.nan
        · simp [hw]
        · simp [hw]
    simp only [List.map_cons, alookup, hfst]
    by_cases hp : p.1 = x
    · subst hp
      rw [if_pos rfl, if_pos rfl, Option.map_some']
      rcases hb : b.cellGet n p.1 with _ | w
      · simp
      · by_cases hw : w = Val.nan
        · simp [hw]
        · simp [hw]
    · rw [if_neg hp, if_neg hp, ih]

/-- The cell of an updated table: the aligned value when it is present
and not NaN, otherwise the original cell. -/
theorem cellGet_updateWith (a b : DataFrame) (n : Nat) (c : String) :
    (a.updateWith b).cellGet n c =
      (a.cellGet n c).map (fun v0 => match b.cellGet n c with
        | some w => if w = Val.nan then v0 else w
        | none => v0) := by
  unfold DataFrame.cellGet DataFrame.updateWith
  rw [find?_map_node a.rows (fun r =>
      { node := r.node, cells := r.cells.map (fun p =>
          match b.cellGet r.node p.1 with
          | some v => if v = Val.nan then p else (p.1, v)
          | none => p) }) (fun r => rfl) n]
  rcases hf : a.rows.find? (fun r => decide (r.node = n)) with _ | r
  · rw [hf]
    simp
  · rw [hf]
    have hrn : r.node = n := by simpa using List.find?_some hf
    simp only [Option.map_some']
    show alookup (r.cells.map (fun p =>
        match b.cellGet r.node p.1 with
        | some v => if v = Val.nan then p else (p.1, v)
        | none => p)) c = _
    rw [hrn, alookup_update_cells]
    rfl

/-- The cell of an aligned addition, for keys and columns it covers. -/
theorem cellGet_addAligned (a b : DataFrame) (n : Nat) (c : String)
    (hn : n ∈ a.keys ∨ n ∈ b.keys) (hc : c ∈ a.cols ∨ c ∈ b.cols) :
    (a.addAligned b).cellGet n c = some (valAddAligned (a.cellGet n c) (b.cellGet n c)) := by
  have hn2 : n ∈ dedupG (a.keys ++ b.keys) := by
    rw [mem_dedupG, List.mem_append]; exact hn
  have hc2 : c ∈ insSortStr (dedupG (a.cols ++ b.cols)) := by
    rw [mem_insSortStr, mem_dedupG, List.mem_append]; exact hc
  have hrows : (a.addAligned b).rows = (dedupG (a.keys ++ b.keys)).map (fun k =>
      ⟨k, (insSortStr (dedupG (a.cols ++ b.cols))).map
        (fun c => (c, valAddAligned (a.cellGet k c) (b.cellGet k c)))⟩) := rfl
  show (match (a.addAligned b).rows.find? (fun r => decide (r.node = n)) with
    | some r => alookup r.cells c
    | none => none) = _
  rw [hrows, find?_tab (dedupG (a.keys ++ b.keys)) (fun k =>
    (⟨k, (insSortStr (dedupG (a.cols ++ b.cols))).map
      (fun c => (c, valAddAligned (a.cellGet k c) (b.cellGet k c)))⟩ : Row)) (fun k => rfl) n,
    if_pos hn2]
  show alookup ((insSortStr (dedupG (a.cols ++ b.cols))).map
    (fun c => (c, valAddAligned (a.cellGet n c) (b.cellGet n c)))) c = _
  rw [alookup_tab, if_pos hc2]

/-- The cell of a column selection, for selected columns. -/
theorem cellGet_select (df : DataFrame) (colsSel : List String) (n : Nat) (c : String)
    (hc : c ∈ colsSel) :
    (df.select colsSel).cellGet n c =
      (df.rows.find? (fun r => decide (r.node = n))).map (fun r => cellOrNan r c) := by
  unfold DataFrame.cellGet DataFrame.select
  rw [find?_map_node df.rows (fun r =>
      { node := r.node, cells := colsSel.map (fun c => (c, cellOrNan r c)) })
      (fun r => rfl) n]
  rcases hf : df.rows.find? (fun r => decide (r.node = n)) with _ | r
  · rw [hf]
    simp
  · rw [hf]
    simp only [Option.map_some']
    show alookup (colsSel.map (fun c => (c, cellOrNan r c))) c = _
    rw [alookup_tab, if_pos hc]

/-- Updating a table preserves its node keys. -/
theorem keys_updateWith (a b : DataFrame) : (a.updateWith b).keys = a.keys := by
  show (a.rows.map (fun r =>
      ({ node := r.node, cells := r.cells.map (fun p =>
          match b.cellGet r.node p.1 with
          | some v => if v = Val.nan then p else (p.1, v)
          | none => p) } : Row))).map (fun r => r.node) = a.rows.map (fun r => r.node)
  rw [List.map_map]
  rfl

/-- C9: For every GraphFrame A, computing A.add(A) yields, for every
originally-present node, a metric value exactly double A's original
numeric value on every metric column; no zero-filled missing rows are
created and no `_missing_node` marker column is added, since the two
copies share the graph and `unify` returns without inserting rows. -/
theorem C9_add_self_doubles (gf : GraphFrame) (n : Nat) (m : String) (v : Int)
    (hm : m ∈ gf.exc_metrics ++ gf.inc_metrics)
    (hv : gf.dataframe.cellGet n m = some (Val.num v)) :
    (gf.add gf).dataframe.cellGet n m = some (Val.num (v + v)) ∧
    (gf.add gf).dataframe.keys = gf.dataframe.keys ∧
    (gf.add gf).dataframe.cols = gf.dataframe.cols := by
  have hu : GraphFrame.unify gf gf = (gf, gf) := by
    unfold GraphFrame.unify
    rw [if_pos rfl]
  have haddself : gf.add gf =
      GraphFrame.operatorWith gf gf (fun d => gf.dataframe.addAligned d) := by
    unfold GraphFrame.add
    simp only [copy_eq, hu]
  rw [haddself]
  set AM := dedupG (gf.exc_metrics ++ gf.inc_metrics
    ++ gf.exc_metrics ++ gf.inc_metrics) with hAM
  have hres : (GraphFrame.operatorWith gf gf
      (fun d => gf.dataframe.addAligned d)).dataframe =
      gf.dataframe.updateWith (gf.dataframe.addAligned (gf.dataframe.select AM)) := rfl
  rw [hres]
  have hmAM : m ∈ AM := by
    rw [hAM, mem_dedupG]
    rcases List.mem_append.mp hm with h | h
    · exact List.mem_append.mpr (Or.inl (List.mem_append.mpr (Or.inl
        (List.mem_append.mpr (Or.inl h)))))
    · exact List.mem_append.mpr (Or.inl (List.mem_append.mpr (Or.inl
        (List.mem_append.mpr (Or.inr h)))))
  have hv2 := hv
  unfold DataFrame.cellGet at hv2
  rcases hf : gf.dataframe.rows.find? (fun r => decide (r.node = n)) with _ | r <;>
    rw [hf] at hv2
  · exact absurd hv2 (by simp)
  have hv3 : alookup r.cells m = some (Val.num v) := hv2
  have hsel : (gf.dataframe.select AM).cellGet n m = some (Val.num v) := by
    rw [cellGet_select _ _ _ _ hmAM, hf]
    show some ((alookup r.cells m).getD Val.nan) = some (Val.num v)
    rw [hv3]
    rfl
  have hselcols : (gf.dataframe.select AM).cols = AM := rfl
  have hB : (gf.dataframe.addAligned (gf.dataframe.select AM)).cellGet n m =
      some (Val.num (v + v)) := by
    rw [cellGet_addAligned _ _ _ _ (Or.inl (mem_keys_of_cellGet hv))
      (Or.inr (by rw [hselcols]; exact hmAM))]
    rw [hv, hsel]
    rfl
  refine ⟨?_, keys_updateWith _ _, rfl⟩
  rw [cellGet_updateWith, hv]
  show some (match (gf.dataframe.addAligned (gf.dataframe.select AM)).cellGet n m with
    | some w => if w = Val.nan then Val.num v else w
    | none => Val.num v) = some (Val.num (v + v))
  rw [hB]
  simp

/-- C9 witness: the doubling statement at a concrete one-node frame
with time value 3. -/
theorem C9_witness :
    "time" ∈ (chainGF.exc_metrics ++ chainGF.inc_metrics) ∧
    chainGF.dataframe.cellGet 0 "time" = some (Val.num 2) ∧
    (chainGF.add chainGF).dataframe.cellGet 0 "time" = some (Val.num (2 + 2)) := by
  refine ⟨by decide, by decide, ?_⟩
  exact (C9_add_self_doubles chainGF 0 "time" 2 (by decide) (by decide)).1

/-- A subtree sum leaves the graph untouched. -/
theorem subtree_sum_graph (gf : GraphFrame) (cols : List String)
    (outs : Option (List String)) : (gf.subtree_sum cols outs).1.graph = gf.graph := by
  unfold GraphFrame.subtree_sum
  rcases hinit : init_sum_columns gf.dataframe cols outs with ⟨df0, e⟩
  cases e <;> rfl

/-- The general subgraph sum leaves the graph untouched. -/
theorem subgraphFallback_graph (gf : GraphFrame) (cols : List String)
    (outs : Option (List String)) : (gf.subgraphFallback cols outs).1.graph = gf.graph := by
  unfold GraphFrame.subgraphFallback
  rcases hinit : init_sum_columns gf.dataframe cols outs with ⟨df0, e⟩
  cases e <;> rfl

/-- A subgraph sum leaves the graph untouched. -/
theorem subgraph_sum_graph (gf : GraphFrame) (cols : List String)
    (outs : Option (List String)) : (gf.subgraph_sum cols outs).1.graph = gf.graph := by
  unfold GraphFrame.subgraph_sum
  by_cases ht : gf.graph.is_tree
  · rw [if_pos ht]; exact subtree_sum_graph gf cols outs
  · rw [if_neg ht]; exact subgraphFallback_graph gf cols outs

/-- Updating inclusive columns leaves the graph untouched. -/
theorem update_inclusive_graph (gf : GraphFrame) :
    gf.update_inclusive_columns.graph = gf.graph := by
  unfold GraphFrame.update_inclusive_columns
  exact subgraph_sum_graph _ _ _

/-- Copying a column of an empty table keeps it empty. -/
theorem copyCol_rows_nil (df : DataFrame) (src dst : String) (h : df.rows = []) :
    (df.copyCol src dst).rows = [] := by
  unfold DataFrame.copyCol
  rw [h]
  rfl

/-- Folded column copies over an empty table keep it empty. -/
theorem foldl_copyCol_rows_nil (ps : List (String × String)) : ∀ df : DataFrame,
    df.rows = [] → (ps.foldl (fun d p => d.copyCol p.1 p.2) df).rows = [] := by
  induction ps with
  | nil => intro df h; exact h
  | cons p rest ih => intro df h; exact ih _ (copyCol_rows_nil df p.1 p.2 h)

/-- Initialising sum columns of an empty table keeps it empty. -/
theorem init_sum_rows_nil (df : DataFrame) (cols : List String)
    (outs : Option (List String)) (h : df.rows = []) :
    (init_sum_columns df cols outs).1.rows = [] := by
  rcases outs with _ | os
  · unfold init_sum_columns
    rw [if_neg (fun hh => hh rfl)]
    exact h
  · unfold init_sum_columns
    by_cases hc : cols.length ≠ os.length
    · simp only [if_pos hc]
      exact foldl_copyCol_rows_nil _ _ h
    · simp only [if_neg hc]
      exact foldl_copyCol_rows_nil _ _ h

/-- A row write into an empty table keeps it empty. -/
theorem setAt_rows_nil (df : DataFrame) (n : Nat) (u : List (String × Val))
    (h : df.rows = []) : (df.setAt n u).rows = [] := by
  unfold DataFrame.setAt
  rw [h]
  rfl

/-- A fold of row-emptiness-preserving steps preserves row emptiness. -/
theorem foldl_rows_nil {f : DataFrame → Nat → DataFrame}
    (hf : ∀ d n, d.rows = [] → (f d n).rows = []) :
    ∀ (l : List Nat) (df : DataFrame), df.rows = [] → (l.foldl f df).rows = [] := by
  intro l
  induction l with
  | nil => intro df h; exact h
  | cons n rest ih => intro df h; exact ih _ (hf df n h)

/-- A subtree sum of an empty table keeps it empty. -/
theorem subtree_sum_rows_nil (gf : GraphFrame) (cols : List String)
    (outs : Option (List String)) (h : gf.dataframe.rows = []) :
    (gf.subtree_sum cols outs).1.dataframe.rows = [] := by
  unfold GraphFrame.subtree_sum
  rcases hinit : init_sum_columns gf.dataframe cols outs with ⟨df0, e⟩
  have hdf0 : df0.rows = [] := by
    have h2 := init_sum_rows_nil gf.dataframe cols outs h
    rw [hinit] at h2
    exact h2
  cases e
  · exact hdf0
  · refine foldl_rows_nil (fun d n hd => ?_) _ _ hdf0
    split
    · exact setAt_rows_nil _ _ _ hd
    · exact hd

/-- The general subgraph sum of an empty table keeps it empty. -/
theorem subgraphFallback_rows_nil (gf : GraphFrame) (cols : List String)
    (outs : Option (List String)) (h : gf.dataframe.rows = []) :
    (gf.subgraphFallback cols outs).1.dataframe.rows = [] := by
  unfold GraphFrame.subgraphFallback
  rcases hinit : init_sum_columns gf.dataframe cols outs with ⟨df0, e⟩
  have hdf0 : df0.rows = [] := by
    have h2 := init_sum_rows_nil gf.dataframe cols outs h
    rw [hinit] at h2
    exact h2
  cases e
  · exact hdf0
  · exact foldl_rows_nil (fun d n hd => setAt_rows_nil _ _ _ hd) _ _ hdf0

/-- A subgraph sum of an empty table keeps it empty. -/
theorem subgraph_sum_rows_nil (gf : GraphFrame) (cols : List String)
    (outs : Option (List String)) (h : gf.dataframe.rows = []) :
    (gf.subgraph_sum cols outs).1.dataframe.rows = [] := by
  unfold GraphFrame.subgraph_sum
  by_cases ht : gf.graph.is_tree
  · rw [if_pos ht]; exact subtree_sum_rows_nil gf cols outs h
  · rw [if_neg ht]; exact subgraphFallback_rows_nil gf cols outs h

/-- Updating inclusive columns of an empty table keeps it empty. -/
theorem update_inclusive_rows_nil (gf : GraphFrame) (h : gf.dataframe.rows = []) :
    gf.update_inclusive_columns.dataframe.rows = [] := by
  unfold GraphFrame.update_inclusive_columns
  exact subgraph_sum_rows_nil _ _ _ h

/-- C1 amended: squashing a GraphFrame whose dataframe retains zero
node rows does not fail — the source defines no `EmptySquash` error
(`InvalidFilter` and `EmptyFilter` are its only exception classes, and
only `filter` guards against emptiness) — and instead returns exactly
the degenerate empty GraphFrame: a graph with no roots, edges or
nodes, and a dataframe with no rows. -/
theorem C1_empty_squash (gf : GraphFrame) (h : gf.dataframe.rows = []) :
    gf.squash.graph = ⟨[], [], []⟩ ∧ gf.squash.dataframe.rows = [] := by
  have hret : gf.squashRetained = [] := by
    unfold GraphFrame.squashRetained DataFrame.keys
    rw [h]
    rfl
  have hs1 : RWEmpty gf.squashState := by
    unfold GraphFrame.squashState
    rw [hret]
    exact rewireRootsEmpty gf.graph _ gf.graph.roots _ ⟨fun n => rfl, rfl, rfl⟩
  have hg0 : gf.squashGraph0 = (⟨[], [], []⟩ : Graph) := by
    unfold GraphFrame.squashGraph0
    rw [hret, hs1.2.1, hs1.2.2]
    rfl
  have hsq : gf.squash = GraphFrame.update_inclusive_columns
      ⟨⟨[], [], []⟩, ⟨gf.dataframe.cols, []⟩, gf.exc_metrics, gf.inc_metrics⟩ := by
    unfold GraphFrame.squash
    rw [hg0, h]
    rfl
  rw [hsq]
  constructor
  · rw [update_inclusive_graph]
  · exact update_inclusive_rows_nil _ rfl

/-- C1 witness: the amended statement at the concrete zero-row frame. -/
theorem C1_witness :
    emptyRowsGF.dataframe.rows = [] ∧ emptyRowsGF.squash.graph = ⟨[], [], []⟩ := by
  refine ⟨rfl, ?_⟩
  exact (C1_empty_squash emptyRowsGF rfl).1

/-- A find over an append looks in the second part when the first part
has no match. -/
theorem find?_append_none {α : Type} (l1 l2 : List α) (p : α → Bool)
    (h : l1.find? p = none) : (l1 ++ l2).find? p = l2.find? p := by
  induction l1 with
  | nil => rfl
  | cons x rest ih =>
    rcases hx : p x with _ | _
    · rw [List.cons_append, List.find?_cons_of_neg _ (by rw [hx]; exact Bool.false_ne_true)]
      refine ih ?_
      rw [List.find?_cons_of_neg _ (by rw [hx]; exact Bool.false_ne_true)] at h
      exact h
    · rw [List.find?_cons_of_pos _ hx] at h
      exact absurd h (by simp)

/-- A find over an append keeps a match found in the first part. -/
theorem find?_append_some {α : Type} (l1 l2 : List α) (p : α → Bool) (r : α)
    (h : l1.find? p = some r) : (l1 ++ l2).find? p = some r := by
  induction l1 with
  | nil => exact absurd h (by simp)
  | cons x rest ih =>
    rcases hx : p x with _ | _
    · rw [List.find?_cons_of_neg _ (by rw [hx]; exact Bool.false_ne_true)] at h
      rw [List.cons_append, List.find?_cons_of_neg _ (by rw [hx]; exact Bool.false_ne_true)]
      exact ih h
    · rw [List.find?_cons_of_pos _ hx] at h
      rw [List.cons_append, List.find?_cons_of_pos _ hx]
      exact h

/-- Filtering by a predicate implied by the search predicate does not
change the first match. -/
theorem find?_filter {α : Type} (l : List α) (p q : α → Bool)
    (hpq : ∀ x, p x = true → q x = true) :
    (l.filter q).find? p = l.find? p := by
  induction l with
  | nil => rfl
  | cons x rest ih =>
    rcases hx : p x with _ | _
    · rcases hq : q x with _ | _
      · rw [List.filter_cons_of_neg (by rw [hq]; exact Bool.false_ne_true), ih,
          List.find?_cons_of_neg _ (by rw [hx]; exact Bool.false_ne_true)]
      · rw [List.filter_cons_of_pos (by rw [hq]),
          List.find?_cons_of_neg _ (by rw [hx]; exact Bool.false_ne_true), ih,
          List.find?_cons_of_neg _ (by rw [hx]; exact Bool.false_ne_true)]
    · rw [List.filter_cons_of_pos (by rw [hpq x hx]),
        List.find?_cons_of_pos _ hx, List.find?_cons_of_pos _ hx]

/-- A node key present in a row list has a first matching row. -/
theorem find?_of_mem_keys (l : List Row) (n : Nat) (h : n ∈ l.map (fun r => r.node)) :
    ∃ r, l.find? (fun r => decide (r.node = n)) = some r ∧ r.node = n := by
  induction l with
  | nil => simp at h
  | cons x rest ih =>
    by_cases hx : x.node = n
    · exact ⟨x, List.find?_cons_of_pos _ (by simp [hx]), hx⟩
    · have h1 : n ∈ rest.map (fun r => r.node) := by
        rw [List.map_cons] at h
        rcases List.mem_cons.mp h with h2 | h2
        · exact absurd h2.symm hx
        · exact h2
      obtain ⟨r, hr, hrn⟩ := ih h1
      exact ⟨r, by rw [List.find?_cons_of_neg _ (by simp [hx])]; exact hr, hrn⟩

/-- The rows of the marker-joined left table keep the left table's node
keys in order. -/
theorem imrSelfDf_keys (S O : GraphFrame) :
    (S.imrSelfDf O).rows.map (fun r => r.node) = S.dataframe.rows.map (fun r => r.node) := by
  unfold GraphFrame.imrSelfDf
  split
  · rw [List.map_map]
    rfl
  · rfl

/-- When the left table has exclusive rows, the marker column join is
performed. -/
theorem imrSelfDf_rows_of_ne (S O : GraphFrame) (h : S.imrLeftOnly O ≠ []) :
    (S.imrSelfDf O).rows = S.dataframe.rows.map (fun r =>
      { r with cells := setCell r.cells "_missing_node" (Val.str "") }) := by
  have hc : (decide (S.imrLeftOnly O ≠ []) || decide (S.imrRightOnly O ≠ [])) = true := by
    simp [h]
  unfold GraphFrame.imrSelfDf
  rw [if_pos hc]

/-- Marking the left-only rows does not change a row's node key. -/
theorem imrMark_node (S O : GraphFrame) (r : Row) :
    (if r.node ∈ (S.imrLeftOnly O).map (fun q => q.node) then
      { r with cells := setCell r.cells "_missing_node" (Val.str "L") }
    else r).node = r.node := by
  split <;> rfl

/-- The marked left rows keep the left table's node keys in order. -/
theorem imrMarked_keys (S O : GraphFrame) :
    (S.imrMarked O).map (fun r => r.node) = S.dataframe.keys := by
  have h1 : (S.imrMarked O).map (fun r => r.node) =
      (S.imrSelfDf O).rows.map (fun r => r.node) := by
    unfold GraphFrame.imrMarked
    rw [List.map_map]
    apply List.map_congr_left
    intro r _
    exact imrMark_node S O r
  rw [h1, imrSelfDf_keys]
  rfl

/-- Inserting the missing rows appends exactly the right-only node keys
after the left table's own keys. -/
theorem insert_missing_rows_keys (S O : GraphFrame) :
    (S.insert_missing_rows O).dataframe.keys =
      S.dataframe.keys ++ (S.imrRightOnly O).map (fun r => r.node) := by
  show ((S.imrMarked O) ++ (S.imrInserted O)).map (fun r => r.node) = _
  rw [List.map_append, imrMarked_keys]
  congr 1
  unfold GraphFrame.imrInserted
  rw [List.map_map]
  rfl

/-- Zero-filling an inserted row does not change its node key. -/
theorem imrIns_node (S O : GraphFrame) (r : Row) :
    (({ node := r.node, cells := setCell ((S.imrMetrics O).foldl (fun cs m => setCell cs m (Val.num 0)) r.cells) "_missing_node" (Val.str "R") } : Row)).node = r.node := rfl

/-- Joining the empty marker cell does not change a row's node key. -/
theorem imrJoin_node (r : Row) :
    (({ r with cells := setCell r.cells "_missing_node" (Val.str "") } : Row)).node = r.node := rfl

/-- C7 (amended): unify inserts one-sided rows into the left table only.
When the graphs differ, the left result's table is `_insert_missing_rows`
of the two re-keyed tables, and the right result's table never gains a
row (its row count equals the right input's).  `_insert_missing_rows`
itself: the left table's keys become its own keys followed by the
right-only keys; every right-only node gets a row in the left table
whose metric columns are all numeric zero and whose `_missing_node`
marker is "R"; every left-only node's first row is marked "L" in place.
The right-hand table is never extended, refuting the claim's "into the
other (missing) side" for left-only rows. -/
theorem C7_unify_inserts_left_only (S O : GraphFrame) :
    (S.graph ≠ O.graph → (S.unify O).1.dataframe =
      (GraphFrame.insert_missing_rows
        { S with dataframe := remapDf S.dataframe (fun k => (alookup (Graph.union S.graph O.graph).2 (false, k)).getD k) }
        { O with dataframe := remapDf O.dataframe (fun k => (alookup (Graph.union S.graph O.graph).2 (true, k)).getD k) }).dataframe) ∧
    (S.unify O).2.dataframe.rows.length = O.dataframe.rows.length ∧
    ((S.insert_missing_rows O).dataframe.keys =
      S.dataframe.keys ++ (S.imrRightOnly O).map (fun r => r.node)) ∧
    (∀ n, n ∈ O.dataframe.keys → n ∉ S.dataframe.keys →
      (S.insert_missing_rows O).dataframe.cellGet n "_missing_node" = some (Val.str "R") ∧
      ∀ m, m ∈ S.imrMetrics O → m ≠ "_missing_node" →
        (S.insert_missing_rows O).dataframe.cellGet n m = some (Val.num 0)) ∧
    (∀ n, n ∈ S.dataframe.keys → n ∉ O.dataframe.keys →
      (S.insert_missing_rows O).dataframe.cellGet n "_missing_node" = some (Val.str "L")) := by
  refine ⟨?_, ?_, insert_missing_rows_keys S O, ?_, ?_⟩
  · intro h
    unfold GraphFrame.unify
    rw [if_neg h]
  · by_cases hg : S.graph = O.graph
    · unfold GraphFrame.unify
      rw [if_pos hg]
    · unfold GraphFrame.unify
      rw [if_neg hg]
      show (O.dataframe.rows.map _).length = O.dataframe.rows.length
      exact List.length_map _ _
  · intro n hn hns
    have hmark : (S.imrMarked O).find? (fun r => decide (r.node = n)) = none := by
      apply List.find?_eq_none.mpr
      intro x hx
      simp only [decide_eq_true_eq]
      intro hxn
      apply hns
      have hxk : x.node ∈ (S.imrMarked O).map (fun r => r.node) :=
        List.mem_map_of_mem (fun r => r.node) hx
      rw [imrMarked_keys] at hxk
      rw [← hxn]
      exact hxk
    obtain ⟨r0, hr0f, hr0n⟩ := find?_of_mem_keys O.dataframe.rows n hn
    have hrt : (S.imrRightOnly O).find? (fun r => decide (r.node = n)) = some r0 := by
      unfold GraphFrame.imrRightOnly
      rw [find?_filter]
      · exact hr0f
      · intro x hx
        have hxn : x.node = n := of_decide_eq_true hx
        rw [hxn]
        exact decide_eq_true hns
    have hins : (S.imrInserted O).find? (fun r => decide (r.node = n)) =
        some { node := r0.node,
               cells := setCell
                 ((S.imrMetrics O).foldl (fun cs m => setCell cs m (Val.num 0)) r0.cells)
                 "_missing_node" (Val.str "R") } := by
      unfold GraphFrame.imrInserted
      rw [find?_map_node _ _ (imrIns_node S O), hrt]
      rfl
    have hfull : (S.insert_missing_rows O).dataframe.rows.find?
        (fun r => decide (r.node = n)) =
        some { node := r0.node,
               cells := setCell
                 ((S.imrMetrics O).foldl (fun cs m => setCell cs m (Val.num 0)) r0.cells)
                 "_missing_node" (Val.str "R") } := by
      show ((S.imrMarked O) ++ (S.imrInserted O)).find? _ = _
      rw [find?_append_none _ _ _ hmark]
      exact hins
    refine ⟨?_, ?_⟩
    · unfold DataFrame.cellGet
      rw [hfull]
      show alookup (setCell
        ((S.imrMetrics O).foldl (fun cs m => setCell cs m (Val.num 0)) r0.cells)
        "_missing_node" (Val.str "R")) "_missing_node" = some (Val.str "R")
      rw [alookup_setCell, if_pos rfl]
    · intro m hm hmn
      unfold DataFrame.cellGet
      rw [hfull]
      show alookup (setCell
        ((S.imrMetrics O).foldl (fun cs m => setCell cs m (Val.num 0)) r0.cells)
        "_missing_node" (Val.str "R")) m = some (Val.num 0)
      rw [alookup_setCell, if_neg hmn, alookup_foldl_zero, if_pos hm]
  · intro n hn hno
    obtain ⟨r0, hr0f, hr0n⟩ := find?_of_mem_keys S.dataframe.rows n hn
    have hr0mem : r0 ∈ S.dataframe.rows := List.mem_of_find?_eq_some hr0f
    have hleft : r0 ∈ S.imrLeftOnly O := by
      unfold GraphFrame.imrLeftOnly
      refine List.mem_filter.mpr ⟨hr0mem, ?_⟩
      rw [hr0n]
      exact decide_eq_true hno
    have hlne : S.imrLeftOnly O ≠ [] := List.ne_nil_of_mem hleft
    have hcond : r0.node ∈ (S.imrLeftOnly O).map (fun q => q.node) :=
      List.mem_map_of_mem (fun q => q.node) hleft
    have hmf : (S.imrMarked O).find? (fun r => decide (r.node = n)) =
        some { node := r0.node,
               cells := setCell (setCell r0.cells "_missing_node" (Val.str ""))
                 "_missing_node" (Val.str "L") } := by
      unfold GraphFrame.imrMarked
      rw [imrSelfDf_rows_of_ne S O hlne,
        find?_map_node _ _ (imrMark_node S O),
        find?_map_node _ _ imrJoin_node, hr0f]
      simp only [Option.map_some']
      rw [if_pos hcond]
    have hfull : (S.insert_missing_rows O).dataframe.rows.find?
        (fun r => decide (r.node = n)) =
        some { node := r0.node,
               cells := setCell (setCell r0.cells "_missing_node" (Val.str ""))
                 "_missing_node" (Val.str "L") } := by
      show ((S.imrMarked O) ++ (S.imrInserted O)).find? _ = _
      exact find?_append_some _ _ _ _ hmf
    unfold DataFrame.cellGet
    rw [hfull]
    show alookup (setCell (setCell r0.cells "_missing_node" (Val.str ""))
      "_missing_node" (Val.str "L")) "_missing_node" = some (Val.str "L")
    rw [alookup_setCell, if_pos rfl]

/-- Witness for C7 at the concrete frames with node keys {0, 1} and
{1, 2}: the left result gains the zero-filled "R" row for key 2 and the
"L" mark on key 0, while the right result keeps two rows. -/
theorem C7_witness :
    ((gfA6 10 20).graph ≠ (c6uR 100 200).graph ∧
      ((gfA6 10 20).unify (c6uR 100 200)).1.dataframe =
        (GraphFrame.insert_missing_rows
          { gfA6 10 20 with dataframe := remapDf (gfA6 10 20).dataframe (fun k => (alookup (Graph.union (gfA6 10 20).graph (c6uR 100 200).graph).2 (false, k)).getD k) }
          { c6uR 100 200 with dataframe := remapDf (c6uR 100 200).dataframe (fun k => (alookup (Graph.union (gfA6 10 20).graph (c6uR 100 200).graph).2 (true, k)).getD k) }).dataframe) ∧
    ((gfA6 10 20).unify (c6uR 100 200)).2.dataframe.rows.length = 2 ∧
    ((gfA6 10 20).insert_missing_rows (c6uR 100 200)).dataframe.keys = [0, 1, 2] ∧
    ((gfA6 10 20).insert_missing_rows (c6uR 100 200)).dataframe.cellGet 2 "_missing_node"
      = some (Val.str "R") ∧
    ((gfA6 10 20).insert_missing_rows (c6uR 100 200)).dataframe.cellGet 2 "time"
      = some (Val.num 0) ∧
    ((gfA6 10 20).insert_missing_rows (c6uR 100 200)).dataframe.cellGet 0 "_missing_node"
      = some (Val.str "L") :=
  have h := C7_unify_inserts_left_only (gfA6 10 20) (c6uR 100 200)
  have hne : (gfA6 10 20).graph ≠ (c6uR 100 200).graph := by decide
  ⟨⟨hne, h.1 hne⟩,
   h.2.1.trans (by decide),
   h.2.2.1.trans (by decide),
   (h.2.2.2.1 2 (by decide) (by decide)).1,
   (h.2.2.2.1 2 (by decide) (by decide)).2 "time" (by decide) (by decide),
   h.2.2.2.2 0 (by decide) (by decide)⟩

/-- Connecting a node changes no frontier set. -/
theorem connectOne_connections (s : RWState) (np : Option Nat) (n : Nat) :
    (s.connectOne np n).connections = s.connections := by
  unfold RWState.connectOne
  cases np <;> dsimp only <;> split <;> rfl

/-- Connecting a node does not touch the visited set. -/
theorem connectOne_visited (s : RWState) (np : Option Nat) (n : Nat) :
    (s.connectOne np n).visited = s.visited := by
  unfold RWState.connectOne
  cases np <;> dsimp only <;> split <;> rfl

/-- Connecting a frontier set changes no frontier set. -/
theorem connectAll_connections (s : RWState) (np : Option Nat) (ns : List Nat) :
    (s.connectAll np ns).connections = s.connections := by
  induction ns generalizing s with
  | nil => rfl
  | cons a rest ih =>
    show ((s.connectOne np a).connectAll np rest).connections = s.connections
    rw [ih, connectOne_connections]

/-- Connecting a frontier set does not touch the visited set. -/
theorem connectAll_visited (s : RWState) (np : Option Nat) (ns : List Nat) :
    (s.connectAll np ns).visited = s.visited := by
  induction ns generalizing s with
  | nil => rfl
  | cons a rest ih =>
    show ((s.connectOne np a).connectAll np rest).visited = s.visited
    rw [ih, connectOne_visited]

/-- Connecting a frontier set keeps every stored frontier set. -/
theorem connectAll_conn (s : RWState) (np : Option Nat) (ns : List Nat) (x : Nat) :
    (s.connectAll np ns).conn x = s.conn x := by
  unfold RWState.conn
  rw [connectAll_connections]

/-- Storing a frontier set keeps the other components. -/
theorem setConn_visited (s : RWState) (n : Nat) (v : List Nat) :
    (s.setConn n v).visited = s.visited := rfl

/-- Storing a frontier set keeps the new roots. -/
theorem setConn_roots (s : RWState) (n : Nat) (v : List Nat) :
    (s.setConn n v).new_roots = s.new_roots := rfl

/-- Storing a frontier set keeps the new edges. -/
theorem setConn_edges (s : RWState) (n : Nat) (v : List Nat) :
    (s.setConn n v).new_edges = s.new_edges := rfl

/-- A generic keyed-table lookup: the first matching key wins. -/
theorem alookup_tabG {α β : Type} [DecidableEq α] (l : List α) (f : α → β) (x : α) :
    alookup (l.map (fun c => (c, f c))) x = if x ∈ l then some (f x) else none := by
  induction l with
  | nil => simp [alookup]
  | cons c rest ih =>
    simp only [List.map_cons, alookup, List.mem_cons]
    by_cases hc : c = x
    · simp [hc]
    · rw [if_neg hc, ih]
      by_cases hr : x ∈ rest
      · rw [if_pos hr, if_pos (Or.inr hr)]
      · rw [if_neg hr, if_neg (fun h => h.elim (fun h1 => hc h1.symm) hr)]

/-- Frontier lookup after a store. -/
theorem conn_setConn (s : RWState) (n : Nat) (v : List Nat) (x : Nat) :
    (s.setConn n v).conn x = if x = n then v else s.conn x := by
  unfold RWState.conn RWState.setConn
  dsimp only
  rw [alookup_aupdate]
  by_cases hx : x = n
  · simp [hx]
  · rw [if_neg hx, if_neg hx]

/-- Membership in the ordered union of two node lists. -/
theorem mem_listUnion (a b : List Nat) (x : Nat) :
    x ∈ listUnion a b ↔ x ∈ a ∨ x ∈ b := by
  unfold listUnion
  by_cases hx : x ∈ a
  · simp [hx]
  · simp [hx, List.mem_filter]

/-- Reachability only reads edge membership. -/
theorem reach_mono_edges {g g2 : Graph} (h : ∀ e, e ∈ g.edges → e ∈ g2.edges)
    {a b : Nat} (hr : Reach g a b) : Reach g2 a b := by
  induction hr with
  | refl => exact Reach.refl _
  | step _ he ih => exact Reach.step ih (h _ he)

/-- The extension order is reflexive. -/
theorem ext_refl (s : RWState) : s.Ext s :=
  ⟨fun _ h => h, fun _ h => h, fun _ h => h, fun _ _ h => h⟩

/-- The extension order is transitive. -/
theorem ext_trans {s t u : RWState} (h1 : s.Ext t) (h2 : t.Ext u) : s.Ext u :=
  ⟨fun x h => h2.1 x (h1.1 x h), fun x h => h2.2.1 x (h1.2.1 x h),
   fun e h => h2.2.2.1 e (h1.2.2.1 e h), fun n x h => h2.2.2.2 n x (h1.2.2.2 n x h)⟩

/-- New-graph reachability is monotone along the extension order. -/
theorem nreach_mono {s t : RWState} (h : s.Ext t) {x : Nat} (hx : s.NReach x) :
    t.NReach x := by
  obtain ⟨r, hr, hrx⟩ := hx
  exact ⟨r, h.2.1 r hr, reach_mono_edges (fun e he => h.2.2.1 e he) hrx⟩

/-- Connecting one node extends the state. -/
theorem connectOne_ext (s : RWState) (np : Option Nat) (n : Nat) :
    s.Ext (s.connectOne np n) := by
  unfold RWState.connectOne
  cases np with
  | none =>
    dsimp only
    split
    · exact ext_refl s
    · exact ⟨fun x h => h, fun x h => List.mem_append_left _ h, fun e h => h,
        fun m x h => h⟩
  | some p =>
    dsimp only
    split
    · exact ext_refl s
    · exact ⟨fun x h => h, fun x h => h, fun e h => List.mem_append_left _ h,
        fun m x h => h⟩

/-- Connecting a frontier set extends the state. -/
theorem connectAll_ext (s : RWState) (np : Option Nat) (ns : List Nat) :
    s.Ext (s.connectAll np ns) := by
  induction ns generalizing s with
  | nil => exact ext_refl s
  | cons a rest ih =>
    exact ext_trans (connectOne_ext s np a) (ih (s.connectOne np a))

/-- Storing a larger frontier set extends the state. -/
theorem setConn_ext (s : RWState) (n : Nat) (w : List Nat) :
    s.Ext (s.setConn n (listUnion (s.conn n) w)) := by
  refine ⟨fun x h => h, fun x h => h, fun e h => h, fun m x h => ?_⟩
  rw [conn_setConn]
  by_cases hm : m = n
  · subst hm
    rw [if_pos rfl, mem_listUnion]
    exact Or.inl h
  · rw [if_neg hm]
    exact h

/-- Connecting one node under a reachable parent (or as a root) makes
it reachable in the new graph. -/
theorem connectOne_nreach (s : RWState) (np : Option Nat) (n : Nat)
    (hnp : ∀ p, np = some p → s.NReach p) : (s.connectOne np n).NReach n := by
  unfold RWState.connectOne
  cases np with
  | none =>
    dsimp only
    split
    · exact ⟨n, by assumption, Reach.refl n⟩
    · exact ⟨n, List.mem_append_right _ (List.mem_singleton.mpr rfl), Reach.refl n⟩
  | some p =>
    obtain ⟨r, hr, hrp⟩ := hnp p rfl
    dsimp only
    split
    · exact ⟨r, hr, Reach.step hrp (by assumption)⟩
    · exact ⟨r, hr, Reach.step (reach_mono_edges (fun e he => List.mem_append_left _ he) hrp)
        (List.mem_append_right _ (List.mem_singleton.mpr rfl))⟩

/-- Every node of a connected frontier set becomes reachable in the
new graph. -/
theorem connectAll_nreach (s : RWState) (np : Option Nat) (ns : List Nat) (y : Nat)
    (hy : y ∈ ns) (hnp : ∀ p, np = some p → s.NReach p) :
    (s.connectAll np ns).NReach y := by
  induction ns generalizing s with
  | nil => exact absurd hy (List.not_mem_nil y)
  | cons a rest ih =>
    rcases List.mem_cons.mp hy with h1 | h1
    · subst h1
      exact nreach_mono (connectAll_ext (s.connectOne np y) np rest)
        (connectOne_nreach s np y hnp)
    · exact ih (s.connectOne np a) h1
        (fun p hp => nreach_mono (connectOne_ext s np a) (hnp p hp))

/-- Connecting one retained node preserves the rewire invariant. -/
theorem connectOne_inv {R : List Nat} {s : RWState} (hs : RWInv R s) (np : Option Nat)
    (n : Nat) (hn : n ∈ R) (hnp : ∀ p, np = some p → p ∈ R) :
    RWInv R (s.connectOne np n) := by
  have hext := connectOne_ext s np n
  have hconn : ∀ m, (s.connectOne np n).conn m = s.conn m := by
    intro m
    unfold RWState.conn
    rw [connectOne_connections]
  refine ⟨fun m x hx => hs.1 m x (by rw [hconn] at hx; exact hx), ?_, ?_,
    fun y hy => by rw [hconn]; exact hs.2.2.2.1 y hy,
    fun y hy hyv => nreach_mono hext
      (hs.2.2.2.2 y hy (by rw [connectOne_visited] at hyv; exact hyv))⟩
  · intro x hx
    unfold RWState.connectOne at hx
    cases np with
    | none =>
      dsimp only at hx
      by_cases hmem : n ∈ s.new_roots
      · rw [if_pos hmem] at hx
        exact hs.2.1 x hx
      · rw [if_neg hmem] at hx
        rcases List.mem_append.mp hx with h1 | h1
        · exact hs.2.1 x h1
        · rw [List.mem_singleton.mp h1]
          exact hn
    | some p =>
      dsimp only at hx
      split at hx
      · exact hs.2.1 x hx
      · exact hs.2.1 x hx
  · intro e he
    unfold RWState.connectOne at he
    cases np with
    | none =>
      dsimp only at he
      split at he
      · exact hs.2.2.1 e he
      · exact hs.2.2.1 e he
    | some p =>
      dsimp only at he
      by_cases hmem : (p, n) ∈ s.new_edges
      · rw [if_pos hmem] at he
        exact hs.2.2.1 e he
      · rw [if_neg hmem] at he
        rcases List.mem_append.mp he with h1 | h1
        · exact hs.2.2.1 e h1
        · rw [List.mem_singleton.mp h1]
          exact ⟨hnp p rfl, hn⟩

/-- Connecting a retained frontier set preserves the rewire invariant. -/
theorem connectAll_inv {R : List Nat} {s : RWState} (hs : RWInv R s) (np : Option Nat)
    (ns : List Nat) (hns : ∀ x, x ∈ ns → x ∈ R) (hnp : ∀ p, np = some p → p ∈ R) :
    RWInv R (s.connectAll np ns) := by
  induction ns generalizing s with
  | nil => exact hs
  | cons a rest ih =>
    exact ih (connectOne_inv hs np a (hns a (List.mem_cons_self a rest)) hnp)
      (fun x hx => hns x (List.mem_cons_of_mem a hx))

/-- Out of fuel, `rewire` is the identity. -/
theorem rewire_zero (g : Graph) (R : List Nat) (node : Nat) (np : Option Nat)
    (s : RWState) : rewire g R 0 node np s = ([], s) := rfl

/-- Unfolding `rewire` at a retained node: the frontier is the node
itself and the children are rewired under it. -/
theorem rewire_ret (g : Graph) (R : List Nat) (fuel node : Nat) (np : Option Nat)
    (s : RWState) (h : node ∈ R) :
    rewire g R (fuel + 1) node np s =
      ([node],
       (if node ∈ (s.connectAll np (s.conn node)).visited
        then (([], s.connectAll np (s.conn node)) : List Nat × RWState)
        else (g.childrenOf node).foldl (rwStep g R fuel (some node))
          ([], { s.connectAll np (s.conn node) with
                 visited := node :: (s.connectAll np (s.conn node)).visited })).2) := by
  simp only [rewire, h, if_true]
  rfl

/-- Unfolding `rewire` at a removed node: the children are rewired
under the inherited parent and the union of their frontiers is stored
as this node's frontier. -/
theorem rewire_nonret (g : Graph) (R : List Nat) (fuel node : Nat) (np : Option Nat)
    (s : RWState) (h : node ∉ R) :
    rewire g R (fuel + 1) node np s =
      (let tr := if node ∈ (s.connectAll np (s.conn node)).visited
          then (([], s.connectAll np (s.conn node)) : List Nat × RWState)
          else (g.childrenOf node).foldl (rwStep g R fuel np)
            ([], { s.connectAll np (s.conn node) with
                   visited := node :: (s.connectAll np (s.conn node)).visited });
       ((tr.2.setConn node (listUnion (tr.2.conn node) tr.1)).conn node,
        tr.2.setConn node (listUnion (tr.2.conn node) tr.1))) := by
  simp only [rewire, h, if_false]
  rfl

/-- Marking a node visited extends the state. -/
theorem ext_cons_visited (s : RWState) (n : Nat) :
    s.Ext { s with visited := n :: s.visited } :=
  ⟨fun _ h => List.mem_cons_of_mem n h, fun _ h => h, fun _ h => h, fun _ _ h => h⟩

/-- The children fold of `rewire` extends the state. -/
theorem rwStep_fold_ext (g : Graph) (R : List Nat) (fuel : Nat) (np : Option Nat)
    (hIH : ∀ node np2 s, RWState.Ext s (rewire g R fuel node np2 s).2)
    (l : List Nat) :
    ∀ acc : List Nat × RWState, acc.2.Ext ((l.foldl (rwStep g R fuel np) acc).2) := by
  induction l with
  | nil => intro acc; exact ext_refl _
  | cons c rest ih =>
    intro acc
    exact ext_trans (hIH c np acc.2) (ih (rwStep g R fuel np acc c))

/-- `rewire` only extends the state. -/
theorem rewire_ext (g : Graph) (R : List Nat) :
    ∀ fuel node np s, RWState.Ext s (rewire g R fuel node np s).2 := by
  intro fuel
  induction fuel with
  | zero => intro node np s; exact ext_refl s
  | succ fuel ih =>
    intro node np s
    by_cases h : node ∈ R
    · rw [rewire_ret g R fuel node np s h]
      by_cases hv : node ∈ (s.connectAll np (s.conn node)).visited
      · rw [if_pos hv]
        exact connectAll_ext s np (s.conn node)
      · rw [if_neg hv]
        exact ext_trans (connectAll_ext s np (s.conn node))
          (ext_trans (ext_cons_visited _ node)
            (rwStep_fold_ext g R fuel (some node) ih (g.childrenOf node)
              ([], { s.connectAll np (s.conn node) with
                     visited := node :: (s.connectAll np (s.conn node)).visited })))
    · rw [rewire_nonret g R fuel node np s h]
      dsimp only
      by_cases hv : node ∈ (s.connectAll np (s.conn node)).visited
      · rw [if_pos hv]
        exact ext_trans (connectAll_ext s np (s.conn node)) (setConn_ext _ node _)
      · rw [if_neg hv]
        exact ext_trans (connectAll_ext s np (s.conn node))
          (ext_trans (ext_cons_visited _ node)
            (ext_trans
              (rwStep_fold_ext g R fuel np ih (g.childrenOf node)
                ([], { s.connectAll np (s.conn node) with
                       visited := node :: (s.connectAll np (s.conn node)).visited }))
              (setConn_ext _ node _)))

/-- Marking a node visited preserves the rewire invariant when the
node is reachable in the new graph (or not retained). -/
theorem inv_cons_visited {R : List Nat} {s : RWState} (hs : RWInv R s) (n : Nat)
    (hn : n ∈ R → s.NReach n) : RWInv R { s with visited := n :: s.visited } := by
  refine ⟨hs.1, hs.2.1, hs.2.2.1, hs.2.2.2.1, ?_⟩
  intro y hy hyv
  rcases List.mem_cons.mp hyv with h1 | h1
  · subst h1
    exact hn hy
  · exact hs.2.2.2.2 y hy h1

/-- Storing an enlarged frontier set at a removed node preserves the
rewire invariant. -/
theorem inv_setConn {R : List Nat} {s : RWState} (hs : RWInv R s) (n : Nat)
    (hn : n ∉ R) (w : List Nat) (hw : ∀ x, x ∈ w → x ∈ R) :
    RWInv R (s.setConn n (listUnion (s.conn n) w)) := by
  refine ⟨?_, hs.2.1, hs.2.2.1, ?_, hs.2.2.2.2⟩
  · intro m x hx
    rw [conn_setConn] at hx
    by_cases hm : m = n
    · rw [if_pos hm] at hx
      rcases (mem_listUnion _ _ x).mp hx with h1 | h1
      · exact hs.1 n x h1
      · exact hw x h1
    · rw [if_neg hm] at hx
      exact hs.1 m x hx
  · intro y hy
    rw [conn_setConn, if_neg (fun hyn => hn (by rw [← hyn]; exact hy))]
    exact hs.2.2.2.1 y hy

/-- The children fold of `rewire` preserves the invariant and keeps
the collected frontier inside the retained set. -/
theorem rwStep_fold_inv (g : Graph) (R : List Nat) (fuel : Nat) (np : Option Nat)
    (hIH : ∀ node np2 s, RWInv R s → (∀ p, np2 = some p → p ∈ R ∧ RWState.NReach s p) →
      RWInv R (rewire g R fuel node np2 s).2 ∧
      ∀ x, x ∈ (rewire g R fuel node np2 s).1 → x ∈ R)
    (l : List Nat) :
    ∀ acc : List Nat × RWState, RWInv R acc.2 → (∀ x, x ∈ acc.1 → x ∈ R) →
      (∀ p, np = some p → p ∈ R ∧ acc.2.NReach p) →
      RWInv R ((l.foldl (rwStep g R fuel np) acc).2) ∧
      ∀ x, x ∈ (l.foldl (rwStep g R fuel np) acc).1 → x ∈ R := by
  induction l with
  | nil => intro acc h1 h2 _; exact ⟨h1, h2⟩
  | cons c rest ih =>
    intro acc h1 h2 h3
    obtain ⟨hinv, hfr⟩ := hIH c np acc.2 h1 h3
    refine ih (rwStep g R fuel np acc c) hinv ?_ ?_
    · intro x hx
      rcases (mem_listUnion _ _ x).mp hx with hx1 | hx1
      · exact h2 x hx1
      · exact hfr x hx1
    · intro p hp
      exact ⟨(h3 p hp).1, nreach_mono (rewire_ext g R fuel c np acc.2) (h3 p hp).2⟩

/-- Main soundness of `rewire`: the invariant is preserved and the
returned frontier lies inside the retained set. -/
theorem rewire_main (g : Graph) (R : List Nat) :
    ∀ fuel node np s, RWInv R s → (∀ p, np = some p → p ∈ R ∧ RWState.NReach s p) →
      RWInv R (rewire g R fuel node np s).2 ∧
      ∀ x, x ∈ (rewire g R fuel node np s).1 → x ∈ R := by
  intro fuel
  induction fuel with
  | zero =>
    intro node np s hs _
    exact ⟨hs, fun x hx => absurd hx (List.not_mem_nil x)⟩
  | succ fuel ih =>
    intro node np s hs hnp
    have hs1 : RWInv R (s.connectAll np (s.conn node)) :=
      connectAll_inv hs np (s.conn node) (fun x hx => hs.1 node x hx)
        (fun p hp => (hnp p hp).1)
    by_cases h : node ∈ R
    · rw [rewire_ret g R fuel node np s h]
      have hnn : (s.connectAll np (s.conn node)).NReach node :=
        connectAll_nreach s np (s.conn node) node (hs.2.2.2.1 node h)
          (fun p hp => (hnp p hp).2)
      refine ⟨?_, fun x hx => by rw [List.mem_singleton.mp hx]; exact h⟩
      by_cases hv : node ∈ (s.connectAll np (s.conn node)).visited
      · rw [if_pos hv]
        exact hs1
      · rw [if_neg hv]
        have hinv0 : RWInv R { s.connectAll np (s.conn node) with
            visited := node :: (s.connectAll np (s.conn node)).visited } :=
          inv_cons_visited hs1 node (fun _ => hnn)
        exact (rwStep_fold_inv g R fuel (some node) ih (g.childrenOf node)
          ([], { s.connectAll np (s.conn node) with
                 visited := node :: (s.connectAll np (s.conn node)).visited }) hinv0
          (fun x hx => absurd hx (List.not_mem_nil x))
          (fun p hp => by
            have hpn : node = p := Option.some.inj hp
            exact ⟨hpn ▸ h, hpn ▸ hnn⟩)).1
    · rw [rewire_nonret g R fuel node np s h]
      dsimp only
      by_cases hv : node ∈ (s.connectAll np (s.conn node)).visited
      · rw [if_pos hv]
        refine ⟨inv_setConn hs1 node h [] (fun x hx => absurd hx (List.not_mem_nil x)), ?_⟩
        intro x hx
        rw [conn_setConn, if_pos rfl] at hx
        rcases (mem_listUnion _ _ x).mp hx with h1 | h1
        · exact hs1.1 node x h1
        · exact absurd h1 (List.not_mem_nil x)
      · rw [if_neg hv]
        have hinv0 : RWInv R { s.connectAll np (s.conn node) with
            visited := node :: (s.connectAll np (s.conn node)).visited } :=
          inv_cons_visited hs1 node (fun hnR => absurd hnR h)
        obtain ⟨hinvF, hfrF⟩ := rwStep_fold_inv g R fuel np ih (g.childrenOf node)
          ([], { s.connectAll np (s.conn node) with
                 visited := node :: (s.connectAll np (s.conn node)).visited }) hinv0
          (fun x hx => absurd hx (List.not_mem_nil x))
          (fun p hp => ⟨(hnp p hp).1,
            nreach_mono (ext_trans (connectAll_ext s np (s.conn node))
              (ext_cons_visited _ node)) (hnp p hp).2⟩)
        refine ⟨inv_setConn hinvF node h _ hfrF, ?_⟩
        intro x hx
        rw [conn_setConn, if_pos rfl] at hx
        rcases (mem_listUnion _ _ x).mp hx with h1 | h1
        · exact hinvF.1 node x h1
        · exact hfrF x h1

/-- A filter by a weaker predicate is at least as long. -/
theorem length_filter_impl {α : Type} (l : List α) (p q : α → Bool)
    (h : ∀ x, q x = true → p x = true) :
    (l.filter q).length ≤ (l.filter p).length := by
  induction l with
  | nil => exact Nat.le_refl 0
  | cons a rest ih =>
    rcases hq : q a with _ | _
    · rw [List.filter_cons_of_neg (by rw [hq]; exact Bool.false_ne_true)]
      rcases hp : p a with _ | _
      · rw [List.filter_cons_of_neg (by rw [hp]; exact Bool.false_ne_true)]
        exact ih
      · rw [List.filter_cons_of_pos (by rw [hp])]
        exact Nat.le_succ_of_le ih
    · rw [List.filter_cons_of_pos (by rw [hq]),
        List.filter_cons_of_pos (by rw [h a hq])]
      exact Nat.succ_le_succ ih

/-- A filter by a strictly weaker predicate is strictly longer. -/
theorem length_filter_strict {α : Type} (l : List α) (p q : α → Bool)
    (h : ∀ x, q x = true → p x = true) (a : α) (ha : a ∈ l)
    (hpa : p a = true) (hqa : q a = false) :
    (l.filter q).length < (l.filter p).length := by
  induction l with
  | nil => cases ha
  | cons b rest ih =>
    rcases List.mem_cons.mp ha with h1 | h1
    · subst h1
      rw [List.filter_cons_of_neg (by rw [hqa]; exact Bool.false_ne_true),
        List.filter_cons_of_pos (by rw [hpa])]
      exact Nat.lt_succ_of_le (length_filter_impl rest p q h)
    · rcases hq : q b with _ | _
      · rw [List.filter_cons_of_neg (by rw [hq]; exact Bool.false_ne_true)]
        rcases hp : p b with _ | _
        · rw [List.filter_cons_of_neg (by rw [hp]; exact Bool.false_ne_true)]
          exact ih h1
        · rw [List.filter_cons_of_pos (by rw [hp])]
          exact Nat.lt_succ_of_lt (ih h1)
      · rw [List.filter_cons_of_pos (by rw [hq]),
          List.filter_cons_of_pos (by rw [h b hq])]
        exact Nat.succ_lt_succ (ih h1)

/-- The unvisited measure shrinks weakly as the visited set grows. -/
theorem measure_mono (g : Graph) {v w : List Nat} (h : ∀ x, x ∈ v → x ∈ w) :
    (g.univ.filter (fun x => decide (x ∉ w))).length ≤
      (g.univ.filter (fun x => decide (x ∉ v))).length :=
  length_filter_impl _ _ _ (fun x hx =>
    decide_eq_true (fun hv => (of_decide_eq_true hx) (h x hv)))

/-- The unvisited measure shrinks strictly when a fresh universe node
is visited. -/
theorem measure_strict (g : Graph) {v w : List Nat} (hsub : ∀ x, x ∈ v → x ∈ w)
    (n : Nat) (hn : n ∈ g.univ) (hnv : n ∉ v) (hnw : n ∈ w) :
    (g.univ.filter (fun x => decide (x ∉ w))).length <
      (g.univ.filter (fun x => decide (x ∉ v))).length :=
  length_filter_strict _ _ _ (fun x hx =>
      decide_eq_true (fun hv => (of_decide_eq_true hx) (hsub x hv)))
    n hn (decide_eq_true hnv) (decide_eq_false (not_not_intro hnw))

/-- Children lie in the graph's universe. -/
theorem childrenOf_mem_univ (g : Graph) (n c : Nat) (h : c ∈ g.childrenOf n) :
    c ∈ g.univ := by
  unfold Graph.childrenOf at h
  obtain ⟨e, he, he2⟩ := List.mem_map.mp h
  have hee : e ∈ g.edges := (List.mem_filter.mp he).1
  unfold Graph.univ
  rw [mem_dedupG]
  exact List.mem_append_left _ (List.mem_append_right _
    (List.mem_map.mpr ⟨e, hee, he2⟩))

/-- Roots lie in the graph's universe. -/
theorem roots_mem_univ (g : Graph) (r : Nat) (h : r ∈ g.roots) : r ∈ g.univ := by
  unfold Graph.univ
  rw [mem_dedupG]
  exact List.mem_append_left _ (List.mem_append_left _ (List.mem_append_left _ h))

/-- Membership in a node's child list is edge membership. -/
theorem mem_childrenOf (g : Graph) (a b : Nat) :
    b ∈ g.childrenOf a ↔ (a, b) ∈ g.edges := by
  unfold Graph.childrenOf
  constructor
  · intro h
    obtain ⟨e, he, he2⟩ := List.mem_map.mp h
    have h1 := List.mem_filter.mp he
    have he1 : e.1 = a := of_decide_eq_true h1.2
    have : e = (a, b) := by
      rcases e with ⟨x, y⟩
      dsimp only at he1 he2
      rw [he1, he2]
    rw [← this]
    exact h1.1
  · intro h
    exact List.mem_map.mpr ⟨(a, b), List.mem_filter.mpr ⟨h, by simp⟩, rfl⟩

/-- The children fold of `rewire` visits every listed child and keeps
newly visited nodes closed under children. -/
theorem rwStep_fold_visits (g : Graph) (R : List Nat) (fuel : Nat) (np : Option Nat)
    (hIH : ∀ node np2 s,
      (g.univ.filter (fun x => decide (x ∉ RWState.visited s))).length < fuel →
      node ∈ g.univ →
      node ∈ (rewire g R fuel node np2 s).2.visited ∧
      (∀ x, x ∈ (rewire g R fuel node np2 s).2.visited → x ∉ RWState.visited s →
        ∀ c, c ∈ g.childrenOf x → c ∈ (rewire g R fuel node np2 s).2.visited))
    (l : List Nat) (hl : ∀ c, c ∈ l → c ∈ g.univ) :
    ∀ acc : List Nat × RWState,
      (g.univ.filter (fun x => decide (x ∉ acc.2.visited))).length < fuel →
      (∀ c, c ∈ l → c ∈ (l.foldl (rwStep g R fuel np) acc).2.visited) ∧
      (∀ x, x ∈ (l.foldl (rwStep g R fuel np) acc).2.visited → x ∉ acc.2.visited →
        ∀ c, c ∈ g.childrenOf x → c ∈ (l.foldl (rwStep g R fuel np) acc).2.visited) := by
  induction l with
  | nil =>
    intro acc _
    exact ⟨fun c hc => absurd hc (List.not_mem_nil c),
      fun x hx hnx _ _ => absurd hx hnx⟩
  | cons c rest ih =>
    intro acc hm
    have hstep := hIH c np acc.2 hm (hl c (List.mem_cons_self c rest))
    have hext1 : acc.2.Ext (rwStep g R fuel np acc c).2 := rewire_ext g R fuel c np acc.2
    have hm2 : (g.univ.filter
        (fun x => decide (x ∉ (rwStep g R fuel np acc c).2.visited))).length < fuel :=
      Nat.lt_of_le_of_lt (measure_mono g hext1.1) hm
    obtain ⟨ihm, ihc⟩ := ih (fun d hd => hl d (List.mem_cons_of_mem c hd))
      (rwStep g R fuel np acc c) hm2
    have hext2 : (rwStep g R fuel np acc c).2.Ext
        ((rest.foldl (rwStep g R fuel np) (rwStep g R fuel np acc c)).2) :=
      rwStep_fold_ext g R fuel np (rewire_ext g R fuel) rest (rwStep g R fuel np acc c)
    refine ⟨?_, ?_⟩
    · intro d hd
      rcases List.mem_cons.mp hd with h1 | h1
      · subst h1
        exact hext2.1 d (hstep.1)
      · exact ihm d h1
    · intro x hx hnx d hd
      by_cases hx2 : x ∈ (rwStep g R fuel np acc c).2.visited
      · exact hext2.1 d (hstep.2 x hx2 hnx d hd)
      · exact ihc x hx hx2 d hd

/-- Completeness of `rewire`: with enough fuel the start node is
visited, and every newly visited node has all its children visited. -/
theorem rewire_visits (g : Graph) (R : List Nat) :
    ∀ fuel node np s,
      (g.univ.filter (fun x => decide (x ∉ RWState.visited s))).length < fuel →
      node ∈ g.univ →
      node ∈ (rewire g R fuel node np s).2.visited ∧
      (∀ x, x ∈ (rewire g R fuel node np s).2.visited → x ∉ RWState.visited s →
        ∀ c, c ∈ g.childrenOf x → c ∈ (rewire g R fuel node np s).2.visited) := by
  intro fuel
  induction fuel with
  | zero =>
    intro node np s hm _
    exact absurd hm (Nat.not_lt_zero _)
  | succ fuel ih =>
    intro node np s hm hn
    have hv1 : (s.connectAll np (s.conn node)).visited = s.visited :=
      connectAll_visited s np (s.conn node)
    by_cases h : node ∈ R
    · rw [rewire_ret g R fuel node np s h]
      by_cases hv : node ∈ (s.connectAll np (s.conn node)).visited
      · rw [if_pos hv]
        refine ⟨hv, ?_⟩
        intro x hx hnx
        rw [hv1] at hx
        exact absurd hx hnx
      · rw [if_neg hv]
        have hnvs : node ∉ s.visited := by rw [← hv1]; exact hv
        have hm0 : (g.univ.filter (fun x => decide (x ∉
            ({ s.connectAll np (s.conn node) with
               visited := node :: (s.connectAll np (s.conn node)).visited } :
               RWState).visited))).length < fuel := by
          refine Nat.lt_of_lt_of_le (measure_strict g ?_ node hn hnvs ?_)
            (Nat.lt_succ_iff.mp hm)
          · intro x hx
            exact List.mem_cons_of_mem node (by rw [hv1]; exact hx)
          · exact List.mem_cons_self _ _
        obtain ⟨hfm, hfc⟩ := rwStep_fold_visits g R fuel (some node) ih
          (g.childrenOf node) (fun c hc => childrenOf_mem_univ g node c hc)
          ([], { s.connectAll np (s.conn node) with
                 visited := node :: (s.connectAll np (s.conn node)).visited }) hm0
        have hextF : ({ s.connectAll np (s.conn node) with
            visited := node :: (s.connectAll np (s.conn node)).visited } : RWState).Ext
            (((g.childrenOf node).foldl (rwStep g R fuel (some node))
              ([], { s.connectAll np (s.conn node) with
                     visited := node :: (s.connectAll np (s.conn node)).visited })).2) :=
          rwStep_fold_ext g R fuel (some node) (rewire_ext g R fuel) (g.childrenOf node)
            ([], { s.connectAll np (s.conn node) with
                   visited := node :: (s.connectAll np (s.conn node)).visited })
        refine ⟨hextF.1 node (List.mem_cons_self _ _), ?_⟩
        intro x hx hnx d hd
        by_cases hxn : x = node
        · subst hxn
          exact hfm d hd
        · refine hfc x hx ?_ d hd
          intro hx0
          rcases List.mem_cons.mp hx0 with h1 | h1
          · exact hxn h1
          · rw [hv1] at h1
            exact hnx h1
    · rw [rewire_nonret g R fuel node np s h]
      dsimp only
      by_cases hv : node ∈ (s.connectAll np (s.conn node)).visited
      · rw [if_pos hv]
        rw [setConn_visited]
        refine ⟨hv, ?_⟩
        intro x hx hnx
        rw [hv1] at hx
        exact absurd hx hnx
      · rw [if_neg hv]
        rw [setConn_visited]
        have hnvs : node ∉ s.visited := by rw [← hv1]; exact hv
        have hm0 : (g.univ.filter (fun x => decide (x ∉
            ({ s.connectAll np (s.conn node) with
               visited := node :: (s.connectAll np (s.conn node)).visited } :
               RWState).visited))).length < fuel := by
          refine Nat.lt_of_lt_of_le (measure_strict g ?_ node hn hnvs ?_)
            (Nat.lt_succ_iff.mp hm)
          · intro x hx
            exact List.mem_cons_of_mem node (by rw [hv1]; exact hx)
          · exact List.mem_cons_self _ _
        obtain ⟨hfm, hfc⟩ := rwStep_fold_visits g R fuel np ih
          (g.childrenOf node) (fun c hc => childrenOf_mem_univ g node c hc)
          ([], { s.connectAll np (s.conn node) with
                 visited := node :: (s.connectAll np (s.conn node)).visited }) hm0
        have hextF : ({ s.connectAll np (s.conn node) with
            visited := node :: (s.connectAll np (s.conn node)).visited } : RWState).Ext
            (((g.childrenOf node).foldl (rwStep g R fuel np)
              ([], { s.connectAll np (s.conn node) with
                     visited := node :: (s.connectAll np (s.conn node)).visited })).2) :=
          rwStep_fold_ext g R fuel np (rewire_ext g R fuel) (g.childrenOf node)
            ([], { s.connectAll np (s.conn node) with
                   visited := node :: (s.connectAll np (s.conn node)).visited })
        refine ⟨hextF.1 node (List.mem_cons_self _ _), ?_⟩
        intro x hx hnx d hd
        by_cases hxn : x = node
        · subst hxn
          exact hfm d hd
        · refine hfc x hx ?_ d hd
          intro hx0
          rcases List.mem_cons.mp hx0 with h1 | h1
          · exact hxn h1
          · rw [hv1] at h1
            exact hnx h1

/-- The per-root loop of `squash` only extends the state. -/
theorem rewireRoots_ext (g : Graph) (R : List Nat) (fuel : Nat) (roots : List Nat) :
    ∀ s : RWState, s.Ext (rewireRoots g R fuel roots s) := by
  induction roots with
  | nil => intro s; exact ext_refl s
  | cons r rest ih =>
    intro s
    exact ext_trans (rewire_ext g R fuel r none s) (ih (rewire g R fuel r none s).2)

/-- The per-root loop of `squash` preserves the rewire invariant. -/
theorem rewireRoots_inv (g : Graph) (R : List Nat) (fuel : Nat) (roots : List Nat) :
    ∀ s : RWState, RWInv R s → RWInv R (rewireRoots g R fuel roots s) := by
  induction roots with
  | nil => intro s hs; exact hs
  | cons r rest ih =>
    intro s hs
    exact ih (rewire g R fuel r none s).2
      ((rewire_main g R fuel r none s hs (fun p hp => by cases hp)).1)

/-- The per-root loop of `squash` visits every root, and every node it
visits afresh has all its children visited. -/
theorem rewireRoots_visits (g : Graph) (R : List Nat) (fuel : Nat)
    (hfuel : g.univ.length < fuel) (roots : List Nat)
    (hroots : ∀ r, r ∈ roots → r ∈ g.univ) :
    ∀ s : RWState,
      (∀ r, r ∈ roots → r ∈ (rewireRoots g R fuel roots s).visited) ∧
      (∀ x, x ∈ (rewireRoots g R fuel roots s).visited → x ∉ s.visited →
        ∀ c, c ∈ g.childrenOf x → c ∈ (rewireRoots g R fuel roots s).visited) := by
  induction roots with
  | nil =>
    intro s
    exact ⟨fun r hr => absurd hr (List.not_mem_nil r),
      fun x hx hnx _ _ => absurd hx hnx⟩
  | cons r rest ih =>
    intro s
    have hm : (g.univ.filter (fun x => decide (x ∉ RWState.visited s))).length < fuel :=
      Nat.lt_of_le_of_lt (List.length_filter_le _ _) hfuel
    have hstep := rewire_visits g R fuel r none s hm (hroots r (List.mem_cons_self r rest))
    obtain ⟨ihm, ihc⟩ := ih (fun d hd => hroots d (List.mem_cons_of_mem r hd))
      (rewire g R fuel r none s).2
    have hext2 : (rewire g R fuel r none s).2.Ext
        (rewireRoots g R fuel rest (rewire g R fuel r none s).2) :=
      rewireRoots_ext g R fuel rest (rewire g R fuel r none s).2
    refine ⟨?_, ?_⟩
    · intro d hd
      rcases List.mem_cons.mp hd with h1 | h1
      · subst h1
        exact hext2.1 d hstep.1
      · exact ihm d h1
    · intro x hx hnx d hd
      by_cases hx2 : x ∈ (rewire g R fuel r none s).2.visited
      · exact hext2.1 d (hstep.2 x hx2 hnx d hd)
      · exact ihc x hx hx2 d hd

/-- Every node reachable from the roots is visited by the rewiring
pass of `squash`. -/
theorem squashState_visits (gf : GraphFrame) :
    ∀ x, gf.graph.RootReach x → x ∈ gf.squashState.visited := by
  intro x hx
  obtain ⟨r, hr, hre⟩ := hx
  have hv := rewireRoots_visits gf.graph gf.squashRetained (gf.graph.univ.length + 1)
    (Nat.lt_succ_self _) gf.graph.roots (fun d hd => roots_mem_univ gf.graph d hd)
    { connections := gf.squashRetained.map (fun k => (k, [k])),
      visited := [], new_roots := [], new_edges := [] }
  induction hre with
  | refl => exact hv.1 r hr
  | step hab he ih =>
    exact hv.2 _ ih (List.not_mem_nil _) _ ((mem_childrenOf gf.graph _ _).mpr he)

/-- The initial connections table of `squash` stores each retained
node's own copy. -/
theorem conn_init (R : List Nat) (n : Nat) :
    ({ connections := R.map (fun k => (k, [k])), visited := [], new_roots := [],
       new_edges := [] } : RWState).conn n = if n ∈ R then [n] else [] := by
  unfold RWState.conn
  dsimp only
  rw [alookup_tabG]
  by_cases hn : n ∈ R
  · rw [if_pos hn, if_pos hn]
    rfl
  · rw [if_neg hn, if_neg hn]
    rfl

/-- The initial rewire state of `squash` satisfies the invariant. -/
theorem squash_init_inv (R : List Nat) :
    RWInv R ({ connections := R.map (fun k => (k, [k])), visited := [], new_roots := [], new_edges := [] } : RWState) := by
  refine ⟨?_, ?_, ?_, ?_, ?_⟩
  · intro n x hx
    rw [conn_init] at hx
    by_cases hn : n ∈ R
    · rw [if_pos hn] at hx
      rw [List.mem_singleton.mp hx]
      exact hn
    · rw [if_neg hn] at hx
      exact absurd hx (List.not_mem_nil x)
  · intro x hx
    exact absurd hx (List.not_mem_nil x)
  · intro e he
    exact absurd he (List.not_mem_nil e)
  · intro y hy
    rw [conn_init, if_pos hy]
    exact List.mem_singleton.mpr rfl
  · intro y _ hyv
    exact absurd hyv (List.not_mem_nil y)

/-- The rewired graph of `squash` reaches exactly the retained nodes,
provided every table key was reachable in the input graph. -/
theorem squashGraph0_rootreach (gf : GraphFrame)
    (hkeys : ∀ n, n ∈ gf.dataframe.keys → gf.graph.RootReach n) :
    ∀ x, gf.squashGraph0.RootReach x ↔ x ∈ gf.squashRetained := by
  have hinv : RWInv gf.squashRetained gf.squashState :=
    rewireRoots_inv gf.graph gf.squashRetained (gf.graph.univ.length + 1) gf.graph.roots
      _ (squash_init_inv gf.squashRetained)
  intro x
  constructor
  · intro hx
    obtain ⟨r, hr, hre⟩ := hx
    induction hre with
    | refl => exact hinv.2.1 r hr
    | step _ he _ => exact (hinv.2.2.1 _ he).2
  · intro hx
    have hreach : gf.graph.RootReach x :=
      hkeys x ((mem_dedupG _ x).mp hx)
    have hvis : x ∈ gf.squashState.visited := squashState_visits gf x hreach
    obtain ⟨r, hr, hre⟩ := hinv.2.2.2.2 x hx hvis
    refine ⟨r, hr, reach_mono_edges ?_ hre⟩
    intro e he
    exact he

/-- Substituting the merged node yields the survivor. -/
theorem substNode_self (b c : Nat) : substNode b c c = b := by
  unfold substNode
  rw [if_pos rfl]

/-- Substitution leaves other nodes alone. -/
theorem substNode_other (b c x : Nat) (h : x ≠ c) : substNode b c x = x := by
  unfold substNode
  rw [if_neg h]

/-- Two nodes with equal substitutes are equal or belong to the merged
pair. -/
theorem substNode_eq_cases (b c u a : Nat) (h : substNode b c u = substNode b c a) :
    u = a ∨ u = b ∨ u = c := by
  unfold substNode at h
  by_cases hu : u = c
  · exact Or.inr (Or.inr hu)
  · rw [if_neg hu] at h
    by_cases ha : a = c
    · rw [if_pos ha] at h
      exact Or.inr (Or.inl h)
    · rw [if_neg ha] at h
      exact Or.inl h

/-- Roots map into the merged graph's roots. -/
theorem mergeStep_roots (g : Graph) (b c r : Nat) (h : r ∈ g.roots) :
    substNode b c r ∈ (g.mergeStep b c).roots := by
  unfold Graph.mergeStep
  rw [mem_dedupG]
  exact List.mem_map_of_mem (substNode b c) h

/-- Reachability maps forward through a merge step. -/
theorem mergeStep_reach_fwd (g : Graph) (b c : Nat) {a x : Nat}
    (h : Reach g a x) : Reach (g.mergeStep b c) (substNode b c a) (substNode b c x) := by
  induction h with
  | refl => exact Reach.refl _
  | step hab2 he ih =>
    rename_i b2 c2
    by_cases heq : substNode b c b2 = substNode b c c2
    · rw [← heq]
      exact ih
    · refine Reach.step ih ?_
      unfold Graph.mergeStep
      dsimp only
      rw [mem_dedupG, List.mem_filter]
      refine ⟨List.mem_map.mpr ⟨(b2, c2), he, rfl⟩, decide_eq_true heq⟩

/-- Root reachability maps forward through a merge step. -/
theorem mergeStep_rootreach_fwd (g : Graph) (b c x : Nat) (h : g.RootReach x) :
    (g.mergeStep b c).RootReach (substNode b c x) := by
  obtain ⟨r, hr, hre⟩ := h
  exact ⟨substNode b c r, mergeStep_roots g b c r hr, mergeStep_reach_fwd g b c hre⟩

/-- The merged graph's frame keys are the old ones without the merged
node. -/
theorem mergeStep_frameKeys (g : Graph) (b c x : Nat) :
    x ∈ (g.mergeStep b c).frameKeys ↔ x ∈ g.frameKeys ∧ x ≠ c := by
  unfold Graph.mergeStep Graph.frameKeys
  dsimp only
  constructor
  · intro h
    obtain ⟨p, hp, hp1⟩ := List.mem_map.mp h
    have h2 := List.mem_filter.mp hp
    exact ⟨List.mem_map.mpr ⟨p, h2.1, hp1⟩, hp1 ▸ of_decide_eq_true h2.2⟩
  · intro ⟨h1, h2⟩
    obtain ⟨p, hp, hp1⟩ := List.mem_map.mp h1
    exact List.mem_map.mpr ⟨p, List.mem_filter.mpr ⟨hp, decide_eq_true (hp1 ▸ h2)⟩, hp1⟩

/-- Backward direction: every node reachable in the merged graph is
the substitute of a node reachable in the old graph, provided the old
graph reaches exactly its frame keys. -/
theorem mergeStep_rootreach_bwd (g : Graph) (b c : Nat)
    (hI : ∀ x, g.RootReach x ↔ x ∈ g.frameKeys)
    (hb : b ∈ g.frameKeys) (hc : c ∈ g.frameKeys) :
    ∀ x, (g.mergeStep b c).RootReach x → ∃ y, g.RootReach y ∧ substNode b c y = x := by
  intro x hx
  obtain ⟨r2, hr2, hre⟩ := hx
  -- first resolve the root
  have hroot : ∃ r, r ∈ g.roots ∧ substNode b c r = r2 := by
    unfold Graph.mergeStep at hr2
    dsimp only at hr2
    rw [mem_dedupG] at hr2
    exact List.mem_map.mp hr2
  obtain ⟨r, hr, hrs⟩ := hroot
  induction hre with
  | refl => exact ⟨r, ⟨r, hr, Reach.refl r⟩, hrs⟩
  | step hab2 he ih =>
    rename_i a2 x2
    obtain ⟨a, hra, hsa⟩ := ih
    unfold Graph.mergeStep at he
    dsimp only at he
    rw [mem_dedupG, List.mem_filter] at he
    obtain ⟨e, hee, hes⟩ := List.mem_map.mp he.1
    have heu : substNode b c e.1 = a2 := congrArg Prod.fst hes
    have hev : substNode b c e.2 = x2 := congrArg Prod.snd hes
    have hue : substNode b c e.1 = substNode b c a := by rw [heu, hsa]
    have hua : g.RootReach e.1 := by
      rcases substNode_eq_cases b c e.1 a hue with h1 | h1 | h1
      · rw [h1]; exact hra
      · rw [h1]; exact (hI b).mpr hb
      · rw [h1]; exact (hI c).mpr hc
    obtain ⟨r0, hr0, hre0⟩ := hua
    have he2 : (e.1, e.2) ∈ g.edges := by
      rcases e with ⟨u, v⟩
      exact hee
    exact ⟨e.2, ⟨r0, hr0, Reach.step hre0 he2⟩, hev⟩

/-- A merge step preserves the reach-equals-frame-keys invariant. -/
theorem mergeStep_inv (g : Graph) (b c : Nat)
    (hI : ∀ x, g.RootReach x ↔ x ∈ g.frameKeys)
    (hb : b ∈ g.frameKeys) (hc : c ∈ g.frameKeys) (hbc : b ≠ c) :
    ∀ x, (g.mergeStep b c).RootReach x ↔ x ∈ (g.mergeStep b c).frameKeys := by
  intro x
  constructor
  · intro hx
    obtain ⟨y, hy, hyx⟩ := mergeStep_rootreach_bwd g b c hI hb hc x hx
    have hyk : y ∈ g.frameKeys := (hI y).mp hy
    rw [mergeStep_frameKeys]
    by_cases hyc : y = c
    · rw [← hyx, hyc, substNode_self]
      exact ⟨hb, hbc⟩
    · rw [← hyx, substNode_other b c y hyc]
      exact ⟨hyk, hyc⟩
  · intro hx
    rw [mergeStep_frameKeys] at hx
    have hxr : g.RootReach x := (hI x).mpr hx.1
    have := mergeStep_rootreach_fwd g b c x hxr
    rw [substNode_other b c x hx.2] at this
    exact this

/-- What a found merge pair guarantees. -/
theorem findMergePair_spec (g : Graph) (b c : Nat)
    (h : g.findMergePair = some (b, c)) :
    b ∈ g.frameKeys ∧ c ∈ g.frameKeys ∧ g.sibDup b c = true := by
  unfold Graph.findMergePair at h
  have hmem : (b, c) ∈ ((g.frames.map (fun p => p.1)).map (fun b2 =>
      ((g.frames.map (fun p => p.1)).filter (fun c2 => g.sibDup b2 c2)).map
        (fun c2 => (b2, c2)))).flatten := by
    rcases hl : ((g.frames.map (fun p => p.1)).map (fun b2 =>
        ((g.frames.map (fun p => p.1)).filter (fun c2 => g.sibDup b2 c2)).map
          (fun c2 => (b2, c2)))).flatten with _ | ⟨x, rest⟩
    · rw [hl] at h
      exact absurd h (by simp)
    · rw [hl] at h
      have hx : x = (b, c) := Option.some.inj h
      rw [hl, hx]
      exact List.mem_cons_self _ _
  obtain ⟨sub, hsub, hbc⟩ := List.mem_flatten.mp hmem
  obtain ⟨b0, hb0, hsub2⟩ := List.mem_map.mp hsub
  rw [← hsub2] at hbc
  obtain ⟨c0, hc0, hpair⟩ := List.mem_map.mp hbc
  have hb2 : b0 = b := congrArg Prod.fst hpair
  have hc2 : c0 = c := congrArg Prod.snd hpair
  have hcf := List.mem_filter.mp hc0
  subst hb2
  subst hc2
  exact ⟨hb0, hcf.1, hcf.2⟩

/-- A mergeable pair is two distinct nodes. -/
theorem sibDup_ne (g : Graph) (b c : Nat) (h : g.sibDup b c = true) : b ≠ c := by
  unfold Graph.sibDup at h
  rw [Bool.and_eq_true, Bool.and_eq_true] at h
  exact of_decide_eq_true h.1.1

/-- Lookup distributes over an association-list append. -/
theorem alookup_append {α β : Type} [DecidableEq α] (l1 l2 : List (α × β)) (k : α) :
    alookup (l1 ++ l2) k =
      match alookup l1 k with
      | some v => some v
      | none => alookup l2 k := by
  induction l1 with
  | nil => rfl
  | cons p rest ih =>
    show (if p.1 = k then some p.2 else alookup (rest ++ l2) k) = _
    by_cases hp : p.1 = k
    · rw [if_pos hp]
      show _ = (match (if p.1 = k then some p.2 else alookup rest k) with
        | some v => some v
        | none => alookup l2 k)
      rw [if_pos hp]
    · rw [if_neg hp, ih]
      show _ = (match (if p.1 = k then some p.2 else alookup rest k) with
        | some v => some v
        | none => alookup l2 k)
      rw [if_neg hp]

/-- Lookup through a value map on an association list. -/
theorem alookup_map_snd {α β γ : Type} [DecidableEq α] (l : List (α × β)) (f : β → γ)
    (k : α) : alookup (l.map (fun p => (p.1, f p.2))) k = (alookup l k).map f := by
  induction l with
  | nil => rfl
  | cons p rest ih =>
    show (if p.1 = k then some (f p.2) else _) = _
    by_cases hp : p.1 = k
    · rw [if_pos hp]
      show _ = (if p.1 = k then some p.2 else alookup rest k).map f
      rw [if_pos hp]
      rfl
    · rw [if_neg hp, ih]
      show _ = (if p.1 = k then some p.2 else alookup rest k).map f
      rw [if_neg hp]

/-- One merge step composes the substitution onto the resolved
mapping. -/
theorem mapOf_step (ms : List (Nat × Nat)) (b c x : Nat) :
    mapOf (ms.map (fun p => (p.1, substNode b c p.2)) ++ [(c, b)]) x =
      substNode b c (mapOf ms x) := by
  unfold mapOf
  rw [alookup_append, alookup_map_snd]
  rcases hm : alookup ms x with _ | v
  · show (alookup [(c, b)] x).getD x = substNode b c x
    by_cases hx : x = c
    · subst hx
      show (if x = x then some b else none).getD x = _
      rw [if_pos rfl, substNode_self]
      rfl
    · show (if c = x then some b else none).getD x = _
      rw [if_neg (fun h2 => hx h2.symm), substNode_other b c x hx]
      rfl
  · rfl

/-- `normalizeGo` preserves the reach-equals-frame-keys invariant and
keeps the image of the retained set equal to the frame keys. -/
theorem normalizeGo_inv (D : List Nat) :
    ∀ (fuel : Nat) (g : Graph) (ms : List (Nat × Nat)),
      (∀ x, g.RootReach x ↔ x ∈ g.frameKeys) →
      (∀ y, (∃ x, x ∈ D ∧ mapOf ms x = y) ↔ y ∈ g.frameKeys) →
      (∀ x, (Graph.normalizeGo fuel g ms).1.RootReach x ↔
        x ∈ (Graph.normalizeGo fuel g ms).1.frameKeys) ∧
      (∀ y, (∃ x, x ∈ D ∧ mapOf (Graph.normalizeGo fuel g ms).2 x = y) ↔
        y ∈ (Graph.normalizeGo fuel g ms).1.frameKeys) := by
  intro fuel
  induction fuel with
  | zero => intro g ms hI hM; exact ⟨hI, hM⟩
  | succ fuel ih =>
    intro g ms hI hM
    rcases hfm : g.findMergePair with _ | ⟨b, c⟩
    · simp only [Graph.normalizeGo, hfm]
      exact ⟨hI, hM⟩
    · obtain ⟨hb, hc, hsib⟩ := findMergePair_spec g b c hfm
      have hbc : b ≠ c := sibDup_ne g b c hsib
      have hI2 := mergeStep_inv g b c hI hb hc hbc
      have hM2 : ∀ y, (∃ x, x ∈ D ∧
          mapOf (ms.map (fun p => (p.1, substNode b c p.2)) ++ [(c, b)]) x = y) ↔
          y ∈ (g.mergeStep b c).frameKeys := by
        intro y
        constructor
        · intro ⟨x, hx, hxy⟩
          rw [mapOf_step] at hxy
          have hk : mapOf ms x ∈ g.frameKeys := (hM (mapOf ms x)).mp ⟨x, hx, rfl⟩
          rw [mergeStep_frameKeys]
          by_cases hyc : mapOf ms x = c
          · rw [← hxy, hyc, substNode_self]
            exact ⟨hb, hbc⟩
          · rw [← hxy, substNode_other b c _ hyc]
            exact ⟨hk, hyc⟩
        · intro hy
          rw [mergeStep_frameKeys] at hy
          obtain ⟨x, hx, hxy⟩ := (hM y).mpr hy.1
          refine ⟨x, hx, ?_⟩
          rw [mapOf_step, hxy, substNode_other b c y hy.2]
      have hrec := ih (g.mergeStep b c)
        (ms.map (fun p => (p.1, substNode b c p.2)) ++ [(c, b)]) hI2 hM2
      simp only [Graph.normalizeGo, hfm]
      exact hrec

/-- Writing cells at one node keeps the table's keys. -/
theorem setAt_keys (df : DataFrame) (n : Nat) (u : List (String × Val)) :
    (df.setAt n u).keys = df.keys := by
  unfold DataFrame.setAt DataFrame.keys
  dsimp only
  rw [List.map_map]
  apply List.map_congr_left
  intro r _
  show (if r.node = n
    then { r with cells := u.foldl (fun cs p => setCell cs p.1 p.2) r.cells }
    else r).node = r.node
  by_cases hr : r.node = n
  · rw [if_pos hr]
  · rw [if_neg hr]

/-- Copying a column keeps the table's keys. -/
theorem copyCol_keys (df : DataFrame) (s d : String) : (df.copyCol s d).keys = df.keys := by
  unfold DataFrame.copyCol DataFrame.keys
  dsimp only
  rw [List.map_map]
  rfl

/-- A fold of key-preserving table operations keeps the keys. -/
theorem foldl_keys_pres {β : Type} (F : DataFrame → β → DataFrame)
    (hF : ∀ d x, (F d x).keys = d.keys) (l : List β) :
    ∀ d, (l.foldl F d).keys = d.keys := by
  induction l with
  | nil => intro d; rfl
  | cons x rest ih =>
    intro d
    rw [List.foldl_cons, ih (F d x), hF d x]

/-- Initialising the sum columns keeps the table's keys. -/
theorem init_sum_keys (df : DataFrame) (cols : List String)
    (outs : Option (List String)) : (init_sum_columns df cols outs).1.keys = df.keys := by
  rcases outs with _ | os
  · unfold init_sum_columns
    rw [if_neg (fun hh => hh rfl)]
  · unfold init_sum_columns
    by_cases hc : cols.length ≠ os.length
    · simp only [if_pos hc]
      exact foldl_keys_pres _ (fun d p => copyCol_keys d p.1 p.2) (cols.zip os) df
    · simp only [if_neg hc]
      exact foldl_keys_pres _ (fun d p => copyCol_keys d p.1 p.2) (cols.zip os) df

/-- A subtree sum keeps the table's keys. -/
theorem subtree_sum_keys (gf : GraphFrame) (cols : List String)
    (outs : Option (List String)) :
    (gf.subtree_sum cols outs).1.dataframe.keys = gf.dataframe.keys := by
  unfold GraphFrame.subtree_sum
  rcases hinit : init_sum_columns gf.dataframe cols outs with ⟨df0, e⟩
  have hdf0 : df0.keys = gf.dataframe.keys := by
    have h2 := init_sum_keys gf.dataframe cols outs
    rw [hinit] at h2
    exact h2
  cases e
  · exact hdf0
  · refine Eq.trans (foldl_keys_pres _ ?_ _ df0) hdf0
    intro d n
    split
    · exact setAt_keys d n _
    · rfl

/-- The general subgraph sum keeps the table's keys. -/
theorem subgraphFallback_keys (gf : GraphFrame) (cols : List String)
    (outs : Option (List String)) :
    (gf.subgraphFallback cols outs).1.dataframe.keys = gf.dataframe.keys := by
  unfold GraphFrame.subgraphFallback
  rcases hinit : init_sum_columns gf.dataframe cols outs with ⟨df0, e⟩
  have hdf0 : df0.keys = gf.dataframe.keys := by
    have h2 := init_sum_keys gf.dataframe cols outs
    rw [hinit] at h2
    exact h2
  cases e
  · exact hdf0
  · exact Eq.trans (foldl_keys_pres _ (fun d n => setAt_keys d n _) _ df0) hdf0

/-- A subgraph sum keeps the table's keys. -/
theorem subgraph_sum_keys (gf : GraphFrame) (cols : List String)
    (outs : Option (List String)) :
    (gf.subgraph_sum cols outs).1.dataframe.keys = gf.dataframe.keys := by
  unfold GraphFrame.subgraph_sum
  by_cases ht : gf.graph.is_tree
  · rw [if_pos ht]
    exact subtree_sum_keys gf cols outs
  · rw [if_neg ht]
    exact subgraphFallback_keys gf cols outs

/-- Updating inclusive columns keeps the table's keys. -/
theorem update_inclusive_keys (gf : GraphFrame) :
    gf.update_inclusive_columns.dataframe.keys = gf.dataframe.keys := by
  unfold GraphFrame.update_inclusive_columns
  exact subgraph_sum_keys _ _ _

/-- Mapping a list to itself elementwise is the identity. -/
theorem map_self (l : List Nat) : l.map (fun k => k) = l := by
  induction l with
  | nil => rfl
  | cons a rest ih => rw [List.map_cons, ih]

/-- The keys of a table built by mapping rows. -/
theorem keys_map_rows (C : List String) (rows : List Row) (f : Row → Row) :
    (({ cols := C, rows := rows.map f } : DataFrame)).keys =
      rows.map (fun r => (f r).node) := by
  show (rows.map f).map (fun r => r.node) = _
  rw [List.map_map]
  rfl

/-- The grouped table's keys are the sorted distinct input keys. -/
theorem dfGroupNodeSum_keys (df : DataFrame) (ms : List String) :
    (dfGroupNodeSum df ms).keys = insSortNat (dedupG df.keys) := by
  unfold dfGroupNodeSum DataFrame.keys
  dsimp only
  rw [List.map_map]
  show List.map (fun k => k) _ = _
  rw [map_self]

/-- Membership in a sorted insertion. -/
theorem mem_insNat (x y : Nat) (l : List Nat) : x ∈ insNat y l ↔ x = y ∨ x ∈ l := by
  induction l with
  | nil => simp [insNat]
  | cons a rest ih =>
    by_cases hle : y ≤ a
    · simp [insNat, hle, List.mem_cons]
    · simp only [insNat, if_neg hle, List.mem_cons, ih]
      tauto

/-- Insertion sort keeps membership. -/
theorem mem_insSortNat (x : Nat) (l : List Nat) : x ∈ insSortNat l ↔ x ∈ l := by
  induction l with
  | nil => simp [insSortNat]
  | cons a rest ih => simp only [insSortNat, mem_insNat, List.mem_cons, ih]

/-- The frame keys of the rewired graph are the retained nodes. -/
theorem squashGraph0_frameKeys (gf : GraphFrame) :
    gf.squashGraph0.frameKeys = gf.squashRetained := by
  unfold GraphFrame.squashGraph0 Graph.frameKeys
  dsimp only
  rw [List.map_map]
  show List.map (fun k => k) _ = _
  rw [map_self]

/-- After normalization, the squashed graph reaches exactly its frame
keys, which are exactly the image of the retained set. -/
theorem squash_normalize_inv (gf : GraphFrame)
    (hkeys : ∀ n, n ∈ gf.dataframe.keys → gf.graph.RootReach n) :
    (∀ x, (gf.squashGraph0.normalize).1.RootReach x ↔
      x ∈ (gf.squashGraph0.normalize).1.frameKeys) ∧
    (∀ y, (∃ x, x ∈ gf.squashRetained ∧ mapOf (gf.squashGraph0.normalize).2 x = y) ↔
      y ∈ (gf.squashGraph0.normalize).1.frameKeys) := by
  unfold Graph.normalize
  refine normalizeGo_inv gf.squashRetained _ _ [] ?_ ?_
  · intro x
    rw [squashGraph0_frameKeys]
    exact squashGraph0_rootreach gf hkeys x
  · intro y
    rw [squashGraph0_frameKeys]
    constructor
    · rintro ⟨x, hx, hxy⟩
      have hxy2 : x = y := hxy
      rw [← hxy2]
      exact hx
    · intro hy
      exact ⟨y, hy, rfl⟩

/-- The squashed graph is the normalized rewired graph. -/
theorem squash_graph (gf : GraphFrame) :
    gf.squash.graph = (gf.squashGraph0.normalize).1 := by
  unfold GraphFrame.squash
  dsimp only
  rw [update_inclusive_graph]

/-- The squashed table's keys are the sorted distinct images of the
old keys under the resolved node mapping. -/
theorem squash_keys (gf : GraphFrame) :
    gf.squash.dataframe.keys = insSortNat (dedupG (gf.dataframe.rows.map
      (fun r => mapOf (gf.squashGraph0.normalize).2 r.node))) := by
  unfold GraphFrame.squash
  dsimp only
  rw [update_inclusive_keys]
  dsimp only
  rw [dfGroupNodeSum_keys, keys_map_rows]
  rfl

/-- C2: for every GraphFrame whose table keys are all reachable from
the graph's roots (squash succeeds unconditionally — see C1 — so the
input-side invariant is the claim's precondition), the squashed
result satisfies the rewrite invariant: a node is reachable from the
result graph's roots exactly when it is a node key of the result
dataframe. -/
theorem C2_squash_reach_eq_keys (gf : GraphFrame)
    (hkeys : ∀ n, n ∈ gf.dataframe.keys → gf.graph.RootReach n) :
    ∀ x, gf.squash.graph.RootReach x ↔ x ∈ gf.squash.dataframe.keys := by
  obtain ⟨hI, hM⟩ := squash_normalize_inv gf hkeys
  intro x
  rw [squash_graph, hI x, ← hM x, squash_keys, mem_insSortNat, mem_dedupG]
  constructor
  · rintro ⟨k, hk, hkx⟩
    have hk2 : k ∈ gf.dataframe.keys := (mem_dedupG gf.dataframe.keys k).mp hk
    obtain ⟨r, hr, hrk⟩ := List.mem_map.mp hk2
    refine List.mem_map.mpr ⟨r, hr, ?_⟩
    rw [hrk]
    exact hkx
  · intro hx
    obtain ⟨r, hr, hrx⟩ := List.mem_map.mp hx
    refine ⟨r.node, ?_, hrx⟩
    exact (mem_dedupG gf.dataframe.keys r.node).mpr (List.mem_map.mpr ⟨r, hr, rfl⟩)

/-- Witness for C2 at the four-node chain: node 2 is reachable from
the squashed graph's roots and is a key of the squashed table. -/
theorem C2_witness :
    chainGF.squash.graph.RootReach 2 ∧ 2 ∈ chainGF.squash.dataframe.keys := by
  have hkeys : ∀ n, n ∈ chainGF.dataframe.keys → chainGF.graph.RootReach n := by
    intro n hn
    have h0 : Reach chainGF.graph 0 0 := Reach.refl 0
    have h1 : Reach chainGF.graph 0 1 := Reach.step h0 (by decide)
    have h2 : Reach chainGF.graph 0 2 := Reach.step h1 (by decide)
    have h3 : Reach chainGF.graph 0 3 := Reach.step h2 (by decide)
    have hn2 : n = 0 ∨ n = 1 ∨ n = 2 ∨ n = 3 := by
      have hn3 : n ∈ [0, 1, 2, 3] := hn
      simpa using hn3
    rcases hn2 with rfl | rfl | rfl | rfl
    · exact ⟨0, by decide, h0⟩
    · exact ⟨0, by decide, h1⟩
    · exact ⟨0, by decide, h2⟩
    · exact ⟨0, by decide, h3⟩
  have hmem : 2 ∈ chainGF.squash.dataframe.keys := by decide
  exact ⟨(C2_squash_reach_eq_keys chainGF hkeys 2).mpr hmem, hmem⟩

/-- Cell addition is associative. -/
theorem valAdd_assoc (a b c : Val) : valAdd (valAdd a b) c = valAdd a (valAdd b c) := by
  cases a <;> cases b <;> cases c <;> simp [valAdd] <;> ring

/-- Adding after a zero-seeded copy is the same as adding directly. -/
theorem valAdd_zero_absorb (z x : Val) : valAdd z (valAdd (Val.num 0) x) = valAdd z x := by
  cases z <;> cases x <;> simp [valAdd]

/-- Folding onto an added seed pulls the seed out. -/
theorem foldl_valAdd_pull (l : List Val) :
    ∀ z y, l.foldl valAdd (valAdd z y) = valAdd z (l.foldl valAdd y) := by
  induction l with
  | nil => intro z y; rfl
  | cons x rest ih =>
    intro z y
    rw [List.foldl_cons, List.foldl_cons, valAdd_assoc, ih]

/-- A cell sum is never a string. -/
theorem sumVals_not_str (l : List Val) :
    sumVals l = Val.nan ∨ ∃ k, sumVals l = Val.num k := by
  unfold sumVals
  have h : ∀ z : Val, (z = Val.nan ∨ ∃ k, z = Val.num k) →
      l.foldl valAdd z = Val.nan ∨ ∃ k, l.foldl valAdd z = Val.num k := by
    induction l with
    | nil => intro z hz; exact hz
    | cons x rest ih =>
      intro z hz
      rw [List.foldl_cons]
      refine ih (valAdd z x) ?_
      rcases hz with hz | ⟨k, hz⟩ <;> subst hz <;> cases x <;>
        simp [valAdd]
  exact h (Val.num 0) (Or.inr ⟨0, rfl⟩)

/-- Folding cell addition from a numeric-or-missing seed is adding the
seed to the sum. -/
theorem foldl_valAdd_sum (l : List Val) (z : Val)
    (hz : z = Val.nan ∨ ∃ k, z = Val.num k) :
    l.foldl valAdd z = valAdd z (sumVals l) := by
  induction l generalizing z with
  | nil =>
    rcases hz with hz | ⟨k, hz⟩ <;> subst hz <;> simp [sumVals, valAdd]
  | cons x rest ih =>
    rw [List.foldl_cons]
    have hzx : valAdd z x = Val.nan ∨ ∃ k, valAdd z x = Val.num k := by
      rcases hz with hz | ⟨k, hz⟩ <;> subst hz <;> cases x <;> simp [valAdd]
    rw [ih (valAdd z x) hzx]
    show valAdd (valAdd z x) (sumVals rest) = valAdd z (sumVals (x :: rest))
    have h2 : sumVals (x :: rest) = valAdd (valAdd (Val.num 0) x) (sumVals rest) := by
      unfold sumVals
      rw [List.foldl_cons]
      exact ih (valAdd (Val.num 0) x) (by cases x <;> simp [valAdd])
    rw [h2, ← valAdd_assoc, valAdd_zero_absorb]

/-- Splitting a cell sum over an append. -/
theorem sumVals_append (a b : List Val) :
    sumVals (a ++ b) = valAdd (sumVals a) (sumVals b) := by
  show (a ++ b).foldl valAdd (Val.num 0) = _
  rw [List.foldl_append]
  exact foldl_valAdd_sum b (sumVals a) (sumVals_not_str a)

/-- Swapping the last two addends of a cell sum. -/
theorem valAdd_right_comm (z x y : Val) :
    valAdd (valAdd z x) y = valAdd (valAdd z y) x := by
  cases z <;> cases x <;> cases y <;> simp [valAdd] <;> ring

/-- Cell sums are invariant under permutation. -/
theorem sumVals_perm (l l2 : List Val) (h : l.Perm l2) : sumVals l = sumVals l2 := by
  induction h with
  | nil => rfl
  | cons x hp ih =>
    rename_i t1 t2
    show (t1.foldl valAdd (valAdd (Val.num 0) x)) = (t2.foldl valAdd (valAdd (Val.num 0) x))
    rw [foldl_valAdd_sum t1 _ (by cases x <;> simp [valAdd]),
      foldl_valAdd_sum t2 _ (by cases x <;> simp [valAdd]), ih]
  | swap x y t =>
    show (t.foldl valAdd (valAdd (valAdd (Val.num 0) y) x)) =
      (t.foldl valAdd (valAdd (valAdd (Val.num 0) x) y))
    rw [valAdd_right_comm]
  | trans _ _ ih1 ih2 => exact ih1.trans ih2

/-- Two duplicate-free node lists with the same members are
permutations of each other. -/
theorem perm_of_nodup_mem_iff {l1 l2 : List Nat} (h1 : l1.Nodup) (h2 : l2.Nodup)
    (h : ∀ x, x ∈ l1 ↔ x ∈ l2) : l1.Perm l2 :=
  List.Subperm.antisymm (h1.subperm (fun x hx => (h x).mp hx))
    (h2.subperm (fun x hx => (h x).mpr hx))

/-- Composition of big-step traversals. -/
theorem dfsbig_append {g : Graph} {A B : List Ev} {s t u : DfsState}
    (h1 : DfsBig g A s t) (h2 : DfsBig g B t u) : DfsBig g (A ++ B) s u := by
  induction h1 with
  | nil _ => exact h2
  | enter_vis hv _ ih => exact DfsBig.enter_vis hv (ih h2)
  | enter_new hv _ ih =>
    refine DfsBig.enter_new hv ?_
    have h3 := ih h2
    rw [List.append_assoc, List.cons_append] at h3
    exact h3
  | exit_ev _ ih => exact DfsBig.exit_ev (ih h2)

/-- The big-step traversal is deterministic. -/
theorem dfsbig_det {g : Graph} {stack : List Ev} {s u1 u2 : DfsState}
    (h1 : DfsBig g stack s u1) (h2 : DfsBig g stack s u2) : u1 = u2 := by
  induction h1 generalizing u2 with
  | nil _ =>
    cases h2
    rfl
  | enter_vis hv _ ih =>
    cases h2 with
    | enter_vis hv2 hrest => exact ih hrest
    | enter_new hv2 _ => exact absurd hv hv2
  | enter_new hv _ ih =>
    cases h2 with
    | enter_vis hv2 _ => exact absurd hv2 hv
    | enter_new hv2 hrest => exact ih hrest
  | exit_ev _ ih =>
    cases h2 with
    | exit_ev hrest => exact ih hrest

/-- Deduplication produces a duplicate-free list. -/
theorem nodup_dedupG {α : Type} [DecidableEq α] (l : List α) : (dedupG l).Nodup := by
  induction l with
  | nil => exact List.nodup_nil
  | cons x rest ih =>
    refine List.nodup_cons.mpr ⟨?_, List.Nodup.filter _ ih⟩
    intro hx
    have := (List.mem_filter.mp hx).2
    exact absurd rfl (of_decide_eq_true this)

/-- The graph's universe is duplicate-free. -/
theorem nodup_univ (g : Graph) : g.univ.Nodup := nodup_dedupG _

/-- Visiting a fresh universe node splits off its weight term. -/
theorem filter_sum_visit {l : List Nat} (hl : l.Nodup) (f : Nat → Nat) (vis : List Nat)
    (n : Nat) (hn : n ∈ l) (hnv : n ∉ vis) :
    ((l.filter (fun x => decide (x ∉ vis))).map f).sum =
      f n + ((l.filter (fun x => decide (x ∉ n :: vis))).map f).sum := by
  induction l with
  | nil => cases hn
  | cons a rest ih =>
    have hnd := List.nodup_cons.mp hl
    rcases List.mem_cons.mp hn with h1 | h1
    · subst h1
      rw [List.filter_cons_of_pos (by rw [decide_eq_true hnv]),
        List.filter_cons_of_neg (by
          rw [decide_eq_false (not_not_intro (List.mem_cons_self n vis))]
          exact Bool.false_ne_true)]
      have hfc : rest.filter (fun x => decide (x ∉ n :: vis)) =
          rest.filter (fun x => decide (x ∉ vis)) := by
        apply List.filter_congr
        intro x hx
        have hxn : x ≠ n := fun he => hnd.1 (he ▸ hx)
        by_cases hxv : x ∈ vis
        · rw [decide_eq_false (not_not_intro hxv),
            decide_eq_false (not_not_intro (List.mem_cons_of_mem n hxv))]
        · rw [decide_eq_true hxv,
            decide_eq_true (show x ∉ n :: vis from
              fun hmem => (List.mem_cons.mp hmem).elim hxn hxv)]
      rw [hfc, List.map_cons, List.sum_cons]
    · have hxn : a ≠ n := fun he => hnd.1 (he ▸ h1)
      by_cases hav : a ∈ vis
      · rw [List.filter_cons_of_neg (by
            rw [decide_eq_false (not_not_intro hav)]
            exact Bool.false_ne_true),
          List.filter_cons_of_neg (by
            rw [decide_eq_false (not_not_intro (List.mem_cons_of_mem n hav))]
            exact Bool.false_ne_true)]
        exact ih hnd.2 h1
      · rw [List.filter_cons_of_pos (by rw [decide_eq_true hav]),
          List.filter_cons_of_pos (by
            rw [decide_eq_true (show a ∉ n :: vis from
              fun hmem => (List.mem_cons.mp hmem).elim hxn hav)]),
          List.map_cons, List.sum_cons, List.map_cons, List.sum_cons,
          ih hnd.2 h1]
        omega

/-- The fueled traversal with enough fuel realizes the big-step
relation. -/
theorem dfsRun_completes (g : Graph) :
    ∀ fuel stack (s : DfsState),
      stack.length + g.weight s.vis < fuel →
      (∀ n, Ev.enter n ∈ stack → n ∈ g.univ) →
      DfsBig g stack s (dfsRun g fuel stack s) := by
  intro fuel
  induction fuel with
  | zero =>
    intro stack s hm _
    exact absurd hm (Nat.not_lt_zero _)
  | succ fuel ih =>
    intro stack s hm hst
    have hm2 : stack.length + g.weight s.vis < fuel + 1 := hm
    match stack, hm2, hst with
    | [], _, _ => exact DfsBig.nil s
    | Ev.enter n :: rest, hm2, hst =>
      by_cases hv : n ∈ s.vis
      · have hrun : dfsRun g (fuel + 1) (Ev.enter n :: rest) s = dfsRun g fuel rest s := by
          show (if n ∈ s.vis then dfsRun g fuel rest s else _) = _
          rw [if_pos hv]
        rw [hrun]
        refine DfsBig.enter_vis hv (ih rest s ?_ ?_)
        · have hlen2 : (Ev.enter n :: rest).length = rest.length + 1 := rfl
          omega
        · intro m hmem
          exact hst m (List.mem_cons_of_mem _ hmem)
      · have hrun : dfsRun g (fuel + 1) (Ev.enter n :: rest) s = dfsRun g fuel
            ((g.childrenOf n).map Ev.enter ++ Ev.exitev n :: rest)
            { vis := n :: s.vis, pre := s.pre ++ [n], post := s.post } := by
          show (if n ∈ s.vis then _ else _) = _
          rw [if_neg hv]
        rw [hrun]
        refine DfsBig.enter_new hv (ih _ _ ?_ ?_)
        · show ((g.childrenOf n).map Ev.enter ++ Ev.exitev n :: rest).length +
            g.weight (n :: s.vis) < fuel
          have hw : g.weight s.vis =
              (2 + (g.childrenOf n).length) + g.weight (n :: s.vis) := by
            unfold Graph.weight
            exact filter_sum_visit (nodup_univ g) _ s.vis n
              (hst n (List.mem_cons_self _ _)) hv
          have hlen : ((g.childrenOf n).map Ev.enter ++ Ev.exitev n :: rest).length =
              (g.childrenOf n).length + 1 + rest.length := by
            rw [List.length_append, List.length_map, List.length_cons]
            omega
          have hlen2 : (Ev.enter n :: rest).length = rest.length + 1 := rfl
          omega
        · intro m hmem
          rcases List.mem_append.mp hmem with h1 | h1
          · obtain ⟨c, hc, hce⟩ := List.mem_map.mp h1
            have hcm : c = m := Ev.enter.inj hce
            exact hcm ▸ childrenOf_mem_univ g n c hc
          · rcases List.mem_cons.mp h1 with h2 | h2
            · exact absurd h2 (by simp)
            · exact hst m (List.mem_cons_of_mem _ h2)
    | Ev.exitev n :: rest, hm2, hst =>
      refine DfsBig.exit_ev (ih rest _ ?_ ?_)
      · show rest.length + g.weight s.vis < fuel
        have hlen2 : (Ev.exitev n :: rest).length = rest.length + 1 := rfl
        omega
      · intro m hmem
        exact hst m (List.mem_cons_of_mem _ hmem)

/-- A big-step traversal only pushes onto the visited list. -/
theorem dfsbig_vis_shape {g : Graph} {stack : List Ev} {s u : DfsState}
    (h : DfsBig g stack s u) : ∃ w, u.vis = w ++ s.vis := by
  induction h with
  | nil s2 => exact ⟨[], rfl⟩
  | enter_vis _ _ ih => exact ih
  | enter_new _ _ ih =>
    obtain ⟨w, hw⟩ := ih
    exact ⟨w ++ [_], by rw [hw, List.append_assoc]; rfl⟩
  | exit_ev _ ih => exact ih

/-- The visited list grows monotonically. -/
theorem dfsbig_vis_mono {g : Graph} {stack : List Ev} {s u : DfsState}
    (h : DfsBig g stack s u) : ∀ x, x ∈ s.vis → x ∈ u.vis := by
  obtain ⟨w, hw⟩ := dfsbig_vis_shape h
  intro x hx
  rw [hw]
  exact List.mem_append_right w hx

/-- Every node entered on the stack ends up visited. -/
theorem dfsbig_enter_visited {g : Graph} {stack : List Ev} {s u : DfsState}
    (h : DfsBig g stack s u) : ∀ n, Ev.enter n ∈ stack → n ∈ u.vis := by
  induction h with
  | nil s2 => exact fun n hn => absurd hn (List.not_mem_nil _)
  | enter_vis hv hrest ih =>
    intro m hm
    rcases List.mem_cons.mp hm with h1 | h1
    · have hmn := Ev.enter.inj h1.symm
      exact hmn ▸ dfsbig_vis_mono hrest _ hv
    · exact ih m h1
  | enter_new hv hrest ih =>
    intro m hm
    rcases List.mem_cons.mp hm with h1 | h1
    · have hmn := Ev.enter.inj h1.symm
      refine hmn ▸ dfsbig_vis_mono hrest _ ?_
      exact List.mem_cons_self _ _
    · exact ih m (List.mem_append_right _ (List.mem_cons_of_mem _ h1))
  | exit_ev hrest ih =>
    intro m hm
    rcases List.mem_cons.mp hm with h1 | h1
    · exact absurd h1 (by simp)
    · exact ih m h1

/-- Every newly visited node has all its children visited at the end. -/
theorem dfsbig_closure {g : Graph} {stack : List Ev} {s u : DfsState}
    (h : DfsBig g stack s u) :
    ∀ x, x ∈ u.vis → x ∉ s.vis → ∀ c, c ∈ g.childrenOf x → c ∈ u.vis := by
  induction h with
  | nil s2 => exact fun x hx hnx _ _ => absurd hx hnx
  | enter_vis _ _ ih => exact ih
  | enter_new hv hrest ih =>
    intro x hx hnx c hc
    rename_i n rest s2 u2
    by_cases hxn : x = n
    · subst hxn
      exact dfsbig_enter_visited hrest c
        (List.mem_append_left _ (List.mem_map_of_mem Ev.enter hc))
    · refine ih x hx ?_ c hc
      intro hmem
      rcases List.mem_cons.mp hmem with h1 | h1
      · exact hxn h1
      · exact hnx h1
  | exit_ev _ ih => exact ih

/-- Soundness of the visited list: any property of the entered nodes
closed under children covers every visited node. -/
theorem dfsbig_vis_sound {g : Graph} {stack : List Ev} {s u : DfsState}
    (h : DfsBig g stack s u) (P : Nat → Prop)
    (hP : ∀ n c, P n → c ∈ g.childrenOf n → P c)
    (hstack : ∀ n, Ev.enter n ∈ stack → P n)
    (hvis : ∀ v, v ∈ s.vis → P v) :
    ∀ v, v ∈ u.vis → P v := by
  induction h with
  | nil s2 => exact hvis
  | enter_vis _ _ ih =>
    exact ih (fun n hn => hstack n (List.mem_cons_of_mem _ hn)) hvis
  | enter_new hv hrest ih =>
    rename_i n rest s2 u2
    have hn : P n := hstack n (List.mem_cons_self _ _)
    refine ih ?_ ?_
    · intro m hm
      rcases List.mem_append.mp hm with h1 | h1
      · obtain ⟨c, hc, hce⟩ := List.mem_map.mp h1
        exact (Ev.enter.inj hce) ▸ hP n c hn hc
      · rcases List.mem_cons.mp h1 with h2 | h2
        · exact absurd h2 (by simp)
        · exact hstack m (List.mem_cons_of_mem _ h2)
    · intro v hvmem
      rcases List.mem_cons.mp hvmem with h1 | h1
      · exact h1 ▸ hn
      · exact hvis v h1
  | exit_ev _ ih =>
    exact ih (fun n hn => hstack n (List.mem_cons_of_mem _ hn)) hvis

/-- The preorder appended by a big-step traversal lists exactly the
newly visited nodes, without duplicates. -/
theorem dfsbig_pre {g : Graph} {stack : List Ev} {s u : DfsState}
    (h : DfsBig g stack s u) :
    ∃ d, u.pre = s.pre ++ d ∧ (∀ x, x ∈ d ↔ x ∈ u.vis ∧ x ∉ s.vis) ∧ d.Nodup := by
  induction h with
  | nil s2 =>
    exact ⟨[], by simp, fun x => by simp, List.nodup_nil⟩
  | enter_vis _ _ ih => exact ih
  | enter_new hv hrest ih =>
    rename_i n rest s2 u2
    obtain ⟨d, hd, hmem, hnd⟩ := ih
    have hnvis : n ∈ u2.vis := dfsbig_vis_mono hrest n (List.mem_cons_self _ _)
    refine ⟨n :: d, ?_, ?_, ?_⟩
    · rw [hd]
      dsimp only
      rw [List.append_assoc]
      rfl
    · intro x
      constructor
      · intro hx
        rcases List.mem_cons.mp hx with h1 | h1
        · exact ⟨h1 ▸ hnvis, h1 ▸ hv⟩
        · have h2 := (hmem x).mp h1
          exact ⟨h2.1, fun hxv => h2.2 (List.mem_cons_of_mem _ hxv)⟩
      · intro ⟨hxu, hxs⟩
        by_cases hxn : x = n
        · exact List.mem_cons.mpr (Or.inl hxn)
        · refine List.mem_cons.mpr (Or.inr ((hmem x).mpr ⟨hxu, ?_⟩))
          intro hmem2
          rcases List.mem_cons.mp hmem2 with h1 | h1
          · exact hxn h1
          · exact hxs h1
    · refine List.nodup_cons.mpr ⟨?_, hnd⟩
      intro hn
      exact ((hmem n).mp hn).2 (List.mem_cons_self _ _)
  | exit_ev _ ih => exact ih

/-- The big-step derivation underlying `traverseFrom`. -/
theorem traverseFrom_big (g : Graph) (starts : List Nat)
    (h : ∀ n, n ∈ starts → n ∈ g.univ) :
    DfsBig g (starts.map Ev.enter) ⟨[], [], []⟩ (g.traverseFrom starts) := by
  unfold Graph.traverseFrom dfsFuel
  refine dfsRun_completes g _ _ _ ?_ ?_
  · show (starts.map Ev.enter).length + g.weight [] <
      (starts.map Ev.enter).length + g.weight [] + 1
    exact Nat.lt_succ_self _
  · intro n hn
    obtain ⟨m, hm, hme⟩ := List.mem_map.mp hn
    exact (Ev.enter.inj hme) ▸ h m hm

/-- The visited set of a traversal is the reachable set of its start
nodes. -/
theorem mem_traverseFrom_vis (g : Graph) (starts : List Nat)
    (h : ∀ n, n ∈ starts → n ∈ g.univ) :
    ∀ x, x ∈ (g.traverseFrom starts).vis ↔ ∃ r, r ∈ starts ∧ Reach g r x := by
  have hbig := traverseFrom_big g starts h
  intro x
  constructor
  · refine dfsbig_vis_sound hbig (fun y => ∃ r, r ∈ starts ∧ Reach g r y) ?_ ?_ ?_ x
    · intro n c ⟨r, hr, hre⟩ hc
      exact ⟨r, hr, Reach.step hre ((mem_childrenOf g n c).mp hc)⟩
    · intro n hn
      obtain ⟨m, hm, hme⟩ := List.mem_map.mp hn
      exact (Ev.enter.inj hme) ▸ ⟨m, hm, Reach.refl m⟩
    · intro v hv
      exact absurd hv (List.not_mem_nil v)
  · intro ⟨r, hr, hre⟩
    induction hre with
    | refl => exact dfsbig_enter_visited hbig r (List.mem_map_of_mem Ev.enter hr)
    | step _ he ih =>
      exact dfsbig_closure hbig _ ih (List.not_mem_nil _) _
        ((mem_childrenOf g _ _).mpr he)

/-- The traversal's reachable-node list is sound and complete. -/
theorem mem_reachList (g : Graph) :
    ∀ x, x ∈ g.reachList ↔ g.RootReach x :=
  mem_traverseFrom_vis g g.roots (fun n hn => roots_mem_univ g n hn)

/-- The subgraph preorder of one node lists exactly the nodes it
reaches, without duplicates. -/
theorem node_traverse_spec (g : Graph) (n : Nat) (hn : n ∈ g.univ) :
    (Node.traverse g n).Nodup ∧ ∀ x, x ∈ Node.traverse g n ↔ Reach g n x := by
  have hbig := traverseFrom_big g [n]
    (fun m hm => by rw [List.mem_singleton.mp hm]; exact hn)
  obtain ⟨d, hd, hmem, hnd⟩ := dfsbig_pre hbig
  have hpre : Node.traverse g n = d := hd
  have hvis := mem_traverseFrom_vis g [n]
    (fun m hm => by rw [List.mem_singleton.mp hm]; exact hn)
  constructor
  · rw [hpre]
    exact hnd
  · intro x
    rw [hpre, hmem x]
    constructor
    · intro ⟨hx, _⟩
      obtain ⟨r, hr, hre⟩ := (hvis x).mp hx
      rw [← List.mem_singleton.mp hr]
      exact hre
    · intro hre
      exact ⟨(hvis x).mpr ⟨n, List.mem_singleton.mpr rfl, hre⟩, List.not_mem_nil x⟩

/-- The tree test holds exactly when every reachable non-root node has
one parent. -/
theorem is_tree_iff (g : Graph) :
    g.is_tree = true ↔
      ∀ x, g.RootReach x → x ∈ g.roots ∨ (g.parentsOf x).length = 1 := by
  unfold Graph.is_tree
  rw [List.all_eq_true]
  constructor
  · intro h x hx
    have h2 := h x ((mem_reachList g x).mpr hx)
    simpa using h2
  · intro h x hx
    have h2 := h x ((mem_reachList g x).mp hx)
    simpa using h2

/-- Reachability is transitive. -/
theorem reach_trans {g : Graph} {a b c : Nat} (h1 : Reach g a b) (h2 : Reach g b c) :
    Reach g a c := by
  induction h2 with
  | refl => exact h1
  | step _ he ih => exact Reach.step ih he

/-- Inversion on the last edge of a reachability path. -/
theorem reach_last_edge {g : Graph} {a y : Nat} (h : Reach g a y) :
    y = a ∨ ∃ p, Reach g a p ∧ (p, y) ∈ g.edges := by
  cases h with
  | refl => exact Or.inl rfl
  | step hab he => exact Or.inr ⟨_, hab, he⟩

/-- Decomposition on the first edge of a reachability path. -/
theorem reach_first_edge {g : Graph} {n y : Nat} (h : Reach g n y) :
    y = n ∨ ∃ c, (n, c) ∈ g.edges ∧ Reach g c y := by
  induction h with
  | refl => exact Or.inl rfl
  | step hab he ih =>
    rename_i a2 y2
    rcases ih with h1 | ⟨c, hce, hcr⟩
    · exact Or.inr ⟨y2, h1 ▸ he, Reach.refl y2⟩
    · exact Or.inr ⟨c, hce, Reach.step hcr he⟩

/-- Membership in a node's parent list is edge membership. -/
theorem mem_parentsOf (g : Graph) (p c : Nat) :
    p ∈ g.parentsOf c ↔ (p, c) ∈ g.edges := by
  unfold Graph.parentsOf
  constructor
  · intro h
    obtain ⟨e, he, he1⟩ := List.mem_map.mp h
    have h1 := List.mem_filter.mp he
    have he2 : e.2 = c := of_decide_eq_true h1.2
    have hec : e = (p, c) := by
      rcases e with ⟨x, y⟩
      dsimp only at he1 he2
      rw [he1, he2]
    rw [← hec]
    exact h1.1
  · intro h
    exact List.mem_map.mpr ⟨(p, c), List.mem_filter.mpr ⟨h, by simp⟩, rfl⟩

/-- A rank increasing along edges is monotone along reachability. -/
theorem reach_rank_le {g : Graph} (rank : Nat → Nat)
    (hrank : ∀ e, e ∈ g.edges → rank e.1 < rank e.2)
    {a b : Nat} (h : Reach g a b) : rank a ≤ rank b := by
  induction h with
  | refl => exact Nat.le_refl _
  | step _ he ih => exact Nat.le_of_lt (Nat.lt_of_le_of_lt ih (hrank _ he))

/-- A one-element list has one member. -/
theorem length_one_unique {l : List Nat} (h : l.length = 1) {a b : Nat}
    (ha : a ∈ l) (hb : b ∈ l) : a = b := by
  rcases l with _ | ⟨x, rest⟩
  · cases ha
  · rcases rest with _ | ⟨y, rest2⟩
    · rw [List.mem_singleton.mp ha, List.mem_singleton.mp hb]
    · simp [List.length_cons] at h

/-- In a forest, two nodes reaching a common node are comparable. -/
theorem reach_comparable (g : Graph) (rank : Nat → Nat)
    (hrank : ∀ e, e ∈ g.edges → rank e.1 < rank e.2)
    (hpar : ∀ x, g.RootReach x → x ∉ g.roots → (g.parentsOf x).length = 1)
    (hroots : ∀ r, r ∈ g.roots → g.parentsOf r = []) :
    ∀ (k y a b : Nat), rank y ≤ k → g.RootReach a → g.RootReach b →
      Reach g a y → Reach g b y → Reach g a b ∨ Reach g b a := by
  intro k
  induction k with
  | zero =>
    intro y a b hk hra hrb hay hby
    rcases reach_last_edge hay with h1 | ⟨p1, hap1, hp1e⟩
    · subst h1
      exact Or.inr hby
    · exact absurd (Nat.lt_of_lt_of_le (hrank _ hp1e) hk) (Nat.not_lt_zero _)
  | succ k ih =>
    intro y a b hk hra hrb hay hby
    rcases reach_last_edge hay with h1 | ⟨p1, hap1, hp1e⟩
    · subst h1
      exact Or.inr hby
    · rcases reach_last_edge hby with h2 | ⟨p2, hbp2, hp2e⟩
      · subst h2
        exact Or.inl hay
      · have hry : g.RootReach y := by
          obtain ⟨r, hr, hre⟩ := hra
          exact ⟨r, hr, reach_trans hre hay⟩
        have hynr : y ∉ g.roots := by
          intro hyro
          have hpe : p1 ∈ g.parentsOf y := (mem_parentsOf g p1 y).mpr hp1e
          rw [hroots y hyro] at hpe
          exact absurd hpe (List.not_mem_nil p1)
        have hlen := hpar y hry hynr
        have hpp : p1 = p2 := length_one_unique hlen
          ((mem_parentsOf g p1 y).mpr hp1e) ((mem_parentsOf g p2 y).mpr hp2e)
        have hk1 : rank p1 ≤ k := by
          have h5 : rank p1 < rank y := hrank (p1, y) hp1e
          omega
        exact ih p1 a b hk1 hra hrb hap1 (hpp ▸ hbp2)

/-- A child never reaches back to its parent. -/
theorem no_cycle_back {g : Graph} (rank : Nat → Nat)
    (hrank : ∀ e, e ∈ g.edges → rank e.1 < rank e.2)
    {n c : Nat} (hc : (n, c) ∈ g.edges) (h : Reach g c n) : False := by
  have h1 : rank c ≤ rank n := reach_rank_le rank hrank h
  have h2 : rank n < rank c := hrank (n, c) hc
  omega

/-- In a forest, one sibling never reaches another. -/
theorem sibling_unreach (g : Graph) (rank : Nat → Nat)
    (hrank : ∀ e, e ∈ g.edges → rank e.1 < rank e.2)
    (hpar : ∀ x, g.RootReach x → x ∉ g.roots → (g.parentsOf x).length = 1)
    (hroots : ∀ r, r ∈ g.roots → g.parentsOf r = [])
    {n c c2 : Nat} (hn : g.RootReach n) (hc : (n, c) ∈ g.edges)
    (hc2 : (n, c2) ∈ g.edges) (hne : c ≠ c2) (h : Reach g c c2) : False := by
  rcases reach_last_edge h with h1 | ⟨p, hcp, hpe⟩
  · exact hne h1.symm
  · have hrc2 : g.RootReach c2 := by
      obtain ⟨r, hr, hre⟩ := hn
      exact ⟨r, hr, Reach.step hre hc2⟩
    have hc2nr : c2 ∉ g.roots := by
      intro hro
      have hpe2 : n ∈ g.parentsOf c2 := (mem_parentsOf g n c2).mpr hc2
      rw [hroots c2 hro] at hpe2
      exact absurd hpe2 (List.not_mem_nil n)
    have hlen := hpar c2 hrc2 hc2nr
    have hpn : p = n := length_one_unique hlen
      ((mem_parentsOf g p c2).mpr hpe) ((mem_parentsOf g n c2).mpr hc2)
    exact no_cycle_back rank hrank hc (hpn ▸ hcp)

/-- In a forest, the subtrees of two distinct children are disjoint. -/
theorem subtree_disjoint (g : Graph) (rank : Nat → Nat)
    (hrank : ∀ e, e ∈ g.edges → rank e.1 < rank e.2)
    (hpar : ∀ x, g.RootReach x → x ∉ g.roots → (g.parentsOf x).length = 1)
    (hroots : ∀ r, r ∈ g.roots → g.parentsOf r = [])
    {n c c2 : Nat} (hn : g.RootReach n) (hc : (n, c) ∈ g.edges)
    (hc2 : (n, c2) ∈ g.edges) (hne : c ≠ c2) :
    ∀ y, Reach g c y → Reach g c2 y → False := by
  intro y h1 h2
  have hrc : g.RootReach c := by
    obtain ⟨r, hr, hre⟩ := hn
    exact ⟨r, hr, Reach.step hre hc⟩
  have hrc2 : g.RootReach c2 := by
    obtain ⟨r, hr, hre⟩ := hn
    exact ⟨r, hr, Reach.step hre hc2⟩
  rcases reach_comparable g rank hrank hpar hroots (rank y) y c c2 (Nat.le_refl _)
    hrc hrc2 h1 h2 with h3 | h3
  · exact sibling_unreach g rank hrank hpar hroots hn hc hc2 hne h3
  · exact sibling_unreach g rank hrank hpar hroots hn hc2 hc (fun he => hne he.symm) h3

/-- In a forest, two distinct roots reach disjoint subtrees. -/
theorem root_disjoint (g : Graph) (rank : Nat → Nat)
    (hrank : ∀ e, e ∈ g.edges → rank e.1 < rank e.2)
    (hpar : ∀ x, g.RootReach x → x ∉ g.roots → (g.parentsOf x).length = 1)
    (hroots : ∀ r, r ∈ g.roots → g.parentsOf r = [])
    {r1 r2 : Nat} (h1 : r1 ∈ g.roots) (h2 : r2 ∈ g.roots) (hne : r1 ≠ r2) :
    ∀ y, Reach g r1 y → Reach g r2 y → False := by
  intro y hy1 hy2
  have hcomp := reach_comparable g rank hrank hpar hroots (rank y) y r1 r2
    (Nat.le_refl _) ⟨r1, h1, Reach.refl r1⟩ ⟨r2, h2, Reach.refl r2⟩ hy1 hy2
  have hnopath : ∀ a b : Nat, a ∈ g.roots → a ≠ b → Reach g b a → False := by
    intro a b ha hab hre
    rcases reach_last_edge hre with h3 | ⟨p, _, hpe⟩
    · exact hab h3
    · have hpa : p ∈ g.parentsOf a := (mem_parentsOf g p a).mpr hpe
      rw [hroots a ha] at hpa
      exact absurd hpa (List.not_mem_nil p)
  rcases hcomp with h3 | h3
  · exact hnopath r2 r1 h2 (fun he => hne he.symm) h3
  · exact hnopath r1 r2 h1 hne h3

/-- In a forest, a reachable node's child list has no duplicates. -/
theorem childrenOf_nodup (g : Graph)
    (hpar : ∀ x, g.RootReach x → x ∉ g.roots → (g.parentsOf x).length = 1)
    (hroots : ∀ r, r ∈ g.roots → g.parentsOf r = [])
    (n : Nat) (hn : g.RootReach n) : (g.childrenOf n).Nodup := by
  rw [List.nodup_iff_count_le_one]
  intro c
  by_cases hc : c ∈ g.childrenOf n
  · have hce : (n, c) ∈ g.edges := (mem_childrenOf g n c).mp hc
    have hrc : g.RootReach c := by
      obtain ⟨r, hr, hre⟩ := hn
      exact ⟨r, hr, Reach.step hre hce⟩
    have hcnr : c ∉ g.roots := by
      intro hro
      have hp : n ∈ g.parentsOf c := (mem_parentsOf g n c).mpr hce
      rw [hroots c hro] at hp
      exact absurd hp (List.not_mem_nil n)
    have hlen := hpar c hrc hcnr
    have hcount : List.count c (g.childrenOf n) = List.count n (g.parentsOf c) := by
      unfold Graph.childrenOf Graph.parentsOf
      simp only [List.count, List.countP_map, List.countP_filter, Function.comp]
      apply List.countP_congr
      intro e _
      by_cases h1 : e.1 = n <;> by_cases h2 : e.2 = c <;> simp [h1, h2]
    rw [hcount]
    calc List.count n (g.parentsOf c) ≤ (g.parentsOf c).length :=
          List.count_le_length _ _
      _ = 1 := hlen
  · rw [List.count_eq_zero_of_not_mem hc]
    omega

/-- The unvisited count in terms of the filtered universe. -/
theorem unvisCount_eq (g : Graph) (vis : List Nat) :
    unvisCount g vis = (g.univ.filter (fun x => decide (x ∉ vis))).length := rfl

/-- The children-before-parent property is closed under appending. -/
theorem cbp_append {g : Graph} {A B : List Nat}
    (hA : ChildrenClosed g A) (hB : ChildrenClosed g B) :
    ChildrenClosed g (A ++ B) := by
  intro P x Q hsplit c hc
  rcases List.append_eq_append_iff.mp hsplit.symm with ⟨t, ht1, ht2⟩ | ⟨t, ht1, ht2⟩
  · rcases t with _ | ⟨z, t2⟩
    · rw [List.append_nil] at ht1
      have hx : x :: Q = B := by rw [ht2]; rfl
      have := hB [] x Q hx.symm c hc
      exact absurd this (List.not_mem_nil c)
    · have hz : x :: Q = z :: (t2 ++ B) := by rw [ht2]; rfl
      have hxz : x = z := (List.cons.injEq _ _ _ _ ▸ hz).1
      have hQ : Q = t2 ++ B := (List.cons.injEq _ _ _ _ ▸ hz).2
      have hA2 : A = P ++ x :: t2 := by rw [ht1, hxz]
      exact hA P x t2 hA2 c hc
  · have hmem := hB t x Q ht2 c hc
    rw [ht1]
    exact List.mem_append_right A hmem

/-- Appending a node whose children all occur in the list preserves
the children-before-parent property. -/
theorem cbp_snoc {g : Graph} {L : List Nat} {x : Nat}
    (hL : ChildrenClosed g L) (hx : ∀ c, c ∈ g.childrenOf x → c ∈ L) :
    ChildrenClosed g (L ++ [x]) := by
  intro P y Q hsplit c hc
  rcases List.append_eq_append_iff.mp hsplit.symm with ⟨t, ht1, ht2⟩ | ⟨t, ht1, ht2⟩
  · rcases t with _ | ⟨z, t2⟩
    · rw [List.append_nil] at ht1
      have hyQ : y :: Q = [x] := by rw [ht2]; rfl
      have hyx : y = x := (List.cons.injEq _ _ _ _ ▸ hyQ).1
      rw [← ht1]
      exact hx c (hyx ▸ hc)
    · have hz : y :: Q = z :: (t2 ++ [x]) := by rw [ht2]; rfl
      have hyz : y = z := (List.cons.injEq _ _ _ _ ▸ hz).1
      have hL2 : L = P ++ y :: t2 := by rw [ht1, hyz]
      exact hL P y t2 hL2 c hc
  · rcases t with _ | ⟨z, t2⟩
    · rw [List.append_nil] at ht1
      have hyQ : y :: Q = [x] := ht2.symm
      have hyx : y = x := (List.cons.injEq _ _ _ _ ▸ hyQ).1
      rw [ht1]
      exact hx c (hyx ▸ hc)
    · have hz : [x] = z :: (t2 ++ y :: Q) := by rw [ht2]; rfl
      have h2 : ([] : List Nat) = t2 ++ y :: Q := (List.cons.injEq _ _ _ _ ▸ hz).2
      exact absurd h2.symm (List.append_ne_nil_of_right_ne_nil t2 (by simp))

/-- The children loop of a forest traversal: entering a list of
pairwise-distinct siblings whose subtrees avoid the visited set
appends exactly their subtree preorders and postorders. -/
theorem forest_dchar_loop (g : Graph) (rank : Nat → Nat)
    (hrank : ∀ e, e ∈ g.edges → rank e.1 < rank e.2)
    (hpar : ∀ x, g.RootReach x → x ∉ g.roots → (g.parentsOf x).length = 1)
    (hroots : ∀ r, r ∈ g.roots → g.parentsOf r = [])
    (K : Nat)
    (IH : ∀ (m : Nat) (s : DfsState), unvisCount g s.vis ≤ K →
      g.RootReach m → m ∈ g.univ → (∀ y, Reach g m y → y ∉ s.vis) →
      ∃ w pr po,
        DfsBig g [Ev.enter m] s ⟨w ++ s.vis, s.pre ++ pr, s.post ++ po⟩ ∧
        (∀ x, x ∈ w ↔ Reach g m x) ∧ (∀ x, x ∈ pr ↔ Reach g m x) ∧
        (∀ x, x ∈ po ↔ Reach g m x) ∧ po.Nodup ∧ ChildrenClosed g po)
    (n : Nat) (hn : g.RootReach n) :
    ∀ (cs : List Nat), (∀ c, c ∈ cs → (n, c) ∈ g.edges) → cs.Nodup →
      ∀ (s : DfsState), unvisCount g s.vis ≤ K →
      (∀ c, c ∈ cs → ∀ y, Reach g c y → y ∉ s.vis) →
      ∃ w pr po,
        DfsBig g (cs.map Ev.enter) s ⟨w ++ s.vis, s.pre ++ pr, s.post ++ po⟩ ∧
        (∀ x, x ∈ w ↔ ∃ c, c ∈ cs ∧ Reach g c x) ∧
        (∀ x, x ∈ pr ↔ ∃ c, c ∈ cs ∧ Reach g c x) ∧
        (∀ x, x ∈ po ↔ ∃ c, c ∈ cs ∧ Reach g c x) ∧
        po.Nodup ∧ ChildrenClosed g po := by
  intro cs
  induction cs with
  | nil =>
    intro _ _ s _ _
    refine ⟨[], [], [], ?_, ?_, ?_, ?_, List.nodup_nil, ?_⟩
    · have hs : (⟨[] ++ s.vis, s.pre ++ [], s.post ++ []⟩ : DfsState) = s := by
        simp
      rw [hs]
      exact DfsBig.nil s
    · intro x; simp
    · intro x; simp
    · intro x; simp
    · intro P x Q hsplit
      exact absurd hsplit.symm (by simp)
  | cons c cs2 ihl =>
    intro hedges hnd s hK hdisj
    have hce : (n, c) ∈ g.edges := hedges c (List.mem_cons_self c cs2)
    have hrc : g.RootReach c := by
      obtain ⟨r, hr, hre⟩ := hn
      exact ⟨r, hr, Reach.step hre hce⟩
    have hcu : c ∈ g.univ := childrenOf_mem_univ g n c ((mem_childrenOf g n c).mpr hce)
    have hnd2 := List.nodup_cons.mp hnd
    obtain ⟨w1, pr1, po1, hbig1, hw1, hpr1, hpo1, hnd1, hcbp1⟩ :=
      IH c s hK hrc hcu (hdisj c (List.mem_cons_self c cs2))
    have hK2 : unvisCount g (w1 ++ s.vis) ≤ K := by
      refine Nat.le_trans ?_ hK
      rw [unvisCount_eq, unvisCount_eq]
      exact measure_mono g (fun x hx => List.mem_append_right w1 hx)
    have hdisj2 : ∀ c2, c2 ∈ cs2 → ∀ y, Reach g c2 y → y ∉ w1 ++ s.vis := by
      intro c2 hc2 y hy hmem
      rcases List.mem_append.mp hmem with h1 | h1
      · exact subtree_disjoint g rank hrank hpar hroots hn hce
          (hedges c2 (List.mem_cons_of_mem c hc2))
          (fun he => hnd2.1 (he ▸ hc2)) y ((hw1 y).mp h1) hy
      · exact hdisj c2 (List.mem_cons_of_mem c hc2) y hy h1
    obtain ⟨w2, pr2, po2, hbig2, hw2, hpr2, hpo2, hndp2, hcbp2⟩ :=
      ihl (fun c2 hc2 => hedges c2 (List.mem_cons_of_mem c hc2)) hnd2.2
        ⟨w1 ++ s.vis, s.pre ++ pr1, s.post ++ po1⟩ hK2 hdisj2
    refine ⟨w2 ++ w1, pr1 ++ pr2, po1 ++ po2, ?_, ?_, ?_, ?_, ?_, cbp_append hcbp1 hcbp2⟩
    · have hcomp := dfsbig_append hbig1 hbig2
      have hst : (⟨w2 ++ (w1 ++ s.vis), (s.pre ++ pr1) ++ pr2, (s.post ++ po1) ++ po2⟩ :
          DfsState) = ⟨(w2 ++ w1) ++ s.vis, s.pre ++ (pr1 ++ pr2), s.post ++ (po1 ++ po2)⟩ := by
        simp [List.append_assoc]
      rw [hst] at hcomp
      exact hcomp
    · intro x
      rw [List.mem_append]
      constructor
      · intro h
        rcases h with h | h
        · obtain ⟨c2, hc2, hre⟩ := (hw2 x).mp h
          exact ⟨c2, List.mem_cons_of_mem c hc2, hre⟩
        · exact ⟨c, List.mem_cons_self c cs2, (hw1 x).mp h⟩
      · intro ⟨c2, hc2, hre⟩
        rcases List.mem_cons.mp hc2 with h1 | h1
        · exact Or.inr ((hw1 x).mpr (h1 ▸ hre))
        · exact Or.inl ((hw2 x).mpr ⟨c2, h1, hre⟩)
    · intro x
      rw [List.mem_append]
      constructor
      · intro h
        rcases h with h | h
        · exact ⟨c, List.mem_cons_self c cs2, (hpr1 x).mp h⟩
        · obtain ⟨c2, hc2, hre⟩ := (hpr2 x).mp h
          exact ⟨c2, List.mem_cons_of_mem c hc2, hre⟩
      · intro ⟨c2, hc2, hre⟩
        rcases List.mem_cons.mp hc2 with h1 | h1
        · exact Or.inl ((hpr1 x).mpr (h1 ▸ hre))
        · exact Or.inr ((hpr2 x).mpr ⟨c2, h1, hre⟩)
    · intro x
      rw [List.mem_append]
      constructor
      · intro h
        rcases h with h | h
        · exact ⟨c, List.mem_cons_self c cs2, (hpo1 x).mp h⟩
        · obtain ⟨c2, hc2, hre⟩ := (hpo2 x).mp h
          exact ⟨c2, List.mem_cons_of_mem c hc2, hre⟩
      · intro ⟨c2, hc2, hre⟩
        rcases List.mem_cons.mp hc2 with h1 | h1
        · exact Or.inl ((hpo1 x).mpr (h1 ▸ hre))
        · exact Or.inr ((hpo2 x).mpr ⟨c2, h1, hre⟩)
    · refine List.Nodup.append hnd1 hndp2 ?_
      intro x hx1 hx2
      obtain ⟨c2, hc2, hre2⟩ := (hpo2 x).mp hx2
      exact subtree_disjoint g rank hrank hpar hroots hn hce
        (hedges c2 (List.mem_cons_of_mem c hc2))
        (fun he => hnd2.1 (he ▸ hc2)) x ((hpo1 x).mp hx1) hre2

/-- Entering one fresh node of a forest appends exactly its subtree
preorder and postorder: the preorder starts with the node, the
postorder ends with it, covers exactly the reachable set without
duplicates, and lists children before parents. -/
theorem forest_dchar (g : Graph) (rank : Nat → Nat)
    (hrank : ∀ e, e ∈ g.edges → rank e.1 < rank e.2)
    (hpar : ∀ x, g.RootReach x → x ∉ g.roots → (g.parentsOf x).length = 1)
    (hroots : ∀ r, r ∈ g.roots → g.parentsOf r = []) :
    ∀ (K : Nat) (m : Nat) (s : DfsState), unvisCount g s.vis ≤ K →
      g.RootReach m → m ∈ g.univ → (∀ y, Reach g m y → y ∉ s.vis) →
      ∃ w pr po,
        DfsBig g [Ev.enter m] s ⟨w ++ s.vis, s.pre ++ pr, s.post ++ po⟩ ∧
        (∀ x, x ∈ w ↔ Reach g m x) ∧ (∀ x, x ∈ pr ↔ Reach g m x) ∧
        (∀ x, x ∈ po ↔ Reach g m x) ∧ po.Nodup ∧ ChildrenClosed g po := by
  intro K
  induction K with
  | zero =>
    intro m s hK hm hmu hdisj
    have hmem : m ∈ g.univ.filter (fun x => decide (x ∉ s.vis)) :=
      List.mem_filter.mpr ⟨hmu, decide_eq_true (hdisj m (Reach.refl m))⟩
    rw [unvisCount_eq] at hK
    rw [List.length_eq_zero.mp (Nat.le_zero.mp hK)] at hmem
    exact absurd hmem (List.not_mem_nil m)
  | succ K ih =>
    intro m s hK hm hmu hdisj
    have hmvis : m ∉ s.vis := hdisj m (Reach.refl m)
    have hK1 : unvisCount g (m :: s.vis) ≤ K := by
      have hlt : unvisCount g (m :: s.vis) < unvisCount g s.vis := by
        rw [unvisCount_eq, unvisCount_eq]
        exact measure_strict g (fun x hx => List.mem_cons_of_mem m hx) m hmu hmvis
          (List.mem_cons_self m s.vis)
      omega
    have hdisj1 : ∀ c, c ∈ g.childrenOf m → ∀ y, Reach g c y → y ∉ m :: s.vis := by
      intro c hc y hy hmem
      have hce : (m, c) ∈ g.edges := (mem_childrenOf g m c).mp hc
      rcases List.mem_cons.mp hmem with h1 | h1
      · exact no_cycle_back rank hrank hce (h1 ▸ hy)
      · exact hdisj y (reach_trans (Reach.step (Reach.refl m) hce) hy) h1
    obtain ⟨w1, pr1, po1, hbigL, hw1, hpr1, hpo1, hnd1, hcbp1⟩ :=
      forest_dchar_loop g rank hrank hpar hroots K ih m hm (g.childrenOf m)
        (fun c hc => (mem_childrenOf g m c).mp hc)
        (childrenOf_nodup g hpar hroots m hm)
        ⟨m :: s.vis, s.pre ++ [m], s.post⟩ hK1 hdisj1
    have hexit : DfsBig g [Ev.exitev m]
        (⟨w1 ++ (m :: s.vis), (s.pre ++ [m]) ++ pr1, s.post ++ po1⟩ : DfsState)
        ⟨w1 ++ (m :: s.vis), (s.pre ++ [m]) ++ pr1, (s.post ++ po1) ++ [m]⟩ :=
      DfsBig.exit_ev (DfsBig.nil _)
    have hbody := dfsbig_append hbigL hexit
    have hwhole : DfsBig g [Ev.enter m] s
        ⟨w1 ++ (m :: s.vis), (s.pre ++ [m]) ++ pr1, (s.post ++ po1) ++ [m]⟩ := by
      refine DfsBig.enter_new hmvis ?_
      have hstack : (g.childrenOf m).map Ev.enter ++ Ev.exitev m :: ([] : List Ev) =
          (g.childrenOf m).map Ev.enter ++ [Ev.exitev m] := rfl
      exact hstack ▸ hbody
    refine ⟨w1 ++ [m], m :: pr1, po1 ++ [m], ?_, ?_, ?_, ?_, ?_, ?_⟩
    · have hst : (⟨w1 ++ (m :: s.vis), (s.pre ++ [m]) ++ pr1, (s.post ++ po1) ++ [m]⟩ :
          DfsState) = ⟨(w1 ++ [m]) ++ s.vis, s.pre ++ (m :: pr1), s.post ++ (po1 ++ [m])⟩ := by
        simp [List.append_assoc]
      rw [← hst]
      exact hwhole
    · intro x
      rw [List.mem_append, List.mem_singleton]
      constructor
      · intro h
        rcases h with h | h
        · obtain ⟨c, hc, hre⟩ := (hw1 x).mp h
          exact reach_trans (Reach.step (Reach.refl m) ((mem_childrenOf g m c).mp hc)) hre
        · rw [h]
          exact Reach.refl m
      · intro h
        rcases reach_first_edge h with h1 | ⟨c, hce, hre⟩
        · exact Or.inr h1
        · exact Or.inl ((hw1 x).mpr ⟨c, (mem_childrenOf g m c).mpr hce, hre⟩)
    · intro x
      rw [List.mem_cons]
      constructor
      · intro h
        rcases h with h | h
        · rw [h]
          exact Reach.refl m
        · obtain ⟨c, hc, hre⟩ := (hpr1 x).mp h
          exact reach_trans (Reach.step (Reach.refl m) ((mem_childrenOf g m c).mp hc)) hre
      · intro h
        rcases reach_first_edge h with h1 | ⟨c, hce, hre⟩
        · exact Or.inl h1
        · exact Or.inr ((hpr1 x).mpr ⟨c, (mem_childrenOf g m c).mpr hce, hre⟩)
    · intro x
      rw [List.mem_append, List.mem_singleton]
      constructor
      · intro h
        rcases h with h | h
        · obtain ⟨c, hc, hre⟩ := (hpo1 x).mp h
          exact reach_trans (Reach.step (Reach.refl m) ((mem_childrenOf g m c).mp hc)) hre
        · rw [h]
          exact Reach.refl m
      · intro h
        rcases reach_first_edge h with h1 | ⟨c, hce, hre⟩
        · exact Or.inr h1
        · exact Or.inl ((hpo1 x).mpr ⟨c, (mem_childrenOf g m c).mpr hce, hre⟩)
    · refine List.Nodup.append hnd1 (List.nodup_singleton m) ?_
      intro x hx1 hx2
      rw [List.mem_singleton.mp hx2] at hx1
      obtain ⟨c, hc, hre⟩ := (hpo1 m).mp hx1
      exact no_cycle_back rank hrank ((mem_childrenOf g m c).mp hc) hre
    · refine cbp_snoc hcbp1 ?_
      intro c hc
      exact (hpo1 c).mpr ⟨c, hc, Reach.refl c⟩

/-- The root loop of a forest traversal: processing a list of roots
appends exactly the traversals of the not-yet-visited subtrees. -/
theorem forest_roots_loop (g : Graph) (rank : Nat → Nat)
    (hrank : ∀ e, e ∈ g.edges → rank e.1 < rank e.2)
    (hpar : ∀ x, g.RootReach x → x ∉ g.roots → (g.parentsOf x).length = 1)
    (hroots : ∀ r, r ∈ g.roots → g.parentsOf r = []) :
    ∀ (rs : List Nat), (∀ r, r ∈ rs → r ∈ g.roots) →
      ∀ (s : DfsState),
      (∀ y, y ∈ s.vis → ∃ r0, r0 ∈ g.roots ∧ Reach g r0 y ∧ r0 ∈ s.vis) →
      (∀ r0, r0 ∈ g.roots → r0 ∈ s.vis → ∀ y, Reach g r0 y → y ∈ s.vis) →
      ∃ w pr po,
        DfsBig g (rs.map Ev.enter) s ⟨w ++ s.vis, s.pre ++ pr, s.post ++ po⟩ ∧
        (∀ x, x ∈ w ↔ (∃ r, r ∈ rs ∧ Reach g r x) ∧ x ∉ s.vis) ∧
        (∀ x, x ∈ po ↔ (∃ r, r ∈ rs ∧ Reach g r x) ∧ x ∉ s.vis) ∧
        po.Nodup ∧ ChildrenClosed g po := by
  intro rs
  induction rs with
  | nil =>
    intro _ s _ _
    refine ⟨[], [], [], ?_, ?_, ?_, List.nodup_nil, ?_⟩
    · have hs : (⟨[] ++ s.vis, s.pre ++ [], s.post ++ []⟩ : DfsState) = s := by simp
      rw [hs]
      exact DfsBig.nil s
    · intro x; simp
    · intro x; simp
    · intro P x Q hsplit
      exact absurd hsplit.symm (by simp)
  | cons r rs2 ihl =>
    intro hrs s hvis1 hvis2
    have hrroot : r ∈ g.roots := hrs r (List.mem_cons_self r rs2)
    by_cases hrv : r ∈ s.vis
    · obtain ⟨w, pr, po, hbig, hw, hpo, hnd, hcbp⟩ :=
        ihl (fun r2 h2 => hrs r2 (List.mem_cons_of_mem r h2)) s hvis1 hvis2
      have hsub : ∀ y, Reach g r y → y ∈ s.vis := hvis2 r hrroot hrv
      refine ⟨w, pr, po, DfsBig.enter_vis hrv hbig, ?_, ?_, hnd, hcbp⟩
      · intro x
        rw [hw x]
        constructor
        · intro ⟨⟨r2, h2, hre⟩, hxv⟩
          exact ⟨⟨r2, List.mem_cons_of_mem r h2, hre⟩, hxv⟩
        · intro ⟨⟨r2, h2, hre⟩, hxv⟩
          rcases List.mem_cons.mp h2 with h3 | h3
          · exact absurd (hsub x (h3 ▸ hre)) hxv
          · exact ⟨⟨r2, h3, hre⟩, hxv⟩
      · intro x
        rw [hpo x]
        constructor
        · intro ⟨⟨r2, h2, hre⟩, hxv⟩
          exact ⟨⟨r2, List.mem_cons_of_mem r h2, hre⟩, hxv⟩
        · intro ⟨⟨r2, h2, hre⟩, hxv⟩
          rcases List.mem_cons.mp h2 with h3 | h3
          · exact absurd (hsub x (h3 ▸ hre)) hxv
          · exact ⟨⟨r2, h3, hre⟩, hxv⟩
    · have hdisj : ∀ y, Reach g r y → y ∉ s.vis := by
        intro y hy hyv
        obtain ⟨r0, hr0, hre0, hr0v⟩ := hvis1 y hyv
        have hne : r ≠ r0 := fun he => hrv (he ▸ hr0v)
        exact root_disjoint g rank hrank hpar hroots hrroot hr0 hne y hy hre0
      obtain ⟨w1, pr1, po1, hbig1, hw1, hpr1, hpo1, hnd1, hcbp1⟩ :=
        forest_dchar g rank hrank hpar hroots (unvisCount g s.vis) r s (Nat.le_refl _)
          ⟨r, hrroot, Reach.refl r⟩ (roots_mem_univ g r hrroot) hdisj
      have hvis1b : ∀ y, y ∈ w1 ++ s.vis →
          ∃ r0, r0 ∈ g.roots ∧ Reach g r0 y ∧ r0 ∈ w1 ++ s.vis := by
        intro y hy
        rcases List.mem_append.mp hy with h1 | h1
        · exact ⟨r, hrroot, (hw1 y).mp h1,
            List.mem_append_left _ ((hw1 r).mpr (Reach.refl r))⟩
        · obtain ⟨r0, h2, h3, h4⟩ := hvis1 y h1
          exact ⟨r0, h2, h3, List.mem_append_right _ h4⟩
      have hvis2b : ∀ r0, r0 ∈ g.roots → r0 ∈ w1 ++ s.vis →
          ∀ y, Reach g r0 y → y ∈ w1 ++ s.vis := by
        intro r0 hr0 hr0v y hy
        rcases List.mem_append.mp hr0v with h1 | h1
        · have hr0r : Reach g r r0 := (hw1 r0).mp h1
          have hr0eq : r0 = r := by
            by_cases he : r0 = r
            · exact he
            · exfalso
              rcases reach_last_edge hr0r with h2 | ⟨p, hp, hpe⟩
              · exact he h2
              · have hpmem : p ∈ g.parentsOf r0 := (mem_parentsOf g p r0).mpr hpe
                rw [hroots r0 hr0] at hpmem
                exact absurd hpmem (List.not_mem_nil p)
          exact List.mem_append_left _ ((hw1 y).mpr (hr0eq ▸ hy))
        · exact List.mem_append_right _ (hvis2 r0 hr0 h1 y hy)
      obtain ⟨w2, pr2, po2, hbig2, hw2, hpo2, hnd2, hcbp2⟩ :=
        ihl (fun r2 h2 => hrs r2 (List.mem_cons_of_mem r h2))
          ⟨w1 ++ s.vis, s.pre ++ pr1, s.post ++ po1⟩ hvis1b hvis2b
      refine ⟨w2 ++ w1, pr1 ++ pr2, po1 ++ po2, ?_, ?_, ?_, ?_, cbp_append hcbp1 hcbp2⟩
      · have hcomp := dfsbig_append hbig1 hbig2
        have hst : (⟨w2 ++ (w1 ++ s.vis), (s.pre ++ pr1) ++ pr2, (s.post ++ po1) ++ po2⟩ :
            DfsState) =
            ⟨(w2 ++ w1) ++ s.vis, s.pre ++ (pr1 ++ pr2), s.post ++ (po1 ++ po2)⟩ := by
          simp [List.append_assoc]
        rw [hst] at hcomp
        exact hcomp
      · intro x
        rw [List.mem_append]
        constructor
        · intro h
          rcases h with h | h
          · obtain ⟨⟨r2, h2, hre⟩, hxv⟩ := (hw2 x).mp h
            exact ⟨⟨r2, List.mem_cons_of_mem r h2, hre⟩,
              fun hxs => hxv (List.mem_append_right _ hxs)⟩
          · exact ⟨⟨r, List.mem_cons_self r rs2, (hw1 x).mp h⟩, hdisj x ((hw1 x).mp h)⟩
        · intro ⟨⟨r2, h2, hre⟩, hxv⟩
          by_cases hxw1 : x ∈ w1
          · exact Or.inr hxw1
          · rcases List.mem_cons.mp h2 with h3 | h3
            · exact absurd ((hw1 x).mpr (h3 ▸ hre)) hxw1
            · refine Or.inl ((hw2 x).mpr ⟨⟨r2, h3, hre⟩, ?_⟩)
              intro hmem
              rcases List.mem_append.mp hmem with h4 | h4
              · exact hxw1 h4
              · exact hxv h4
      · intro x
        rw [List.mem_append]
        constructor
        · intro h
          rcases h with h | h
          · exact ⟨⟨r, List.mem_cons_self r rs2, (hpo1 x).mp h⟩,
              hdisj x ((hpo1 x).mp h)⟩
          · obtain ⟨⟨r2, h2, hre⟩, hxv⟩ := (hpo2 x).mp h
            exact ⟨⟨r2, List.mem_cons_of_mem r h2, hre⟩,
              fun hxs => hxv (List.mem_append_right _ hxs)⟩
        · intro ⟨⟨r2, h2, hre⟩, hxv⟩
          by_cases hxw1 : x ∈ w1
          · exact Or.inl ((hpo1 x).mpr ((hw1 x).mp hxw1))
          · rcases List.mem_cons.mp h2 with h3 | h3
            · exact absurd ((hw1 x).mpr (h3 ▸ hre)) hxw1
            · refine Or.inr ((hpo2 x).mpr ⟨⟨r2, h3, hre⟩, ?_⟩)
              intro hmem
              rcases List.mem_append.mp hmem with h4 | h4
              · exact hxw1 h4
              · exact hxv h4
      · refine List.Nodup.append hnd1 hnd2 ?_
        intro x hx1 hx2
        have hxw1 : x ∈ w1 := (hw1 x).mpr ((hpo1 x).mp hx1)
        have := ((hpo2 x).mp hx2).2
        exact this (List.mem_append_left _ hxw1)

/-- On a forest, the postorder traversal lists exactly the reachable
nodes, without duplicates, children before parents. -/
theorem forest_traversePost (g : Graph) (rank : Nat → Nat)
    (hrank : ∀ e, e ∈ g.edges → rank e.1 < rank e.2)
    (hpar : ∀ x, g.RootReach x → x ∉ g.roots → (g.parentsOf x).length = 1)
    (hroots : ∀ r, r ∈ g.roots → g.parentsOf r = []) :
    (∀ x, x ∈ g.traversePost ↔ g.RootReach x) ∧
    g.traversePost.Nodup ∧ ChildrenClosed g g.traversePost := by
  obtain ⟨w, pr, po, hbig, hw, hpo, hnd, hcbp⟩ :=
    forest_roots_loop g rank hrank hpar hroots g.roots (fun r hr => hr)
      ⟨[], [], []⟩ (fun y hy => absurd hy (List.not_mem_nil y))
      (fun r0 _ h => absurd h (List.not_mem_nil r0))
  have hbig2 := traverseFrom_big g g.roots (fun n hn => roots_mem_univ g n hn)
  have heq := dfsbig_det hbig2 hbig
  have hpost : g.traversePost = po := by
    unfold Graph.traversePost
    rw [heq]
    rfl
  rw [hpost]
  refine ⟨?_, hnd, hcbp⟩
  intro x
  rw [hpo x]
  constructor
  · intro ⟨⟨r, hr, hre⟩, _⟩
    exact ⟨r, hr, hre⟩
  · intro ⟨r, hr, hre⟩
    exact ⟨⟨r, hr, hre⟩, List.not_mem_nil x⟩

/-- The preorder traversal lists exactly the reachable nodes. -/
theorem mem_traversePre (g : Graph) :
    ∀ x, x ∈ g.traversePre ↔ g.RootReach x := by
  have hbig := traverseFrom_big g g.roots (fun n hn => roots_mem_univ g n hn)
  obtain ⟨d, hd, hmem, _⟩ := dfsbig_pre hbig
  intro x
  have hpre : g.traversePre = d := hd
  rw [hpre, hmem x]
  constructor
  · intro ⟨h1, _⟩
    exact (mem_traverseFrom_vis g g.roots (fun n hn => roots_mem_univ g n hn) x).mp h1
  · intro h
    exact ⟨(mem_traverseFrom_vis g g.roots (fun n hn => roots_mem_univ g n hn) x).mpr h,
      List.not_mem_nil x⟩

/-- A zero-seeded addend collapses. -/
theorem valAdd_zero_left (x w : Val) :
    valAdd (valAdd (Val.num 0) x) w = valAdd x w := by
  cases x <;> cases w <;> simp [valAdd]

/-- Folding from a missing value stays missing. -/
theorem foldl_valAdd_nan (l : List Val) : l.foldl valAdd Val.nan = Val.nan := by
  induction l with
  | nil => rfl
  | cons x rest ih =>
    rw [List.foldl_cons]
    show rest.foldl valAdd Val.nan = Val.nan
    exact ih

/-- A sum over a list containing a missing value is missing. -/
theorem sumVals_mem_nan (l : List Val) (h : Val.nan ∈ l) : sumVals l = Val.nan := by
  obtain ⟨s, t, hst⟩ := List.append_of_mem h
  rw [hst, sumVals_append]
  have h2 : sumVals (Val.nan :: t) = Val.nan := by
    show (t.foldl valAdd (valAdd (Val.num 0) Val.nan)) = Val.nan
    exact foldl_valAdd_nan t
  rw [h2]
  cases sumVals s <;> rfl

/-- The sum of a single numeric-or-missing value is itself. -/
theorem sumVals_singleton (v : Val) (hv : v = Val.nan ∨ ∃ k, v = Val.num k) :
    sumVals [v] = v := by
  rcases hv with hv | ⟨k, hv⟩ <;> subst hv <;> simp [sumVals, valAdd]

/-- A sum over flattened blocks is the sum of the block sums. -/
theorem sumVals_flatten (Ls : List (List Nat)) (inp : Nat → Val) :
    sumVals ((Ls.flatten).map inp) =
      sumVals (Ls.map (fun L => sumVals (L.map inp))) := by
  induction Ls with
  | nil => rfl
  | cons L Ls ih =>
    rw [List.flatten_cons, List.map_append, sumVals_append, ih, List.map_cons]
    show _ = (Ls.map (fun L2 => sumVals (L2.map inp))).foldl valAdd
      (valAdd (Val.num 0) (sumVals (L.map inp)))
    rw [foldl_valAdd_sum _ _ (by
      rcases sumVals_not_str (L.map inp) with h | ⟨k, h⟩ <;> rw [h] <;> simp [valAdd]),
      valAdd_zero_left]

/-- A duplicate-free list whose members are all one node is that
singleton. -/
theorem list_eq_singleton {l : List Nat} {m : Nat} (hnd : l.Nodup)
    (h : ∀ x, x ∈ l ↔ x = m) : l = [m] := by
  rcases l with _ | ⟨a, rest⟩
  · exact absurd ((h m).mpr rfl) (List.not_mem_nil m)
  · have ha : a = m := (h a).mp (List.mem_cons_self a rest)
    subst ha
    rcases rest with _ | ⟨b, rest2⟩
    · rfl
    · have hb : b = a := (h b).mp (List.mem_cons_of_mem a (List.mem_cons_self b rest2))
      subst hb
      have := (List.nodup_cons.mp hnd).1
      exact absurd (List.mem_cons_self b rest2) this

/-- Reachable nodes lie in the universe. -/
theorem rootreach_mem_univ (g : Graph) (x : Nat) (h : g.RootReach x) : x ∈ g.univ := by
  obtain ⟨r, hr, hre⟩ := h
  rcases reach_last_edge hre with h1 | ⟨p, _, hpe⟩
  · rw [h1]
    exact roots_mem_univ g r hr
  · unfold Graph.univ
    rw [mem_dedupG]
    exact List.mem_append_left _ (List.mem_append_right _
      (List.mem_map.mpr ⟨(p, x), hpe, rfl⟩))

/-- With duplicate-free keys, searching a pair's key finds the pair. -/
theorem find?_key_nodup {α : Type} (L : List (String × α))
    (hnd : (L.map (fun q => q.1)).Nodup) (p : String × α) (hp : p ∈ L) :
    L.find? (fun q => decide (q.1 = p.1)) = some p := by
  induction L with
  | nil => cases hp
  | cons q rest ih =>
    have hnd2 := List.nodup_cons.mp (by rw [List.map_cons] at hnd; exact hnd)
    rcases List.mem_cons.mp hp with h1 | h1
    · rw [List.find?_cons_of_pos _ (by rw [h1]; simp)]
      rw [h1]
    · by_cases hq : q.1 = p.1
      · exfalso
        have : p.1 ∈ rest.map (fun q2 => q2.1) := List.mem_map.mpr ⟨p, h1, rfl⟩
        rw [← hq] at this
        exact hnd2.1 this
      · rw [List.find?_cons_of_neg _ (by simp [hq])]
        exact ih hnd2.2 h1

/-- Zipping keeps the first components duplicate-free. -/
theorem nodup_fst_zip (outs cols : List String) (hnd : outs.Nodup) :
    ((outs.zip cols).map (fun p => p.1)).Nodup := by
  induction outs generalizing cols with
  | nil => exact List.nodup_nil
  | cons o outs2 ih =>
    rcases cols with _ | ⟨c, cols2⟩
    · exact List.nodup_nil
    · have hnd2 := List.nodup_cons.mp hnd
      rw [List.zip_cons_cons, List.map_cons]
      refine List.nodup_cons.mpr ⟨?_, ih cols2 hnd2.2⟩
      intro hmem
      obtain ⟨p, hp, hp1⟩ := List.mem_map.mp hmem
      have := List.of_mem_zip hp
      rw [hp1] at this
      exact hnd2.1 this.1

/-- A missing row reads as a missing value. -/
theorem cellN_no_row (df : DataFrame) (x : Nat) (c : String) (h : x ∉ df.keys) :
    df.cellN x c = Val.nan := by
  unfold DataFrame.cellN DataFrame.cellGet
  have hf : df.rows.find? (fun r => decide (r.node = x)) = none := by
    apply List.find?_eq_none.mpr
    intro r hr
    simp only [decide_eq_true_eq]
    intro hrx
    exact h (hrx ▸ List.mem_map_of_mem (fun r2 => r2.node) hr)
  rw [hf]
  rfl

/-- Copying a column keeps a row's node key. -/
theorem copyColFun_node (s d : String) (r : Row) :
    ({ r with cells := setCell r.cells d (cellOrNan r s) } : Row).node = r.node := rfl

/-- Writing a row's cells keeps its node key. -/
theorem setAtFun_node (n : Nat) (u : List (String × Val)) (r : Row) :
    (if r.node = n
      then { r with cells := u.foldl (fun cs p => setCell cs p.1 p.2) r.cells }
      else r).node = r.node := by
  split <;> rfl

/-- Reading after a column copy. -/
theorem cellN_copyCol (df : DataFrame) (s d : String) (x : Nat) (c : String) :
    (df.copyCol s d).cellN x c = if c = d then df.cellN x s else df.cellN x c := by
  unfold DataFrame.copyCol DataFrame.cellN DataFrame.cellGet
  dsimp only
  rw [find?_map_node _ _ (copyColFun_node s d)]
  rcases hf : df.rows.find? (fun r => decide (r.node = x)) with _ | r
  · rw [hf]
    by_cases hc : c = d <;> simp [hc]
  · rw [hf]
    simp only [Option.map_some']
    show (alookup (setCell r.cells d (cellOrNan r s)) c).getD Val.nan = _
    rw [alookup_setCell]
    by_cases hc : c = d
    · rw [if_pos hc, if_pos hc]
      rfl
    · rw [if_neg hc, if_neg hc]

/-- Writing another node's row does not change a reading. -/
theorem cellN_setAt_ne (df : DataFrame) (n : Nat) (u : List (String × Val)) (x : Nat)
    (c : String) (hx : x ≠ n) : (df.setAt n u).cellN x c = df.cellN x c := by
  unfold DataFrame.setAt DataFrame.cellN DataFrame.cellGet
  dsimp only
  rw [find?_map_node _ _ (setAtFun_node n _)]
  rcases hf : df.rows.find? (fun r => decide (r.node = x)) with _ | r
  · rw [hf]
    rfl
  · rw [hf]
    simp only [Option.map_some']
    have hrx : r.node = x := by
      have := List.find?_some hf
      simpa using this
    rw [if_neg (fun he => hx (hrx ▸ he))]

/-- A keyed update fold writes each listed column. -/
theorem alookup_foldl_setCell_keyed (L : List String) (F : String → Val) :
    ∀ (cs : List (String × Val)) (c : String),
      alookup ((L.map (fun k => (k, F k))).foldl (fun acc p => setCell acc p.1 p.2) cs) c =
        if c ∈ L then some (F c) else alookup cs c := by
  induction L with
  | nil => intro cs c; simp
  | cons k rest ih =>
    intro cs c
    rw [List.map_cons, List.foldl_cons, ih]
    by_cases hc : c ∈ rest
    · rw [if_pos hc, if_pos (List.mem_cons_of_mem k hc)]
    · rw [if_neg hc, alookup_setCell]
      by_cases hck : c = k
      · rw [if_pos hck, if_pos (List.mem_cons.mpr (Or.inl hck)), hck]
      · rw [if_neg hck, if_neg (fun hmem => (List.mem_cons.mp hmem).elim hck hc)]

/-- Reading a written column at the written row (keyed update form). -/
theorem cellN_setAt_keyed (df : DataFrame) (n : Nat) (L : List String) (F : String → Val)
    (c : String) :
    (df.setAt n (L.map (fun k => (k, F k)))).cellN n c =
      if n ∈ df.keys ∧ c ∈ L then F c else df.cellN n c := by
  unfold DataFrame.setAt DataFrame.cellN DataFrame.cellGet
  dsimp only
  rw [find?_map_node _ _ (setAtFun_node n _)]
  rcases hf : df.rows.find? (fun r => decide (r.node = n)) with _ | r
  · rw [hf]
    have hnk : n ∉ df.keys := by
      intro hmem
      obtain ⟨r2, hr2, hr2n⟩ := List.mem_map.mp hmem
      have := List.find?_eq_none.mp hf r2 hr2
      simp [hr2n] at this
    rw [if_neg (fun h2 => hnk h2.1)]
    rfl
  · rw [hf]
    have hrn : r.node = n := by
      have := List.find?_some hf
      simpa using this
    have hnk : n ∈ df.keys :=
      hrn ▸ List.mem_map_of_mem (fun r2 => r2.node) (List.mem_of_find?_eq_some hf)
    simp only [Option.map_some']
    rw [if_pos hrn]
    show (alookup ((L.map (fun k => (k, F k))).foldl
      (fun acc p => setCell acc p.1 p.2) r.cells) c).getD Val.nan = _
    rw [alookup_foldl_setCell_keyed]
    by_cases hc : c ∈ L
    · rw [if_pos hc, if_pos ⟨hnk, hc⟩]
      rfl
    · rw [if_neg hc, if_neg (fun h2 => hc h2.2)]

/-- An update fold with unrelated keys leaves a column alone. -/
theorem alookup_foldl_setCell_other (u : List (String × Val)) :
    ∀ (cs : List (String × Val)) (c : String), (∀ p, p ∈ u → p.1 ≠ c) →
      alookup (u.foldl (fun acc p => setCell acc p.1 p.2) cs) c = alookup cs c := by
  induction u with
  | nil => intro cs c _; rfl
  | cons p rest ih =>
    intro cs c hne
    rw [List.foldl_cons, ih _ _ (fun q hq => hne q (List.mem_cons_of_mem p hq)),
      alookup_setCell, if_neg (fun he => hne p (List.mem_cons_self p rest) he.symm)]

/-- A row write never changes columns outside the written keys. -/
theorem cellN_setAt_other (df : DataFrame) (n : Nat) (u : List (String × Val)) (x : Nat)
    (c : String) (hc : ∀ p, p ∈ u → p.1 ≠ c) :
    (df.setAt n u).cellN x c = df.cellN x c := by
  by_cases hx : x = n
  · subst hx
    unfold DataFrame.setAt DataFrame.cellN DataFrame.cellGet
    dsimp only
    rw [find?_map_node _ _ (setAtFun_node x _)]
    rcases hf : df.rows.find? (fun r => decide (r.node = x)) with _ | r
    · rw [hf]
      rfl
    · rw [hf]
      have hrn : r.node = x := by
        have := List.find?_some hf
        simpa using this
      simp only [Option.map_some']
      rw [if_pos hrn]
      show (alookup (u.foldl (fun acc p => setCell acc p.1 p.2) r.cells) c).getD Val.nan = _
      rw [alookup_foldl_setCell_other u r.cells c hc]
  · exact cellN_setAt_ne df n u x c hx

/-- A pair-keyed update fold with duplicate-free keys writes each pair
once. -/
theorem alookup_foldl_setCell_assoc (L : List (String × String)) (G : String × String → Val) :
    ∀ (cs : List (String × Val)) (c : String), ((L.map (fun p => p.1)).Nodup) →
      alookup ((L.map (fun p => (p.1, G p))).foldl (fun acc p => setCell acc p.1 p.2) cs) c =
        match L.find? (fun p => decide (p.1 = c)) with
        | some p => some (G p)
        | none => alookup cs c := by
  induction L with
  | nil => intro cs c _; rfl
  | cons p rest ih =>
    intro cs c hnd
    have hnd2 := List.nodup_cons.mp (by rw [List.map_cons] at hnd; exact hnd)
    rw [List.map_cons, List.foldl_cons, ih _ _ hnd2.2]
    by_cases hpc : p.1 = c
    · rw [List.find?_cons_of_pos _ (by simp [hpc])]
      have hrest : rest.find? (fun q => decide (q.1 = c)) = none := by
        apply List.find?_eq_none.mpr
        intro q hq
        simp only [decide_eq_true_eq]
        intro hqc
        exact hnd2.1 (by rw [hpc, ← hqc]; exact List.mem_map.mpr ⟨q, hq, rfl⟩)
      rw [hrest]
      show alookup (setCell cs p.1 (G p)) c = some (G p)
      rw [alookup_setCell, if_pos hpc.symm]
    · rw [List.find?_cons_of_neg _ (by simp [hpc])]
      rcases hfr : rest.find? (fun q => decide (q.1 = c)) with _ | q
      · rw [hfr]
        show alookup (setCell cs p.1 (G p)) c = alookup cs c
        rw [alookup_setCell, if_neg (fun he => hpc he.symm)]
      · rw [hfr]
